import Mathlib

/-! # mtbzip2: a verification development

A shallow embedding of the parallel bzip2 compressor `mtbzip2.cc`:

* `BitStreamWriter` : the bit-granular output buffer (`Write`, `Flush`, destructor);
* `OutputThread`    : the writer thread with its reorder map (`Add`, `SetLastBlock`, `Run`);
* `InputThread`     : the reader thread with the RLE-1 pre-pass (`add_pair`, `Run`);
* `BlockPool`       : the free and busy queues of the reader (`Get`, `Put`);
* `Compress`        : reader, workers and writer running together;
* `main`            : the argument loop.

The last part is about the spreadsheet `wxsheet.cc`: the cells that a cell
name reaches (`Sheet.ParseCell`, `Sheet.Valid`, `Sheet.CellFn`).

Bytes are natural numbers below 256, machine words are natural numbers reduced
modulo `2 ^ 32` / `2 ^ 64` where the source can wrap.  Threads are modelled by
atomic steps on an explicit state, interleaved by a schedule of events.
-/

set_option autoImplicit false

namespace Mtbzip2

/-! ## BitStreamWriter -/

/-- State of a `BitStreamWriter`.  `buffer` holds the bytes stored in
`[buffer, tail)`, so `tail - buffer = buffer.length`; `fp` is the sequence of
chunks handed to `fwrite`, oldest first. -/
structure BitStreamWriter where
  bufferSize : Nat
  buffer : List Nat
  reg : Nat
  live : Nat
  fp : List (List Nat)
deriving DecidableEq, Repr

namespace BitStreamWriter

/-- Constructor `BitStreamWriter(fp, bufferSize)`: empty buffer, `live = reg = 0`. -/
def new (bufferSize : Nat) : BitStreamWriter :=
  { bufferSize := bufferSize, buffer := [], reg := 0, live := 0, fp := [] }

/-- `Flush()`: hand the buffered bytes to `fwrite` as one chunk, if there are any. -/
def Flush (w : BitStreamWriter) : BitStreamWriter :=
  if w.buffer.length ≠ 0 then { w with fp := w.fp ++ [w.buffer], buffer := [] } else w

/-- The statement pair `*tail = b; if (++tail == bufend) Flush();`.
A store at `tail = bufend` is outside the allocation and has no result. -/
def put (w : BitStreamWriter) (b : Nat) : Option BitStreamWriter :=
  if w.buffer.length < w.bufferSize then
    let w1 := { w with buffer := w.buffer ++ [b] }
    some (if w1.buffer.length = w.bufferSize then w1.Flush else w1)
  else none

/-- The `for (; bits >= 8; bits -= 8)` loop of `Write`.  The loop variables are
the local `r`, the read pointer `data` and `bits`; `live` is not changed by
the loop.  Reading past the end of `data` has no result. -/
def writeLoop : BitStreamWriter → Nat → List Nat → Nat →
    Option (BitStreamWriter × Nat × List Nat × Nat)
  | w, r, [], bits => if bits ≥ 8 then none else some (w, r, [], bits)
  | w, r, d :: ds, bits =>
    if bits ≥ 8 then
      let r1 := ((r <<< 8) % 2 ^ 32) ||| (d <<< (8 - w.live))
      match w.put ((r1 >>> 8) &&& 0xff) with
      | none => none
      | some w1 => writeLoop w1 r1 ds (bits - 8)
    else some (w, r, d :: ds, bits)

/-- `Write(data, bits)`. -/
def Write (w : BitStreamWriter) (data : List Nat) (bits : Nat) : Option BitStreamWriter :=
  match writeLoop w w.reg data bits with
  | none => none
  | some (w1, r, data1, bits1) =>
    if bits1 ≠ 0 then
      match data1 with
      | [] => none
      | d :: _ =>
        let r1 := ((r <<< 8) % 2 ^ 32) ||| (d <<< (8 - w1.live))
        let live1 := w1.live + bits1
        if live1 ≥ 8 then
          let live2 := live1 - 8
          match w1.put ((r1 >>> 8) &&& 0xff) with
          | none => none
          | some w2 =>
            some { w2 with reg := ((r1 >>> (8 - live2)) <<< (8 - live2)) % 2 ^ 32, live := live2 }
        else
          let r2 := r1 >>> 8
          some { w1 with reg := ((r2 >>> (8 - live1)) <<< (8 - live1)) % 2 ^ 32, live := live1 }
    else some { w1 with reg := r }

/-- Destructor `~BitStreamWriter()`: pad the pending bits with zero bits to a
full byte, flush, and close the file.  The result is the sequence of chunks
the file received.  The string literal `"\0"` is the two bytes `0, 0`. -/
def dtor (w : BitStreamWriter) : Option (List (List Nat)) :=
  match (if w.live > 0 then w.Write [0, 0] (8 - w.live) else some w) with
  | none => none
  | some w1 => some w1.Flush.fp

/-- A sequence of `Write` calls, in order. -/
def writeAll : BitStreamWriter → List (List Nat × Nat) → Option BitStreamWriter
  | w, [] => some w
  | w, c :: cs =>
    match w.Write c.1 c.2 with
    | none => none
    | some w1 => writeAll w1 cs

end BitStreamWriter

/-- The eight bits of a byte, most significant first. -/
def bitsMSB (b : Nat) : List Bool :=
  [b.testBit 7, b.testBit 6, b.testBit 5, b.testBit 4,
   b.testBit 3, b.testBit 2, b.testBit 1, b.testBit 0]

/-- The bits of a byte string, MSB-first within each byte. -/
def streamBits (bs : List Nat) : List Bool := bs.flatMap bitsMSB

/-- The first `n` bits of `data`. -/
def firstBits (data : List Nat) (n : Nat) : List Bool := (streamBits data).take n

/-- Concatenation, in call order, of the first `nbits` bits of every write. -/
def writtenBits (calls : List (List Nat × Nat)) : List Bool :=
  calls.flatMap fun c => firstBits c.1 c.2

/-- Total number of bits of a sequence of writes. -/
def totalBits (calls : List (List Nat × Nat)) : Nat := (calls.map Prod.snd).sum

/-- Bytes the file receives when a fresh writer with buffer size `n` performs
the given writes and is then destroyed. -/
def emittedBytes (n : Nat) (calls : List (List Nat × Nat)) : Option (List Nat) :=
  match (BitStreamWriter.new n).writeAll calls with
  | none => none
  | some w => (w.dtor).map List.flatten

/-- Bit `i` of `x` (a plain name for `Nat.testBit`, used in the bit-level lemmas). -/
def nbit (x i : Nat) : Bool := x.testBit i

namespace BitStreamWriter

/-- All bytes stored so far: those already handed to the file and those still
in the buffer. -/
def stored (w : BitStreamWriter) : List Nat := w.fp.flatten ++ w.buffer

/-- The `live` pending bits, read from the top of the low byte of `reg`. -/
def pending (w : BitStreamWriter) : List Bool := (bitsMSB (w.reg % 256)).take w.live

/-- The bit stream accepted so far. -/
def bits (w : BitStreamWriter) : List Bool := streamBits w.stored ++ w.pending

/-- Representation invariant: fewer than eight pending bits, room for one more
byte in the buffer, and zeros below the pending bits in the low byte of `reg`. -/
def WF (w : BitStreamWriter) : Prop :=
  w.live < 8 ∧ w.buffer.length < w.bufferSize ∧
    (bitsMSB (w.reg % 256)).drop w.live = List.replicate (8 - w.live) false

end BitStreamWriter

/-! ## OutputThread -/

/-- The `struct Rec` of `OutputThread`: payload, its length in bits, block CRC. -/
structure Rec where
  data : List Nat
  bits : Nat
  crc : Nat
deriving DecidableEq, Repr

/-- The arguments `(rec.data, rec.bits)` of the `Write` call made for a record. -/
def Rec.payload (r : Rec) : List Nat × Nat := (r.data, r.bits)

/-- Assignment `m[k] = v` on a `std::map`, kept as a list with ascending keys. -/
def mapAssign : List (Nat × Rec) → Nat → Rec → List (Nat × Rec)
  | [], k, v => [(k, v)]
  | (k1, v1) :: rest, k, v =>
    if k < k1 then (k, v) :: (k1, v1) :: rest
    else if k = k1 then (k, v) :: rest
    else (k1, v1) :: mapAssign rest k v

/-- The call `m.erase(k)` on a `std::map`. -/
def mapErase (m : List (Nat × Rec)) (k : Nat) : List (Nat × Rec) :=
  m.filter fun e => e.1 ≠ k

/-- Position of the writer thread inside `Run`: at the head of the loop with
the mutex held (or waiting on the condition variable), between
`pthread_mutex_unlock` and `pthread_mutex_lock` with the record taken from the
map, or past `delete writer`. -/
inductive RunPc
  | locked
  | writing (rec : Rec)
  | finished
deriving DecidableEq, Repr

/-- State of an `OutputThread`.  The field `writer` records the calls
`writer->Write(data, bits)` made so far, oldest first, and `deleted` whether
`delete writer` has run; `c_crc` is the local variable of `Run`. -/
structure OutputThread where
  writer : List (List Nat × Nat)
  deleted : Bool
  next_id : Nat
  last_id : Nat
  completed : List (Nat × Rec)
  c_crc : Nat
  pc : RunPc
deriving DecidableEq, Repr

namespace OutputThread

/-- The array `magic` of the constructor: `'B'`, `'Z'`, `'h'` and
`'0' + blockSize100k` converted to `unsigned char`. -/
def magic (blockSize100k : Nat) : List Nat := [0x42, 0x5A, 0x68, (0x30 + blockSize100k) % 256]

/-- The array `a` of `Run`: the end-of-stream marker and the four bytes of
`c_crc`, taken by shifting and masking. -/
def trailer (c_crc : Nat) : List Nat :=
  [0x17, 0x72, 0x45, 0x38, 0x50, 0x90, (c_crc >>> 24) &&& 0xff,
    (c_crc >>> 16) &&& 0xff, (c_crc >>> 8) &&& 0xff, c_crc &&& 0xff]

/-- Constructor: writes the four magic bytes as 32 bits; `next_id = 1`,
`last_id = (uint64_t)(-1)`. -/
def new (blockSize100k : Nat) : OutputThread :=
  { writer := [(magic blockSize100k, 32)]
    deleted := false
    next_id := 1
    last_id := 2 ^ 64 - 1
    completed := []
    c_crc := 0
    pc := RunPc.locked }

/-- `Add(block_id, data, bits, crc)`, called by a worker. -/
def Add (o : OutputThread) (block_id : Nat) (data : List Nat) (bits crc : Nat) : OutputThread :=
  { o with completed := mapAssign o.completed block_id { data := data, bits := bits, crc := crc } }

/-- `SetLastBlock(id)`. -/
def SetLastBlock (o : OutputThread) (id : Nat) : OutputThread :=
  { o with last_id := id }

/-- One atomic section of `Run`.

* At the loop head: leave the loop when `next_id > last_id`, then write the
  end-of-stream marker with the combined CRC and delete the writer; wait
  (no change) when the map is empty or its least key is not `next_id`;
  otherwise take the least record, erase it, increment `next_id`, unlock.
* With a record in hand: `Write` it, fold its CRC into `c_crc`, lock again. -/
def step (o : OutputThread) : OutputThread :=
  match o.pc with
  | RunPc.locked =>
    if o.next_id > o.last_id then
      { o with
        writer := o.writer ++ [(trailer o.c_crc, 80)]
        deleted := true
        pc := RunPc.finished }
    else
      match o.completed with
      | [] => o
      | (k, rec) :: _ =>
        if k ≠ o.next_id then o
        else
          { o with
            completed := mapErase o.completed o.next_id
            next_id := (o.next_id + 1) % 2 ^ 64
            pc := RunPc.writing rec }
  | RunPc.writing rec =>
    { o with
      writer := o.writer ++ [(rec.data, rec.bits)]
      c_crc := (((o.c_crc <<< 1) % 2 ^ 32) ||| (o.c_crc >>> 31)) ^^^ rec.crc
      pc := RunPc.locked }
  | RunPc.finished => o

end OutputThread

/-- What can happen to an `OutputThread`: a worker calls `Add`, the
orchestrator calls `SetLastBlock`, or the writer thread runs its next
atomic section. -/
inductive Event
  | add (block_id : Nat) (rec : Rec)
  | setLastBlock (id : Nat)
  | run
deriving DecidableEq, Repr

/-- The block id of an `Add` event. -/
def Event.addId : Event → Option Nat
  | Event.add id _ => some id
  | _ => none

namespace OutputThread

/-- Effect of one event. -/
def exec (o : OutputThread) : Event → OutputThread
  | Event.add id rec => o.Add id rec.data rec.bits rec.crc
  | Event.setLastBlock id => o.SetLastBlock id
  | Event.run => o.step

/-- Effect of a schedule of events, in order. -/
def execAll (o : OutputThread) (evs : List Event) : OutputThread := evs.foldl exec o

/-- The `Write` calls made inside the drain loop: all calls but the header
written by the constructor and, once the loop is left, the trailer. -/
def loopWrites (o : OutputThread) : List (List Nat × Nat) :=
  match o.pc with
  | RunPc.finished => (o.writer.drop 1).dropLast
  | _ => o.writer.drop 1

end OutputThread

/-- An event of a run over the blocks `recs` (block `i` is `recs[i-1]`): an
`Add` carries an id in `1..K` with that block's record, `SetLastBlock` carries
`K`. -/
def Event.ok (recs : List Rec) : Event → Prop
  | Event.add id rec => 1 ≤ id ∧ id ≤ recs.length ∧ recs.get? (id - 1) = some rec
  | Event.setLastBlock id => id = recs.length
  | Event.run => True

instance (recs : List Rec) (e : Event) : Decidable (e.ok recs) := by
  cases e <;> unfold Event.ok <;> infer_instance

/-- A schedule over the blocks `recs` in which every block id is added at most
once. -/
def validSchedule (recs : List Rec) (evs : List Event) : Prop :=
  (∀ e ∈ evs, e.ok recs) ∧ (evs.filterMap Event.addId).Nodup

/-- A valid schedule in which every block `1..K` has been added and
`SetLastBlock(K)` has been called. -/
def completeSchedule (recs : List Rec) (evs : List Event) : Prop :=
  validSchedule recs evs ∧
    (∀ id, 1 ≤ id → id ≤ recs.length → id ∈ evs.filterMap Event.addId) ∧
    Event.setLastBlock recs.length ∈ evs

/-- 32-bit rotate left by one. -/
def rotl1 (a : Nat) : Nat := (a * 2) % 2 ^ 32 + a / 2 ^ 31

/-- The combined CRC of the spec: left fold of `rotl1 a xor c` from 0. -/
def combineCrc (crcs : List Nat) : Nat := crcs.foldl (fun a c => rotl1 a ^^^ c) 0

/-- The four bytes of a 32-bit value, most significant first. -/
def be32 (c : Nat) : List Nat := [c / 2 ^ 24 % 256, c / 2 ^ 16 % 256, c / 2 ^ 8 % 256, c % 256]

/-- The 32-bit value stored most significant byte first in bytes 6..9 of a
trailer write. -/
def trailerCrc (call : List Nat × Nat) : Nat :=
  ((call.1.drop 6).take 4).foldl (fun a b => a * 256 + b) 0

/-- The value of `c_crc` after the records `rs` have been written, computed
with the expression of `Run`. -/
def crcFold (rs : List Rec) : Nat :=
  rs.foldl (fun a r => (((a <<< 1) % 2 ^ 32) ||| (a >>> 31)) ^^^ r.crc) 0

/-- Invariant of the writer under a valid schedule over `recs`; `A` lists the
block ids added so far. -/
structure WriterInv (k : Nat) (recs : List Rec) (A : List Nat) (o : OutputThread) : Prop where
  last : o.last_id = 2 ^ 64 - 1 ∨ o.last_id = recs.length
  sorted : o.completed.Pairwise fun a b => a.1 < b.1
  keys : ∀ e ∈ o.completed,
    o.next_id ≤ e.1 ∧ e.1 ≤ recs.length ∧ recs.get? (e.1 - 1) = some e.2 ∧ e.1 ∈ A
  below : ∀ id, 1 ≤ id → id < o.next_id → id ∈ A
  added : ∀ id ∈ A, id < o.next_id ∨ id ∈ o.completed.map Prod.fst
  range : 1 ≤ o.next_id ∧ o.next_id ≤ recs.length + 1
  at_pc :
    match o.pc with
    | RunPc.locked =>
      o.writer = (OutputThread.magic k, 32) :: (recs.take (o.next_id - 1)).map Rec.payload ∧
        o.c_crc = crcFold (recs.take (o.next_id - 1)) ∧ o.deleted = false
    | RunPc.writing rec =>
      2 ≤ o.next_id ∧ recs.get? (o.next_id - 2) = some rec ∧
        o.writer = (OutputThread.magic k, 32) :: (recs.take (o.next_id - 2)).map Rec.payload ∧
        o.c_crc = crcFold (recs.take (o.next_id - 2)) ∧ o.deleted = false
    | RunPc.finished =>
      o.next_id = recs.length + 1 ∧ o.last_id = recs.length ∧
        o.writer = (OutputThread.magic k, 32) :: recs.map Rec.payload
          ++ [(OutputThread.trailer (crcFold recs), 80)] ∧ o.deleted = true

/-- Number of atomic sections the writer still has to run once every block has
been added and the last id is known. -/
def OutputThread.remaining (K : Nat) (o : OutputThread) : Nat :=
  match o.pc with
  | RunPc.locked => 2 * (K + 1 - o.next_id) + 1
  | RunPc.writing _ => 2 * (K + 1 - o.next_id) + 2
  | RunPc.finished => 0

/-! ## InputThread -/

/-- `struct InputBlock`.  `data` holds the bytes stored into the buffer since
it was taken from the free pool, that is `data[0..nblock)`. -/
structure InputBlock where
  data : List Nat
  size : Nat
  crc : Nat
  id : Nat
deriving DecidableEq, Repr

/-- Modelled from the spec: the macro `BZ_INITIALISE_CRC` of `bzlib_private.h`,
which is not among the sources; the register starts with all 32 bits set. -/
def BZ_INITIALISE_CRC : Nat := 0xffffffff

/-- Modelled from the spec: the macro `BZ_FINALISE_CRC` of `bzlib_private.h`,
which is not among the sources; the 32-bit register is complemented. -/
def BZ_FINALISE_CRC (crc : Nat) : Nat := crc ^^^ 0xffffffff

/-- One shift of the CRC register, MSB-first, polynomial `0x04C11DB7`. -/
def crcShift (c : Nat) : Nat :=
  if c.testBit 31 then ((c <<< 1) % 2 ^ 32) ^^^ 0x04C11DB7 else (c <<< 1) % 2 ^ 32

/-- Modelled from the spec: the macro `BZ_UPDATE_CRC` of `bzlib_private.h`,
which is not among the sources (nor is its table `BZ2_crc32Table`); the byte
`(UChar)cha` is folded into the top of the register, which is then shifted
eight times. -/
def BZ_UPDATE_CRC (crc cha : Nat) : Nat := crcShift^[8] (crc ^^^ ((cha % 256) <<< 24))

/-- The bzip2 CRC-32 of a byte string: register initialised to all ones,
updated byte by byte, complemented at the end. -/
def crc32_bzip2 (xs : List Nat) : Nat :=
  BZ_FINALISE_CRC (xs.foldl BZ_UPDATE_CRC BZ_INITIALISE_CRC)

/-- State of an `InputThread` as far as `Run` is concerned.  `block` is `none`
for `NULL` and otherwise the bytes stored so far at `block[0..nblock)`;
`busy_queue` lists the blocks pushed by `DispatchBlock`, oldest first (the
workers that pop them are not part of this state); `fp` tells whether the
input file is still open. -/
structure InputThread where
  rle_ch : Nat
  rle_len : Nat
  crc : Nat
  nblock : Nat
  nblockMAX : Nat
  block_id : Nat
  block : Option (List Nat)
  busy_queue : List InputBlock
  fp : Bool
deriving DecidableEq, Repr

namespace InputThread

/-- Constructor: `nblockMAX = 100000 * blockSize100k - 19` converted to
`uint32_t`, `block_id = 0`. -/
def new (blockSize100k : Nat) : InputThread :=
  { rle_ch := 0, rle_len := 0, crc := 0, nblock := 0
    nblockMAX := (100000 * blockSize100k + 2 ^ 32 - 19) % 2 ^ 32
    block_id := 0, block := none, busy_queue := [], fp := true }

/-- `GetBlocksCount()`. -/
def GetBlocksCount (s : InputThread) : Nat := s.block_id

/-- The store `block[nblock++] = (unsigned char)x`. -/
def storeByte (s : InputThread) (x : Nat) : InputThread :=
  { s with block := s.block.map (· ++ [x % 256]), nblock := s.nblock + 1 }

/-- The loop `while (rle_len-- != 0) BZ_UPDATE_CRC(crc, rle_ch);` as a function
of `rle_len`, `crc` and `rle_ch`: the final `crc`. -/
def crcLoop : Nat → Nat → Nat → Nat
  | 0, crc, _ => crc
  | n + 1, crc, ch => crcLoop n (BZ_UPDATE_CRC crc ch) ch

/-- `add_pair()`: store the tuple of the pending run and fold the run into the
CRC.  The post-decrement leaves `rle_len` at `2^32 - 1`. -/
def add_pair (s : InputThread) : InputThread :=
  let s1 :=
    match s.rle_len with
    | 1 => s.storeByte s.rle_ch
    | 2 => (s.storeByte s.rle_ch).storeByte s.rle_ch
    | 3 => ((s.storeByte s.rle_ch).storeByte s.rle_ch).storeByte s.rle_ch
    | _ =>
      ((((s.storeByte s.rle_ch).storeByte s.rle_ch).storeByte s.rle_ch).storeByte
        s.rle_ch).storeByte ((s.rle_len + 2 ^ 32 - 4) % 2 ^ 32)
  { s1 with crc := crcLoop s.rle_len s.crc s.rle_ch, rle_len := 2 ^ 32 - 1 }

/-- `PrepareBlock()`: take a buffer from the free pool (the wait for a free
buffer is not part of this state) and count the block. -/
def PrepareBlock (s : InputThread) : InputThread :=
  { s with block := some [], block_id := (s.block_id + 1) % 2 ^ 64 }

/-- `DispatchBlock()`: record size, CRC and id in the block and push it on the
busy queue. -/
def DispatchBlock (s : InputThread) : InputThread :=
  { s with busy_queue := s.busy_queue ++
      [{ data := s.block.getD [], size := s.nblock, crc := s.crc, id := s.block_id }] }

/-- The block-full check at the head of a loop iteration: when the block is
full (or there is none yet), dispatch it and prepare the next one. -/
def checkFull (s : InputThread) : InputThread :=
  if s.nblock ≥ s.nblockMAX then
    let s2 := if s.block ≠ none then DispatchBlock { s with crc := BZ_FINALISE_CRC s.crc } else s
    { PrepareBlock s2 with nblock := 0, crc := BZ_INITIALISE_CRC }
  else s

/-- The run-length step of a loop iteration for the input byte `ch`. -/
def rleByte (s : InputThread) (ch : Nat) : InputThread :=
  if ch ≠ s.rle_ch ∧ s.rle_len = 1 then
    { (storeByte { s with crc := BZ_UPDATE_CRC s.crc s.rle_ch } s.rle_ch) with rle_ch := ch }
  else if ch = s.rle_ch ∧ s.rle_len ≠ 255 then
    { s with rle_len := (s.rle_len + 1) % 2 ^ 32 }
  else
    let s3 := if s.rle_ch ≠ 256 then s.add_pair else s
    { s3 with rle_ch := ch, rle_len := 1 }

/-- One iteration of the main loop of `Run` after the buffer has been
refilled: the block-full check, then the input byte `ch`. -/
def feed (s : InputThread) (ch : Nat) : InputThread := rleByte (checkFull s) ch

/-- The iterations of the main loop that use up one buffer fill. -/
def feedAll (s : InputThread) (buffer : List Nat) : InputThread := buffer.foldl feed s

/-- The main loop of `Run`; `reads` lists the results of the successive
`fread` calls.  The loop ends when `fread` returns no byte. -/
def readLoop : InputThread → List (List Nat) → InputThread
  | s, [] => s
  | s, [] :: _ => s
  | s, (c :: cs) :: rest => readLoop (feedAll s (c :: cs)) rest

/-- The state `Run` starts its loop from. -/
def start (s : InputThread) : InputThread :=
  { s with nblock := s.nblockMAX, block := none, rle_ch := 256, rle_len := 0 }

/-- What `Run` does after the loop: flush the pending run, dispatch the last
block if it holds any byte, close the input. -/
def finish (s : InputThread) : InputThread :=
  let s2 := if s.rle_ch ≠ 256 ∧ s.rle_len > 0 then s.add_pair else s
  let s3 :=
    if s2.block ≠ none ∧ s2.nblock ≠ 0 then DispatchBlock { s2 with crc := BZ_FINALISE_CRC s2.crc }
    else s2
  { s3 with fp := false }

/-- `Run()`. -/
def Run (s : InputThread) (reads : List (List Nat)) : InputThread :=
  finish (readLoop (start s) reads)

end InputThread

/-- The bytes `Run` reads: the results of `fread` up to the first empty one. -/
def consumed : List (List Nat) → List Nat
  | [] => []
  | [] :: _ => []
  | (c :: cs) :: rest => (c :: cs) ++ consumed rest

/-- The valid bytes `data[0..size)` of a block. -/
def InputBlock.bytes (b : InputBlock) : List Nat := b.data.take b.size

/-- The bzip2 RLE-1 decoder with its state: `last` is the byte of the current
run and `cnt` the number of equal bytes seen (0 at the start and after a count
byte).  After four equal bytes the next byte is a count of extra repeats. -/
def unRLEFrom : Nat → Nat → List Nat → List Nat
  | _, _, [] => []
  | last, cnt, b :: bs =>
    if cnt = 4 then List.replicate b last ++ unRLEFrom last 0 bs
    else if cnt ≠ 0 ∧ b = last then b :: unRLEFrom last (cnt + 1) bs
    else b :: unRLEFrom b 1 bs

/-- The bzip2 RLE-1 decoder on a whole block. -/
def unRLE (data : List Nat) : List Nat := unRLEFrom 0 0 data

/-- State `(last, cnt)` of the RLE-1 decoder after it has read `data`. -/
def unRLEState : Nat → Nat → List Nat → Nat × Nat
  | last, cnt, [] => (last, cnt)
  | last, cnt, b :: bs =>
    if cnt = 4 then unRLEState last 0 bs
    else if cnt ≠ 0 ∧ b = last then unRLEState last (cnt + 1) bs
    else unRLEState b 1 bs

/-- The RLE-1 tuple of a run of `n` bytes `c`. -/
def tuple (c n : Nat) : List Nat :=
  if n = 1 then [c] else if n = 2 then [c, c] else if n = 3 then [c, c, c]
  else [c, c, c, c, n - 4]

/-- A run `(c, n)` that one tuple can carry with the reader's limit of 255. -/
def validRun (r : Nat × Nat) : Prop := r.1 < 256 ∧ 1 ≤ r.2 ∧ r.2 ≤ 255

/-- The tuples of a list of runs, concatenated. -/
def encodeRuns (rs : List (Nat × Nat)) : List Nat := rs.flatMap fun r => tuple r.1 r.2

/-- The bytes a list of runs stands for. -/
def expandRuns (rs : List (Nat × Nat)) : List Nat := rs.flatMap fun r => List.replicate r.2 r.1

/-- A dispatched block is well formed: `size` counts its bytes and is between
1 and `bound`, the bytes are a whole number of RLE-1 tuples which the decoder
turns back into the runs they stand for, and `crc` is the CRC of the decoded
bytes. -/
def BlockOK (bound : Nat) (b : InputBlock) : Prop :=
  b.size = b.data.length ∧ 1 ≤ b.size ∧ b.size ≤ bound ∧
    (∃ rs, (∀ r ∈ rs, validRun r) ∧ b.data = encodeRuns rs ∧ unRLE b.data = expandRuns rs) ∧
    b.crc = crc32_bzip2 (unRLE b.data)

/-- Invariant of the reader after it has consumed the non-empty input prefix
`P`, with `d` the bytes of the current block. -/
structure ReaderInv (P : List Nat) (s : InputThread) (d : List Nat) : Prop where
  blk : s.block = some d
  len : s.nblock = d.length
  runs : ∃ rs, (∀ r ∈ rs, validRun r) ∧ d = encodeRuns rs ∧ unRLE d = expandRuns rs
  boundary : (unRLEState 0 0 d).2 ≤ 3 ∧
    ((unRLEState 0 0 d).2 = 0 ∨ (unRLEState 0 0 d).1 ≠ s.rle_ch)
  crc : s.crc = (unRLE d).foldl BZ_UPDATE_CRC BZ_INITIALISE_CRC
  input : P = (s.busy_queue.map fun b => unRLE b.bytes).flatten ++ unRLE d
    ++ List.replicate s.rle_len s.rle_ch
  ch : s.rle_ch < 256
  run : 1 ≤ s.rle_len ∧ s.rle_len ≤ 255
  fill : (s.rle_len = 1 ∧ s.nblock ≤ s.nblockMAX + 4) ∨ s.nblock < s.nblockMAX
  blocks : ∀ b ∈ s.busy_queue, BlockOK (s.nblockMAX + 5) b

/-- Invariant of the block numbering after `n` input bytes. -/
structure IdInv (n : Nat) (s : InputThread) : Prop where
  ids : s.busy_queue.map InputBlock.id = List.range' 1 s.busy_queue.length
  count : (s.block = none ∧ s.block_id = 0 ∧ s.busy_queue = []) ∨
    (s.block ≠ none ∧ s.block_id = s.busy_queue.length + 1)
  le : s.block_id ≤ n

/-- The buffer size `kOutBuf` that `Compress` gives the `BitStreamWriter`. -/
def kOutBuf : Nat := 1048576

/-- An input of `n` bytes alternating between `b` and `1 - b`, starting with
`b`: no two neighbours are equal. -/
def alternating : Nat → Nat → List Nat
  | 0, _ => []
  | n + 1, b => b :: alternating n (1 - b)
/-! ## main: the argument loop -/

/-- The locals of `main` that the argument loop sets. -/
structure MainArgs where
  blockSize100k : Int
  numLocalWorkers : Int
  keepFlag : Int
  files : List String
deriving DecidableEq, Repr

/-- The test `isdigit(c)` in the "C" locale. -/
def isdigit (c : Char) : Bool := decide (48 ≤ c.toNat ∧ c.toNat ≤ 57)

/-- The test `isspace(c)` in the "C" locale: space, `\t`, `\n`, `\v`, `\f`, `\r`. -/
def isspace (c : Char) : Bool := decide (c.toNat = 32 ∨ (9 ≤ c.toNat ∧ c.toNat ≤ 13))

/-- The digits read by `atoi`, most significant first, added to `acc`. -/
def atoiDigits : Int → List Char → Int
  | acc, [] => acc
  | acc, c :: cs => if isdigit c then atoiDigits (acc * 10 + ((c.toNat : Int) - 48)) cs else acc

/-- The library function `atoi`: white space, an optional sign, then decimal
digits up to the first other character.  A value outside `int` is undefined
in C; this is the value of the digits. -/
def atoi (s : String) : Int :=
  match s.data.dropWhile isspace with
  | '-' :: ds => - atoiDigits 0 ds
  | '+' :: ds => atoiDigits 0 ds
  | ds => atoiDigits 0 ds

/-- The body of the argument loop of `main` for the argument `arg = argv[i]`;
`next` is `argv[i + 1]` when `i + 1 < argc`.  The result is `none` when the
usage text is printed and `die()` ends the program, and otherwise the locals
with the flag that tells whether `++i` has used up the next argument.  An
argument is taken as its characters: `argv[i][0] != '-'` fails when the first
character is `-`, and `strlen(argv[i]) == 2 && isdigit(argv[i][1])` holds when
there are two characters and the second is a digit. -/
def mainArg (a : MainArgs) (arg : String) (next : Option String) : Option (MainArgs × Bool) :=
  if arg.data.head? ≠ some '-' then
    some ({ a with files := a.files ++ [arg] }, false)
  else if arg.data.length = 2 ∧ isdigit (arg.data.getD 1 ' ') = true then
    some ({ a with blockSize100k := ((arg.data.getD 1 ' ').toNat : Int) - 48 }, false)
  else if arg = "-p" ∧ next.isSome = true then
    some ({ a with numLocalWorkers := atoi (next.getD "") }, true)
  else if arg = "-k" then
    some ({ a with keepFlag := 1 }, false)
  else none

/-- The argument loop of `main` from position `i` on, the list being
`argv[i..argc)`. -/
def mainLoop : MainArgs → List String → Option MainArgs
  | a, [] => some a
  | a, [arg] =>
    match mainArg a arg none with
    | none => none
    | some (a1, _) => some a1
  | a, arg :: next :: rest =>
    match mainArg a arg (some next) with
    | none => none
    | some (a1, true) => mainLoop a1 rest
    | some (a1, false) => mainLoop a1 (next :: rest)

/-- The head of `main` without `MPIBZIP2`: the locals are initialised
(`cpus` is the value of `DetectCPUs()`) and the arguments after `argv[0]` are
gone through. -/
def main (argv : List String) (cpus : Int) : Option MainArgs :=
  mainLoop { blockSize100k := 9, numLocalWorkers := cpus, keepFlag := 0, files := [] }
    (argv.drop 1)

/-- An argument that the loop reads as a block size flag. -/
def isSizeFlag (arg : String) : Bool :=
  decide (arg.data.head? = some '-' ∧ arg.data.length = 2) && isdigit (arg.data.getD 1 ' ')

/-! ## InputThread: the pool of blocks -/

/-- The members of an `InputThread` that its mutex protects, with the pointer
`blk`.  A pointer to an `InputBlock` is shown as the index, in order of
allocation by the constructor, of the block it points to; an entry of the busy
queue is shown with the fields that were stored through the pointer before it
was pushed.  `free_queue` is a `vector`, its back being the end of the list;
`busy_queue` is a `queue`, its front being the head of the list; `blk` is
`none` for a pointer not yet assigned and `fp` tells whether `fp != NULL`. -/
structure BlockPool where
  free_queue : List Nat
  busy_queue : List (Nat × InputBlock)
  blk : Option Nat
  fp : Bool
deriving DecidableEq, Repr

/-- What a call of `Get` does: it waits on `busy_cv`, or it returns a pointer
(`none` for `NULL`) and leaves the pool in a new state. -/
inductive GetResult
  | wait
  | ret (b : Option (Nat × InputBlock)) (p : BlockPool)
deriving DecidableEq, Repr

namespace BlockPool

/-- The loop of the constructor: `queueSize` blocks are allocated and pushed
on the free queue. -/
def new (queueSize : Nat) : BlockPool :=
  { free_queue := List.range queueSize, busy_queue := [], blk := none, fp := true }

/-- The critical section of `PrepareBlock()`: `none` while the free queue is
empty (the caller waits on `free_cv`), otherwise the back of the free queue is
moved to `blk`. -/
def PrepareBlock (p : BlockPool) : Option BlockPool :=
  match p.free_queue.getLast? with
  | none => none
  | some b => some { p with blk := some b, free_queue := p.free_queue.dropLast }

/-- `DispatchBlock()`, `b` carrying the values stored in `blk->size`,
`blk->crc` and `blk->id` and the bytes of `blk->data`: `blk` is pushed on the
busy queue; `none` when `blk` has not been assigned. -/
def DispatchBlock (p : BlockPool) (b : InputBlock) : Option BlockPool :=
  match p.blk with
  | none => none
  | some i => some { p with busy_queue := p.busy_queue ++ [(i, b)] }

/-- `Get()`. -/
def Get (p : BlockPool) : GetResult :=
  if p.busy_queue.length = 0 ∧ p.fp = true then GetResult.wait
  else
    match p.busy_queue with
    | x :: rest => GetResult.ret (some x) { p with busy_queue := rest }
    | [] => GetResult.ret none p

/-- `Put(b)`. -/
def Put (p : BlockPool) (b : Nat) : BlockPool :=
  { p with free_queue := p.free_queue ++ [b] }

/-- The end of `Run`: `fclose(fp); fp = NULL;`. -/
def close (p : BlockPool) : BlockPool := { p with fp := false }

end BlockPool

/-- A call made on the pool: by the reader thread (`PrepareBlock`,
`DispatchBlock`, the end of `Run`) or by a consumer (`Get`, `Put`). -/
inductive PoolOp
  | prepare
  | dispatch (b : InputBlock)
  | get
  | put (ptr : Nat)
  | close
deriving DecidableEq, Repr

/-- The block of a `dispatch` call. -/
def PoolOp.dispatched : PoolOp → Option InputBlock
  | PoolOp.dispatch b => some b
  | _ => none

/-- A pool together with its users: `reader` tells whether the reader is
between `PrepareBlock` and `DispatchBlock`, that is holds the block `blk`;
`held` lists the pointers that `Get` has returned and that have not been given
back by `Put`; `got` lists the blocks that `Get` has returned, oldest first. -/
structure PoolState where
  pool : BlockPool
  reader : Bool
  held : List Nat
  got : List InputBlock
deriving DecidableEq, Repr

namespace PoolState

/-- The pool of a fresh `InputThread`. -/
def new (queueSize : Nat) : PoolState :=
  { pool := BlockPool.new queueSize, reader := false, held := [], got := [] }

/-- One call; `none` when the call cannot be made or completed in this state:
`PrepareBlock` and `Get` while they wait; `PrepareBlock` while the reader
holds a block and `DispatchBlock` while it holds none (`Run` calls them in
turn, `PrepareBlock` first); `Put` of a pointer that is not held. -/
def step (st : PoolState) : PoolOp → Option PoolState
  | PoolOp.prepare =>
    if st.reader = true then none
    else
      match st.pool.PrepareBlock with
      | none => none
      | some p => some { st with pool := p, reader := true }
  | PoolOp.dispatch b =>
    if st.reader = true then
      match st.pool.DispatchBlock b with
      | none => none
      | some p => some { st with pool := p, reader := false }
    else none
  | PoolOp.get =>
    match st.pool.Get with
    | GetResult.wait => none
    | GetResult.ret none p => some { st with pool := p }
    | GetResult.ret (some x) p =>
      some { st with pool := p, held := x.1 :: st.held, got := st.got ++ [x.2] }
  | PoolOp.put ptr =>
    if ptr ∈ st.held then some { st with pool := st.pool.Put ptr, held := st.held.erase ptr }
    else none
  | PoolOp.close => some { st with pool := st.pool.close }

/-- A sequence of calls, in order. -/
def run : PoolState → List PoolOp → Option PoolState
  | st, [] => some st
  | st, op :: ops =>
    match st.step op with
    | none => none
    | some st1 => run st1 ops

/-- The pointers accounted for: in the free queue, in the busy queue, held by
the reader, held by consumers. -/
def owned (st : PoolState) : List Nat :=
  st.pool.free_queue ++ st.pool.busy_queue.map Prod.fst ++
    (if st.reader = true then st.pool.blk.toList else []) ++ st.held

end PoolState

/-! ## Compress: reader, workers and writer together -/

/-- What `WorkerThread::Run` hands to `Add` for a block: the outcome of
`compressor->Compress(size, crc)` on the `size` bytes copied from the block,
of which `(bits + 7) / 8` bytes are copied out.  `BZ2_compressBlock` is the
block coder of the bzip2 library that `BzipBlockCompressor::Compress` calls;
it is a parameter here, a function of the block size class, the bytes of the
block and its CRC that gives the output buffer and the value of
`OutputBits()`. -/
def WorkerThread.compressed (BZ2_compressBlock : Nat → List Nat → Nat → List Nat × Nat)
    (blockSize100k : Nat) (b : InputBlock) : Rec :=
  { data := (BZ2_compressBlock blockSize100k (b.data.take b.size) b.crc).1.take
      (((BZ2_compressBlock blockSize100k (b.data.take b.size) b.crc).2 % 2 ^ 32 + 7)
        % 2 ^ 32 / 8)
    bits := (BZ2_compressBlock blockSize100k (b.data.take b.size) b.crc).2 % 2 ^ 32
    crc := b.crc }

/-- Position of a worker thread inside `WorkerThread::Run`: about to call
`Get`; between `Get` and `Put` with the pointer `blk`, whose block holds `b`;
after `Put`, with the copied size, CRC, id and bytes of the block, up to the
call of `Add`; past the loop, `Get` having returned `NULL`. -/
inductive WorkerPc
  | idle
  | copying (blk : Nat) (b : InputBlock)
  | compressing (b : InputBlock)
  | exited
deriving DecidableEq, Repr

/-- The block a worker is working on, if any. -/
def WorkerPc.block : WorkerPc → List InputBlock
  | WorkerPc.copying _ b => [b]
  | WorkerPc.compressing b => [b]
  | _ => []

/-- The threads of `Compress` between their synchronisation points.  The
reader thread runs `InputThread::Run`; it meets the other threads only in the
critical sections of `PrepareBlock` and `DispatchBlock` and when it closes the
input, and what it stores in a block does not depend on them, so it is
replayed from the outcome of `InputThread.Run`: `todo` lists the blocks it has
still to dispatch, `reader` tells whether it is between `PrepareBlock` and
`DispatchBlock`, and `count` is the value `GetBlocksCount()` has once `Run` has
returned.  `workers` are the local worker threads and `othread` the writer. -/
structure CompressState where
  ithread : BlockPool
  todo : List InputBlock
  reader : Bool
  count : Nat
  workers : List WorkerPc
  othread : OutputThread
deriving DecidableEq, Repr

/-- A step of one thread of `Compress`: the reader's `PrepareBlock`,
`DispatchBlock` and closing of the input; the `Get`, `Put` and `Add` of worker
`i`; the `SetLastBlock` of the thread that called `Compress`; an
atomic section of the writer. -/
inductive CompressEvent
  | prepare
  | dispatch
  | close
  | get (i : Nat)
  | put (i : Nat)
  | add (i : Nat)
  | setLastBlock
  | run
deriving DecidableEq, Repr

namespace Compress

/-- The state in which `Compress(fin, fout, blockSize100k, numLocalWorkers)`
has started its threads, without `MPIBZIP2` (`mpisize = 0`); `reads` lists
what the calls of `fread` on `fin` will return. -/
def start (blockSize100k numLocalWorkers : Nat) (reads : List (List Nat)) : CompressState :=
  { ithread := BlockPool.new (numLocalWorkers + 0 + 2)
    todo := ((InputThread.new blockSize100k).Run reads).busy_queue
    reader := false
    count := ((InputThread.new blockSize100k).Run reads).GetBlocksCount
    workers := List.replicate numLocalWorkers WorkerPc.idle
    othread := OutputThread.new blockSize100k }

/-- One step; `none` when the thread cannot take it in this state: it is not
at that point of its code, or it waits (in `PrepareBlock` on an empty free
queue, in `Get` on an empty busy queue with the input open, in `pthread_join`
of the reader thread while the input is open). -/
def step (BZ2_compressBlock : Nat → List Nat → Nat → List Nat × Nat) (blockSize100k : Nat)
    (p : CompressState) : CompressEvent → Option CompressState
  | CompressEvent.prepare =>
    if p.reader = true then none
    else
      match p.todo with
      | [] => none
      | _ :: _ =>
        match p.ithread.PrepareBlock with
        | none => none
        | some q => some { p with ithread := q, reader := true }
  | CompressEvent.dispatch =>
    if p.reader = true then
      match p.todo with
      | [] => none
      | b :: rest =>
        match p.ithread.DispatchBlock b with
        | none => none
        | some q => some { p with ithread := q, todo := rest, reader := false }
    else none
  | CompressEvent.close =>
    if p.reader = false ∧ p.todo = [] ∧ p.ithread.fp = true then
      some { p with ithread := p.ithread.close }
    else none
  | CompressEvent.get i =>
    match p.workers.get? i with
    | some WorkerPc.idle =>
      match p.ithread.Get with
      | GetResult.wait => none
      | GetResult.ret none q =>
        some { p with ithread := q, workers := p.workers.set i WorkerPc.exited }
      | GetResult.ret (some x) q =>
        some { p with ithread := q, workers := p.workers.set i (WorkerPc.copying x.1 x.2) }
    | _ => none
  | CompressEvent.put i =>
    match p.workers.get? i with
    | some (WorkerPc.copying blk b) =>
      some { p with ithread := p.ithread.Put blk,
                    workers := p.workers.set i (WorkerPc.compressing b) }
    | _ => none
  | CompressEvent.add i =>
    match p.workers.get? i with
    | some (WorkerPc.compressing b) =>
      some { p with
        othread := p.othread.Add b.id
          (WorkerThread.compressed BZ2_compressBlock blockSize100k b).data
          (WorkerThread.compressed BZ2_compressBlock blockSize100k b).bits
          (WorkerThread.compressed BZ2_compressBlock blockSize100k b).crc
        workers := p.workers.set i WorkerPc.idle }
    | _ => none
  | CompressEvent.setLastBlock =>
    if p.ithread.fp = false then some { p with othread := p.othread.SetLastBlock p.count }
    else none
  | CompressEvent.run => some { p with othread := p.othread.step }

/-- A sequence of steps, in order. -/
def exec (BZ2_compressBlock : Nat → List Nat → Nat → List Nat × Nat) (blockSize100k : Nat) :
    CompressState → List CompressEvent → Option CompressState
  | p, [] => some p
  | p, e :: evs =>
    match step BZ2_compressBlock blockSize100k p e with
    | none => none
    | some q => exec BZ2_compressBlock blockSize100k q evs

/-- The bytes `fout` has received when `Compress` returns, which it does once
`pthread_join` on the writer thread has returned: the writer has then deleted
its `BitStreamWriter`, of buffer size `kOutBuf`. -/
def output (p : CompressState) : Option (List Nat) :=
  if p.othread.pc = RunPc.finished then emittedBytes kOutBuf p.othread.writer else none

end Compress

/-- What the threads of `Compress` keep true: the writer has been fed a valid
schedule over the compressed blocks, `done` being the blocks added so far; and
every block of the input is at exactly one place: added, in the busy queue, in
a worker's hands, or still to be dispatched. -/
structure PipeInv (cmp : Nat → List Nat → Nat → List Nat × Nat) (k : Nat)
    (blocks done : List InputBlock) (p : CompressState) : Prop where
  writer : WriterInv k (blocks.map (WorkerThread.compressed cmp k)) (done.map InputBlock.id)
    p.othread
  perm : (done ++ (p.ithread.busy_queue.map Prod.snd ++ p.workers.flatMap WorkerPc.block)
    ++ p.todo).Perm blocks
  count : p.count = blocks.length

/-- Number of pool blocks a worker holds: one between `Get` and `Put`. -/
def WorkerPc.holds : WorkerPc → Nat
  | WorkerPc.copying _ _ => 1
  | _ => 0

/-- Number of steps a worker has still to take for the block in its hands. -/
def WorkerPc.work : WorkerPc → Nat
  | WorkerPc.copying _ _ => 2
  | WorkerPc.compressing _ => 1
  | _ => 0

/-- Number of steps the reader and the workers have still to take before
every block has been added and the input is closed. -/
def Compress.pending (p : CompressState) : Nat :=
  5 * p.todo.length - (if p.reader = true then 1 else 0) + 3 * p.ithread.busy_queue.length
    + (p.workers.map WorkerPc.work).sum + (if p.ithread.fp = true then 1 else 0)

/-- What the threads of `Compress` with `n` workers keep true of the pool:
the `n + 2` blocks are in the free queue, in the busy queue, with the reader
or with a worker; the reader holds a block only for a block it has still to
dispatch; the input is closed only after the last dispatch; and a worker has
left its loop only after that, with the busy queue empty. -/
structure LiveInv (n : Nat) (p : CompressState) : Prop where
  pool : p.ithread.free_queue.length + p.ithread.busy_queue.length
    + (if p.reader = true then 1 else 0) + (p.workers.map WorkerPc.holds).sum = n + 2
  rblk : p.reader = true → p.ithread.blk ≠ none ∧ p.todo ≠ []
  closed : p.ithread.fp = false → p.todo = [] ∧ p.reader = false
  exited : WorkerPc.exited ∈ p.workers → p.ithread.fp = false ∧ p.ithread.busy_queue = []
  nworkers : p.workers.length = n

/-! ## BitStreamWriter: two buffer sizes -/

namespace BitStreamWriter

/-- Two writers that have stored the same bytes and hold the same pending
bits, each with room for one more byte in its buffer: they differ only in how
their buffers cut the stored bytes into chunks. -/
def Sim (w w1 : BitStreamWriter) : Prop :=
  w.stored = w1.stored ∧ w.reg = w1.reg ∧ w.live = w1.live ∧
    w.buffer.length < w.bufferSize ∧ w1.buffer.length < w1.bufferSize

/-- The outcomes of the same call on two such writers: both without result, or
both with writers that again differ only in the cutting. -/
def SimOpt : Option BitStreamWriter → Option BitStreamWriter → Prop
  | none, none => True
  | some w, some w1 => Sim w w1
  | _, _ => False

end BitStreamWriter

/-! ## InputThread: the runs of the input -/

/-- The runs that the RLE-1 pre-pass makes of the bytes that follow a pending
run of `n` bytes `c`: the run grows while the next byte is `c` and the run has
not reached 255 bytes; otherwise it is closed and the next byte starts a run
of its own. -/
def runsFrom : Nat → Nat → List Nat → List (Nat × Nat)
  | c, n, [] => [(c, n)]
  | c, n, x :: xs =>
    if x = c ∧ n ≠ 255 then runsFrom c (n + 1) xs else (c, n) :: runsFrom x 1 xs

/-- The runs of a byte string: the longest runs of equal bytes, from left to
right, a run being cut once it has 255 bytes. -/
def rleRuns : List Nat → List (Nat × Nat)
  | [] => []
  | x :: xs => runsFrom x 1 xs

/-- The runs `rs` make a block of whole tuples: there is at least one, each
can be carried by one tuple, the decoder started on their tuples gives back
the bytes the runs stand for, and having read the last tuple it is not
waiting for a count byte. -/
def WholeTuples (rs : List (Nat × Nat)) : Prop :=
  rs ≠ [] ∧ (∀ r ∈ rs, validRun r) ∧ unRLE (encodeRuns rs) = expandRuns rs ∧
    (unRLEState 0 0 (encodeRuns rs)).2 ≤ 3

/-- Invariant of the reader that names the runs: `X` is the whole input and
`Q` the part not yet read; `rss` lists, block by block, the runs whose tuples
make the dispatched blocks, `cur` the runs whose tuples are in the current
block; together with the pending run continued over `Q` they are the runs of
`X`. -/
structure RunsInv (X Q : List Nat) (s : InputThread) (rss : List (List (Nat × Nat)))
    (cur : List (Nat × Nat)) : Prop where
  done : s.busy_queue.map InputBlock.bytes = rss.map encodeRuns
  blk : s.block = some (encodeRuns cur)
  runs : rleRuns X = rss.flatten ++ cur ++ runsFrom s.rle_ch s.rle_len Q
  whole : ∀ rs ∈ rss, WholeTuples rs
  valid : ∀ r ∈ cur, validRun r
  dec : unRLE (encodeRuns cur) = expandRuns cur

/-! ## wxsheet: cell names and the cells they reach -/

/-- The test `isalpha(c)` in the "C" locale. -/
def isalpha (c : Char) : Bool :=
  decide ((65 ≤ c.toNat ∧ c.toNat ≤ 90) ∨ (97 ≤ c.toNat ∧ c.toNat ≤ 122))

/-- The value `toupper(c)` in the "C" locale. -/
def toupper (c : Char) : Int :=
  if 97 ≤ c.toNat ∧ c.toNat ≤ 122 then (c.toNat : Int) - 32 else (c.toNat : Int)

/-- The call `sscanf(s, "%d", &r)`: white space is skipped, then an optional
sign and at least one decimal digit are converted; `none` when nothing is
converted (the call does not return 1), otherwise the value stored in `r`.  A
value outside `int` is undefined in C; this is the value of the digits. -/
def sscanf_d (s : List Char) : Option Int :=
  match s.dropWhile isspace with
  | [] => none
  | '-' :: ds => if isdigit (ds.headD ' ') = true then some (- atoiDigits 0 ds) else none
  | '+' :: ds => if isdigit (ds.headD ' ') = true then some (atoiDigits 0 ds) else none
  | d :: ds => if isdigit d = true then some (atoiDigits 0 (d :: ds)) else none

/-- `Cell::Status`. -/
inductive CellStatus
  | TEXT
  | FORMULA
  | WAIT
  | CYCLIC
deriving DecidableEq, Repr

/-- `struct Cell`, without its member `value`, a `double`. -/
structure Cell where
  text : String
  textColor : Int
  backColor : Int
  status : CellStatus
deriving DecidableEq, Repr

/-- The constructor `Cell()`. -/
def Cell.new : Cell :=
  { text := "", textColor := 0x000000, backColor := 0xffffff, status := CellStatus.TEXT }

/-- The member `data` of `class Sheet`: the rows of the spreadsheet. -/
structure Sheet where
  data : List (List Cell)
deriving DecidableEq, Repr

/-- Where the call `CellFn(sh, s)` gets to: it throws
`ParseError("Invalid cell address")`, or it calls `ComputeCell(r, c)`, whose
first statement takes `data[r][c]`, an element of the vectors or not. -/
inductive CellFnAccess
  | parseError
  | outOfBounds (r c : Int)
  | cell (r c : Int) (x : Cell)
deriving DecidableEq, Repr

namespace Sheet

/-- The constant `DefaultRows`. -/
def DefaultRows : Nat := 100

/-- The constant `MaximumRows`. -/
def MaximumRows : Int := 10000

/-- The constructor `Sheet()`: `DefaultRows` rows of 26 cells. -/
def new : Sheet := { data := List.replicate DefaultRows (List.replicate 26 Cell.new) }

/-- `Valid(r, c)`. -/
def Valid (sh : Sheet) (r c : Int) : Bool :=
  decide (0 ≤ r ∧ r < (sh.data.length : Int) ∧ 0 ≤ c ∧
    c < ((sh.data.getD r.toNat []).length : Int))

/-- `ParseCell(name, r, c)`: `none` when it returns `false`, otherwise the
values it leaves in `r` and `c`.  `name` is `none` for `NULL`. -/
def ParseCell (_sh : Sheet) (name : Option String) : Option (Int × Int) :=
  match name with
  | none => none
  | some s =>
    match s.data with
    | [] => none
    | c0 :: rest =>
      if isalpha c0 = false then none
      else if toupper c0 - 65 < 0 ∨ toupper c0 - 65 ≥ 26 then none
      else
        match sscanf_d rest with
        | none => none
        | some r =>
          if r - 1 < 0 ∨ r - 1 ≥ MaximumRows then none else some (r - 1, toupper c0 - 65)

/-- The element `data[r][c]`; `none` when `r` or `c` is outside the vectors. -/
def cellAt (sh : Sheet) (r c : Int) : Option Cell :=
  if r < 0 ∨ c < 0 then none
  else (sh.data.get? r.toNat).bind fun row => row.get? c.toNat

/-- `CellFn(sh, s)` up to the access `data[r1][c1]` that `ComputeCell(r1, c1)`
starts with. -/
def CellFn (sh : Sheet) (s : String) : CellFnAccess :=
  match sh.ParseCell (some s) with
  | none => CellFnAccess.parseError
  | some (r1, c1) =>
    match sh.cellAt r1 c1 with
    | none => CellFnAccess.outOfBounds r1 c1
    | some x => CellFnAccess.cell r1 c1 x

end Sheet

/-! ## Bit-level lemmas -/

theorem bitsMSB_eq (b : Nat) : bitsMSB b =
    [nbit b 7, nbit b 6, nbit b 5, nbit b 4, nbit b 3, nbit b 2, nbit b 1, nbit b 0] := rfl

theorem nbit_lor (a b i : Nat) : nbit (a ||| b) i = (nbit a i || nbit b i) :=
  Nat.testBit_lor a b i

theorem nbit_xor (a b i : Nat) : nbit (a ^^^ b) i = (nbit a i ^^ nbit b i) :=
  Nat.testBit_xor a b i

theorem nbit_shl (a k i : Nat) : nbit (a <<< k) i = (decide (k ≤ i) && nbit a (i - k)) :=
  Nat.testBit_shiftLeft a

theorem nbit_shr (a k i : Nat) : nbit (a >>> k) i = nbit a (k + i) :=
  Nat.testBit_shiftRight a

theorem nbit_mod_256 (x i : Nat) : nbit (x % 256) i = (decide (i < 8) && nbit x i) :=
  Nat.testBit_mod_two_pow x 8 i

theorem nbit_mod_u32 (x i : Nat) :
    nbit (x % 4294967296) i = (decide (i < 32) && nbit x i) :=
  Nat.testBit_mod_two_pow x 32 i

theorem nbit_and_255 (x i : Nat) : nbit (x &&& 255) i = (nbit x i && decide (i < 8)) := by
  unfold nbit
  rw [Nat.testBit_and]
  congr 1
  exact Nat.testBit_two_pow_sub_one 8 i

theorem nbit_byte_high {d : Nat} (hd : d < 256) (i : Nat) (hi : 8 ≤ i) : nbit d i = false :=
  Nat.testBit_lt_two_pow (lt_of_lt_of_le hd (by
    calc 256 = 2 ^ 8 := by norm_num
      _ ≤ 2 ^ i := Nat.pow_le_pow_right (by norm_num) hi))

theorem nbit_zero_left (i : Nat) : nbit 0 i = false := Nat.zero_testBit i

theorem bitsMSB_length (b : Nat) : (bitsMSB b).length = 8 := rfl

theorem bitsMSB_zero : bitsMSB 0 = List.replicate 8 false := by
  simp [bitsMSB_eq, nbit_zero_left, List.replicate]

/-- The 16-bit window formed by `r <<= 8; r |= d << (8 - live)`: the pending
bits, then the eight bits of `d`, then zeros. -/
theorem window_bits (r d live : Nat) (hlive : live < 8) (hd : d < 256)
    (hz : (bitsMSB (r % 256)).drop live = List.replicate (8 - live) false) :
    bitsMSB ((((r <<< 8) % 2 ^ 32 ||| (d <<< (8 - live))) >>> 8) &&& 0xff)
      ++ bitsMSB (((r <<< 8) % 2 ^ 32 ||| (d <<< (8 - live))) % 256)
      = (bitsMSB (r % 256)).take live ++ bitsMSB d ++ List.replicate (8 - live) false := by
  have h8 := nbit_byte_high hd
  interval_cases live <;>
    simp [bitsMSB_eq, nbit_mod_256, nbit_mod_u32, nbit_and_255, nbit_lor,
      nbit_shl, nbit_shr, List.replicate] at hz ⊢ <;>
    simp [hz, h8]

/-- Clearing the low `s` bits by `r >>= s; r <<= s`. -/
theorem mask_bits (x s : Nat) (hs : s ≤ 8) :
    bitsMSB ((((x >>> s) <<< s) % 2 ^ 32) % 256)
      = (bitsMSB (x % 256)).take (8 - s) ++ List.replicate s false := by
  interval_cases s <;>
    simp [bitsMSB_eq, nbit_mod_256, nbit_mod_u32, nbit_and_255, nbit_lor,
      nbit_shl, nbit_shr, List.replicate]

theorem shr8_bits (x : Nat) : bitsMSB ((x >>> 8) % 256) = bitsMSB ((x >>> 8) &&& 0xff) := by
  simp [bitsMSB_eq, nbit_mod_256, nbit_and_255, nbit_shr]

theorem streamBits_nil : streamBits [] = [] := rfl

theorem streamBits_cons (b : Nat) (bs : List Nat) :
    streamBits (b :: bs) = bitsMSB b ++ streamBits bs := rfl

theorem streamBits_append (xs ys : List Nat) :
    streamBits (xs ++ ys) = streamBits xs ++ streamBits ys := by
  simp [streamBits, List.flatMap_append]

theorem streamBits_length (xs : List Nat) : (streamBits xs).length = 8 * xs.length := by
  induction xs with
  | nil => rfl
  | cons b bs ih => rw [streamBits_cons, List.length_append, ih, bitsMSB_length, List.length_cons]; ring

/-- Splitting the first `n` bits into whole bytes and a remainder inside one byte. -/
theorem firstBits_split (data : List Nat) (n : Nat) :
    firstBits data n
      = streamBits (data.take (n / 8)) ++ (streamBits (data.drop (n / 8))).take (n % 8) := by
  unfold firstBits
  induction data generalizing n with
  | nil => simp [streamBits_nil]
  | cons d ds ih =>
    by_cases h : n < 8
    · have h0 : n / 8 = 0 := by omega
      have h1 : n % 8 = n := by omega
      simp [h0, h1, streamBits_nil]
    · have h0 : n / 8 = (n - 8) / 8 + 1 := by omega
      have h1 : n % 8 = (n - 8) % 8 := by omega
      rw [h0, h1, List.take_succ_cons, List.drop_succ_cons, streamBits_cons, streamBits_cons,
        List.take_append_eq_append_take, bitsMSB_length, List.take_of_length_le (by simp [bitsMSB_length]; omega),
        ih (n - 8), List.append_assoc]

theorem firstBits_length (data : List Nat) (n : Nat) (h : n ≤ 8 * data.length) :
    (firstBits data n).length = n := by
  unfold firstBits
  rw [List.length_take, streamBits_length]
  omega


/-- If `A ++ B = C ++ Z` and `C` is `n` longer than `A`, then `C` is `A` with
the first `n` elements of `B`, and `Z` is the rest of `B`. -/
theorem split_window {α : Type} (A B C Z : List α) (n : Nat) (h : A ++ B = C ++ Z)
    (hC : C.length = A.length + n) : A ++ B.take n = C ∧ B.drop n = Z := by
  constructor
  · have := congrArg (List.take (A.length + n)) h
    rw [List.take_append_eq_append_take, List.take_append_eq_append_take] at this
    rw [List.take_of_length_le (l := A) (by omega),
      List.take_of_length_le (l := C) (by omega)] at this
    simpa [hC] using this
  · have := congrArg (List.drop (A.length + n)) h
    rw [List.drop_append_eq_append_drop, List.drop_append_eq_append_drop] at this
    rw [List.drop_of_length_le (l := A) (by omega),
      List.drop_of_length_le (l := C) (by omega)] at this
    simpa [hC] using this

/-! ## BitStreamWriter: `Write` appends bits -/

namespace BitStreamWriter

theorem stored_new (n : Nat) : (new n).stored = [] := rfl

theorem bits_new (n : Nat) : (new n).bits = [] := rfl

theorem WF_new (n : Nat) (hn : 1 ≤ n) : (new n).WF := by
  refine ⟨by simp [new], by simpa [new] using hn, ?_⟩
  simp [new, bitsMSB_zero]

theorem Flush_cases (w : BitStreamWriter) :
    w.Flush = { w with fp := w.fp ++ [w.buffer], buffer := [] } ∨ (w.Flush = w ∧ w.buffer = []) := by
  unfold Flush
  by_cases h : w.buffer.length ≠ 0
  · left; rw [if_pos h]
  · right; rw [if_neg h]; exact ⟨rfl, by simpa using h⟩

theorem stored_Flush (w : BitStreamWriter) : w.Flush.stored = w.stored := by
  rcases Flush_cases w with h | ⟨h, _⟩ <;> rw [h]
  simp [stored]

theorem Flush_buffer (w : BitStreamWriter) : w.Flush.buffer = [] := by
  rcases Flush_cases w with h | ⟨h, h0⟩ <;> rw [h]
  exact h0

theorem Flush_bufferSize (w : BitStreamWriter) : w.Flush.bufferSize = w.bufferSize := by
  rcases Flush_cases w with h | ⟨h, _⟩ <;> rw [h]

theorem Flush_reg (w : BitStreamWriter) : w.Flush.reg = w.reg := by
  rcases Flush_cases w with h | ⟨h, _⟩ <;> rw [h]

theorem Flush_live (w : BitStreamWriter) : w.Flush.live = w.live := by
  rcases Flush_cases w with h | ⟨h, _⟩ <;> rw [h]

theorem Flush_fp_flatten (w : BitStreamWriter) : w.Flush.fp.flatten = w.stored := by
  have h := stored_Flush w
  unfold stored at h
  rw [Flush_buffer, List.append_nil] at h
  exact h

/-- Storing one byte: it is appended to the stored bytes, nothing else changes. -/
theorem put_spec (w : BitStreamWriter) (b : Nat) (h : w.buffer.length < w.bufferSize) :
    ∃ w1, w.put b = some w1 ∧ w1.stored = w.stored ++ [b] ∧
      w1.buffer.length < w1.bufferSize ∧ w1.bufferSize = w.bufferSize ∧
      w1.reg = w.reg ∧ w1.live = w.live := by
  unfold put
  rw [if_pos h]
  by_cases hfull : (w.buffer ++ [b]).length = w.bufferSize
  · refine ⟨_, rfl, ?_⟩
    simp only [hfull, if_true]
    refine ⟨?_, ?_, ?_, ?_, ?_⟩
    · rw [stored_Flush]; simp [stored]
    · rw [Flush_buffer, Flush_bufferSize]; simp; omega
    · rw [Flush_bufferSize]
    · rw [Flush_reg]
    · rw [Flush_live]
  · refine ⟨_, rfl, ?_⟩
    simp only [hfull, if_false]
    refine ⟨by simp [stored], ?_, trivial, trivial, trivial⟩
    simp at hfull ⊢
    omega

/-- The byte loop of `Write`: it stores `bits / 8` bytes, leaves `bits % 8`
bits to do, and the bit stream grows by the whole bytes consumed. -/
theorem writeLoop_spec (data : List Nat) :
    ∀ (w : BitStreamWriter) (r bits : Nat), w.live < 8 → w.buffer.length < w.bufferSize →
      (bitsMSB (r % 256)).drop w.live = List.replicate (8 - w.live) false →
      (∀ b ∈ data, b < 256) → bits ≤ 8 * data.length →
      ∃ w1 r1, writeLoop w r data bits = some (w1, r1, data.drop (bits / 8), bits % 8) ∧
        w1.live = w.live ∧ w1.bufferSize = w.bufferSize ∧ w1.buffer.length < w1.bufferSize ∧
        (bitsMSB (r1 % 256)).drop w.live = List.replicate (8 - w.live) false ∧
        streamBits w1.stored ++ (bitsMSB (r1 % 256)).take w.live
          = streamBits w.stored ++ (bitsMSB (r % 256)).take w.live
              ++ streamBits (data.take (bits / 8)) := by
  induction data with
  | nil =>
    intro w r bits hl hb hz _ hbits
    have h0 : bits = 0 := by simpa using hbits
    subst h0
    exact ⟨w, r, by simp [writeLoop], rfl, rfl, hb, hz, by simp [streamBits_nil]⟩
  | cons d ds ih =>
    intro w r bits hl hb hz hbytes hbits
    by_cases h8 : bits ≥ 8
    · obtain ⟨w1, hput, hst, hb1, hbs1, _, hl1⟩ :=
        put_spec w (((((r <<< 8) % 2 ^ 32) ||| (d <<< (8 - w.live))) >>> 8) &&& 0xff) hb
      have hd : d < 256 := hbytes d (List.mem_cons_self _ _)
      have hwin := window_bits r d w.live hl hd hz
      have hlenP : ((bitsMSB (r % 256)).take w.live).length = w.live := by
        rw [List.length_take, bitsMSB_length]; omega
      rw [List.append_assoc] at hwin
      obtain ⟨htake, hdrop⟩ := split_window _ _ _ _ w.live
        (hwin.trans (List.append_assoc _ _ _).symm)
        (by rw [List.length_append, hlenP, bitsMSB_length, bitsMSB_length]; omega)
      have hz1 : (bitsMSB ((((r <<< 8) % 2 ^ 32) ||| (d <<< (8 - w.live))) % 256)).drop w1.live
          = List.replicate (8 - w1.live) false := by rw [hl1]; exact hdrop
      obtain ⟨w2, r2, hloop, hl2, hbs2, hb2, hz2, hbits2⟩ :=
        ih w1 _ (bits - 8) (by rw [hl1]; exact hl) hb1 hz1
          (fun b hb => hbytes b (List.mem_cons_of_mem _ hb))
          (by simp only [List.length_cons] at hbits; omega)
      have e1 : bits / 8 = (bits - 8) / 8 + 1 := by omega
      have e2 : bits % 8 = (bits - 8) % 8 := by omega
      refine ⟨w2, r2, ?_, by rw [hl2, hl1], by rw [hbs2, hbs1], hb2, by rw [← hl1]; exact hz2, ?_⟩
      · rw [writeLoop, if_pos h8]
        simp only [hput]
        rw [hloop, e1, e2, List.drop_succ_cons]
      · rw [hl1] at hbits2
        rw [hbits2, hst, streamBits_append, e1, List.take_succ_cons, streamBits_cons,
          streamBits_cons, streamBits_nil, List.append_nil]
        simp only [List.append_assoc]
        rw [← List.append_assoc (bitsMSB _) (List.take _ _), htake]
        simp only [List.append_assoc]
    · have e1 : bits / 8 = 0 := by omega
      have e2 : bits % 8 = bits := by omega
      refine ⟨w, r, ?_, rfl, rfl, hb, hz, ?_⟩
      · rw [writeLoop, if_neg h8, e1, e2]; rfl
      · rw [e1]; simp [streamBits_nil]

end BitStreamWriter

namespace BitStreamWriter

theorem pending_length (w : BitStreamWriter) (h : w.live < 8) : w.pending.length = w.live := by
  unfold pending
  rw [List.length_take, bitsMSB_length]; omega

theorem bits_length (w : BitStreamWriter) (h : w.live < 8) :
    w.bits.length = 8 * w.stored.length + w.live := by
  unfold bits
  rw [List.length_append, streamBits_length, pending_length w h]

/-- `Write(data, bits)` on a well-formed writer succeeds, keeps it well formed
and appends exactly the first `bits` bits of `data` to the bit stream. -/
theorem Write_spec (w : BitStreamWriter) (data : List Nat) (bits : Nat) (hwf : w.WF)
    (hbytes : ∀ b ∈ data, b < 256) (hbits : bits ≤ 8 * data.length) :
    ∃ w1, w.Write data bits = some w1 ∧ w1.WF ∧ w1.bufferSize = w.bufferSize ∧
      w1.bits = w.bits ++ firstBits data bits := by
  obtain ⟨hl, hb, hz⟩ := hwf
  obtain ⟨w1, r1, hloop, hl1, hbs1, hb1, hz1, hst1⟩ :=
    writeLoop_spec data w w.reg bits hl hb hz hbytes hbits
  by_cases h0 : bits % 8 = 0
  · refine ⟨{ w1 with reg := r1 }, ?_, ⟨by simpa using hl1 ▸ hl, hb1, ?_⟩, hbs1, ?_⟩
    · unfold Write
      rw [hloop]
      simp [h0]
    · simpa [hl1] using hz1
    · unfold BitStreamWriter.bits BitStreamWriter.pending
      rw [firstBits_split, h0, List.take_zero, List.append_nil, ← hst1, ← hl1]
      rfl
  · -- a partial byte remains
    have hlt : bits / 8 < data.length := by omega
    obtain ⟨d, rest, hdrop⟩ : ∃ d rest, data.drop (bits / 8) = d :: rest := by
      cases hdr : data.drop (bits / 8) with
      | nil =>
        have := congrArg List.length hdr
        simp at this; omega
      | cons d rest => exact ⟨d, rest, rfl⟩
    have hd : d < 256 := hbytes d (List.mem_of_mem_drop (hdrop ▸ List.mem_cons_self d rest))
    have hwin := window_bits r1 d w.live hl hd hz1
    have hlenP : ((bitsMSB (r1 % 256)).take w.live).length = w.live := by
      rw [List.length_take, bitsMSB_length]; omega
    have hfirst : firstBits data bits
        = streamBits (data.take (bits / 8)) ++ (bitsMSB d).take (bits % 8) := by
      rw [firstBits_split, hdrop, streamBits_cons, List.take_append_eq_append_take,
        bitsMSB_length]
      have : bits % 8 - 8 = 0 := by omega
      rw [this, List.take_zero, List.append_nil]
    have hm8 : bits % 8 < 8 := Nat.mod_lt _ (by norm_num)
    rw [hdrop] at hloop
    by_cases hge : w.live + bits % 8 ≥ 8
    · obtain ⟨w2, hput, hst2, hb2, hbs2, _, _⟩ :=
        put_spec w1 (((((r1 <<< 8) % 2 ^ 32) ||| (d <<< (8 - w.live))) >>> 8) &&& 0xff) hb1
      have hmask := mask_bits ((r1 <<< 8) % 2 ^ 32 ||| (d <<< (8 - w.live)))
        (8 - (w.live + bits % 8 - 8)) (by omega)
      have e8 : 8 - (8 - (w.live + bits % 8 - 8)) = w.live + bits % 8 - 8 := by omega
      rw [e8] at hmask
      -- the first 8 + live2 bits of the window
      obtain ⟨htake, -⟩ := split_window
        (bitsMSB ((((r1 <<< 8) % 2 ^ 32 ||| (d <<< (8 - w.live))) >>> 8) &&& 0xff))
        (bitsMSB (((r1 <<< 8) % 2 ^ 32 ||| (d <<< (8 - w.live))) % 256))
        ((bitsMSB (r1 % 256)).take w.live ++ (bitsMSB d).take (bits % 8))
        ((bitsMSB d).drop (bits % 8) ++ List.replicate (8 - w.live) false)
        (w.live + bits % 8 - 8)
        (by rw [hwin]; simp only [List.append_assoc]
            rw [← List.append_assoc (List.take _ (bitsMSB d)), List.take_append_drop])
        (by rw [List.length_append, hlenP, List.length_take, bitsMSB_length, bitsMSB_length]; omega)
      refine ⟨{ w2 with
          reg := ((((r1 <<< 8) % 2 ^ 32 ||| (d <<< (8 - w.live))) >>>
                    (8 - (w.live + bits % 8 - 8))) <<< (8 - (w.live + bits % 8 - 8))) % 2 ^ 32,
          live := w.live + bits % 8 - 8 }, ?_, ⟨?_, hb2, ?_⟩, by rw [← hbs1, ← hbs2], ?_⟩
      · unfold Write
        rw [hloop]
        simp only [hl1, h0, ne_eq, not_false_eq_true, if_true, hge, hput]
      · show w.live + bits % 8 - 8 < 8
        omega
      · show List.drop (w.live + bits % 8 - 8) (bitsMSB (_ % 256)) = _
        rw [hmask, List.drop_left' (by rw [List.length_take, bitsMSB_length]; omega)]
      · unfold BitStreamWriter.bits BitStreamWriter.pending
        show streamBits (stored { w2 with reg := _, live := _ })
            ++ List.take (w.live + bits % 8 - 8) (bitsMSB (_ % 256)) = _
        have hs : stored { w2 with
          reg := ((((r1 <<< 8) % 2 ^ 32 ||| (d <<< (8 - w.live))) >>>
                    (8 - (w.live + bits % 8 - 8))) <<< (8 - (w.live + bits % 8 - 8))) % 2 ^ 32,
          live := w.live + bits % 8 - 8 } = w2.stored := rfl
        rw [hs, hmask, List.take_left' (by rw [List.length_take, bitsMSB_length]; omega),
          hst2, streamBits_append, streamBits_cons, streamBits_nil, List.append_nil,
          List.append_assoc, htake, hfirst, ← List.append_assoc, ← List.append_assoc, ← hst1]
    · have hlt8 : w.live + bits % 8 < 8 := by omega
      have hmask := mask_bits (((r1 <<< 8) % 2 ^ 32 ||| (d <<< (8 - w.live))) >>> 8)
        (8 - (w.live + bits % 8)) (by omega)
      have e8 : 8 - (8 - (w.live + bits % 8)) = w.live + bits % 8 := by omega
      rw [e8, shr8_bits] at hmask
      obtain ⟨htake, -⟩ := split_window
        ([] : List Bool)
        (bitsMSB ((((r1 <<< 8) % 2 ^ 32 ||| (d <<< (8 - w.live))) >>> 8) &&& 0xff)
          ++ bitsMSB (((r1 <<< 8) % 2 ^ 32 ||| (d <<< (8 - w.live))) % 256))
        ((bitsMSB (r1 % 256)).take w.live ++ (bitsMSB d).take (bits % 8))
        ((bitsMSB d).drop (bits % 8) ++ List.replicate (8 - w.live) false)
        (w.live + bits % 8)
        (by rw [List.nil_append, hwin]; simp only [List.append_assoc]
            rw [← List.append_assoc (List.take _ (bitsMSB d)), List.take_append_drop])
        (by rw [List.length_append, hlenP, List.length_take, bitsMSB_length]
            simp only [List.length_nil]; omega)
      rw [List.nil_append, List.take_append_eq_append_take, bitsMSB_length] at htake
      have e0 : w.live + bits % 8 - 8 = 0 := by omega
      rw [e0, List.take_zero, List.append_nil] at htake
      refine ⟨{ w1 with
          reg := (((((r1 <<< 8) % 2 ^ 32 ||| (d <<< (8 - w.live))) >>> 8) >>>
                    (8 - (w.live + bits % 8))) <<< (8 - (w.live + bits % 8))) % 2 ^ 32,
          live := w.live + bits % 8 }, ?_, ⟨hlt8, hb1, ?_⟩, hbs1, ?_⟩
      · unfold Write
        rw [hloop]
        simp only [hl1, h0, ne_eq, not_false_eq_true, if_true, hge, if_false]
      · show List.drop (w.live + bits % 8) (bitsMSB (_ % 256)) = _
        rw [hmask, List.drop_left' (by rw [List.length_take, bitsMSB_length]; omega)]
      · unfold BitStreamWriter.bits BitStreamWriter.pending
        show streamBits (stored { w1 with reg := _, live := _ })
            ++ List.take (w.live + bits % 8) (bitsMSB (_ % 256)) = _
        have hs : stored { w1 with
          reg := (((((r1 <<< 8) % 2 ^ 32 ||| (d <<< (8 - w.live))) >>> 8) >>>
                    (8 - (w.live + bits % 8))) <<< (8 - (w.live + bits % 8))) % 2 ^ 32,
          live := w.live + bits % 8 } = w1.stored := rfl
        rw [hs, hmask, List.take_left' (by rw [List.length_take, bitsMSB_length]; omega),
          htake, hfirst, ← List.append_assoc, ← List.append_assoc, ← hst1]

end BitStreamWriter

namespace BitStreamWriter

theorem writeAll_spec (calls : List (List Nat × Nat)) :
    ∀ (w : BitStreamWriter), w.WF →
      (∀ c ∈ calls, (∀ b ∈ c.1, b < 256) ∧ c.2 ≤ 8 * c.1.length) →
      ∃ w1, w.writeAll calls = some w1 ∧ w1.WF ∧ w1.bufferSize = w.bufferSize ∧
        w1.bits = w.bits ++ writtenBits calls := by
  induction calls with
  | nil =>
    intro w hwf _
    exact ⟨w, rfl, hwf, rfl, by simp [writtenBits]⟩
  | cons c cs ih =>
    intro w hwf h
    obtain ⟨hc1, hc2⟩ := h c (List.mem_cons_self _ _)
    obtain ⟨w1, hw, hwf1, hbs1, hbits1⟩ := Write_spec w c.1 c.2 hwf hc1 hc2
    obtain ⟨w2, hw2, hwf2, hbs2, hbits2⟩ := ih w1 hwf1 (fun c' hc' => h c' (List.mem_cons_of_mem _ hc'))
    refine ⟨w2, ?_, hwf2, by rw [hbs2, hbs1], ?_⟩
    · rw [writeAll, hw]; exact hw2
    · rw [hbits2, hbits1, List.append_assoc]
      simp [writtenBits]

theorem firstBits_zero_pad (k : Nat) (hk : k ≤ 8) :
    firstBits [0, 0] k = List.replicate k false := by
  interval_cases k <;> simp [firstBits, streamBits, bitsMSB_zero, List.replicate]

/-- The destructor pads the pending bits with zeros to a whole byte and hands
every stored byte to the file. -/
theorem dtor_spec (w : BitStreamWriter) (hwf : w.WF) :
    ∃ out, w.dtor = some out ∧
      streamBits out.flatten = w.bits ++ List.replicate ((8 - w.live) % 8) false := by
  by_cases h0 : w.live > 0
  · obtain ⟨w1, hw, hwf1, -, hbits1⟩ := Write_spec w [0, 0] (8 - w.live) hwf
      (by intro b hb; simp at hb; omega) (by simp; omega)
    have hlen := congrArg List.length hbits1
    rw [bits_length w1 hwf1.1, List.length_append, bits_length w hwf.1,
      firstBits_length _ _ (by simp; omega)] at hlen
    have hl1 : w1.live = 0 := by have := hwf1.1; have := hwf.1; omega
    refine ⟨w1.Flush.fp, ?_, ?_⟩
    · unfold dtor
      rw [if_pos h0, hw]
    · rw [Flush_fp_flatten]
      have e : (8 - w.live) % 8 = 8 - w.live := by omega
      rw [e, ← firstBits_zero_pad _ (by omega), ← hbits1]
      unfold BitStreamWriter.bits pending
      rw [hl1, List.take_zero, List.append_nil]
  · have hl : w.live = 0 := by omega
    refine ⟨w.Flush.fp, ?_, ?_⟩
    · unfold dtor
      rw [if_neg h0]
    · rw [Flush_fp_flatten]
      unfold BitStreamWriter.bits pending
      simp [hl]

end BitStreamWriter

theorem writtenBits_length (calls : List (List Nat × Nat))
    (h : ∀ c ∈ calls, c.2 ≤ 8 * c.1.length) : (writtenBits calls).length = totalBits calls := by
  induction calls with
  | nil => rfl
  | cons c cs ih =>
    have hc := h c (List.mem_cons_self _ _)
    have := ih (fun c' hc' => h c' (List.mem_cons_of_mem _ hc'))
    simp only [writtenBits, totalBits, List.flatMap_cons, List.length_append, List.map_cons,
      List.sum_cons] at this ⊢
    rw [this, firstBits_length _ _ hc]

/-- C1. For every sequence of writes to a fresh `BitStreamWriter` with buffer
size at least one, each write supplying at least `⌈nbits/8⌉` bytes, the writer
once destroyed has delivered exactly `⌈B/8⌉` bytes to the file, `B` being the
total number of bits, and the first `B` bits of those bytes (MSB-first in each
byte) are the first `nbits` bits of every write, concatenated in call order. -/
theorem BitStreamWriter_concatenates_bits (n : Nat) (hn : 1 ≤ n)
    (calls : List (List Nat × Nat))
    (hbytes : ∀ c ∈ calls, ∀ b ∈ c.1, b < 256)
    (hlen : ∀ c ∈ calls, (c.2 + 7) / 8 ≤ c.1.length) :
    ∃ out, emittedBytes n calls = some out ∧
      out.length = (totalBits calls + 7) / 8 ∧
      (streamBits out).take (totalBits calls) = writtenBits calls := by
  have hlen' : ∀ c ∈ calls, c.2 ≤ 8 * c.1.length := fun c hc => by
    have := hlen c hc; omega
  obtain ⟨w1, hw, hwf1, -, hbits1⟩ := BitStreamWriter.writeAll_spec calls
    (BitStreamWriter.new n) (BitStreamWriter.WF_new n hn)
    (fun c hc => ⟨hbytes c hc, hlen' c hc⟩)
  obtain ⟨out, hd, hout⟩ := BitStreamWriter.dtor_spec w1 hwf1
  rw [BitStreamWriter.bits_new, List.nil_append] at hbits1
  have hB := writtenBits_length calls hlen'
  have hlen1 := congrArg List.length hbits1
  rw [BitStreamWriter.bits_length w1 hwf1.1, hB] at hlen1
  have hlen2 := congrArg List.length hout
  rw [streamBits_length, List.length_append, BitStreamWriter.bits_length w1 hwf1.1,
    List.length_replicate] at hlen2
  refine ⟨out.flatten, ?_, ?_, ?_⟩
  · unfold emittedBytes
    rw [hw]
    simp [hd]
  · have := hwf1.1
    omega
  · rw [hout, hbits1, List.take_left' hB]

/-- C1 at a concrete input: four writes of 12, 3, 24 and 1 bits through a
two-byte buffer. -/
theorem BitStreamWriter_concatenates_bits_witness :
    ∃ out, emittedBytes 2 [([0xAB, 0xCD], 12), ([0xFF], 3), ([0x12, 0x34, 0x56], 24), ([0x80], 1)]
        = some out ∧
      out.length = (totalBits [([0xAB, 0xCD], 12), ([0xFF], 3), ([0x12, 0x34, 0x56], 24),
        ([0x80], 1)] + 7) / 8 ∧
      (streamBits out).take (totalBits [([0xAB, 0xCD], 12), ([0xFF], 3),
        ([0x12, 0x34, 0x56], 24), ([0x80], 1)])
        = writtenBits [([0xAB, 0xCD], 12), ([0xFF], 3), ([0x12, 0x34, 0x56], 24), ([0x80], 1)] :=
  BitStreamWriter_concatenates_bits 2 (by decide) _ (by decide) (by decide)

/-! ## OutputThread: emission in block-id order -/

theorem mem_mapAssign (m : List (Nat × Rec)) (k : Nat) (v : Rec) (e : Nat × Rec) :
    e ∈ mapAssign m k v → e = (k, v) ∨ e ∈ m := by
  induction m with
  | nil => intro h; simp [mapAssign] at h; exact Or.inl h
  | cons a rest ih =>
    obtain ⟨k1, v1⟩ := a
    unfold mapAssign
    split_ifs with h1 h2
    · intro h
      rcases List.mem_cons.1 h with h | h
      · exact Or.inl h
      · exact Or.inr h
    · intro h
      rcases List.mem_cons.1 h with h | h
      · exact Or.inl h
      · exact Or.inr (List.mem_cons_of_mem _ h)
    · intro h
      rcases List.mem_cons.1 h with h | h
      · exact Or.inr (h ▸ List.mem_cons_self _ _)
      · rcases ih h with h | h
        · exact Or.inl h
        · exact Or.inr (List.mem_cons_of_mem _ h)

theorem mapAssign_keys (m : List (Nat × Rec)) (k : Nat) (v : Rec) (j : Nat) :
    j ∈ (mapAssign m k v).map Prod.fst ↔ j = k ∨ j ∈ m.map Prod.fst := by
  induction m with
  | nil => simp [mapAssign]
  | cons a rest ih =>
    obtain ⟨k1, v1⟩ := a
    unfold mapAssign
    split_ifs with h1 h2
    · simp
    · subst h2; simp
    · simp only [List.map_cons, List.mem_cons, ih]
      tauto

theorem mapAssign_sorted (m : List (Nat × Rec)) (k : Nat) (v : Rec)
    (h : m.Pairwise fun a b => a.1 < b.1) :
    (mapAssign m k v).Pairwise fun a b => a.1 < b.1 := by
  induction m with
  | nil => simp [mapAssign]
  | cons a rest ih =>
    obtain ⟨k1, v1⟩ := a
    rw [List.pairwise_cons] at h
    obtain ⟨h1, h2⟩ := h
    unfold mapAssign
    split_ifs with hlt heq
    · refine List.Pairwise.cons ?_ (List.Pairwise.cons h1 h2)
      intro b hb
      rcases List.mem_cons.1 hb with hb | hb
      · subst hb; exact hlt
      · exact lt_trans hlt (h1 b hb)
    · subst heq
      exact List.Pairwise.cons h1 h2
    · refine List.Pairwise.cons ?_ (ih h2)
      intro b hb
      rcases mem_mapAssign rest k v b hb with hb | hb
      · subst hb
        show k1 < k
        omega
      · exact h1 b hb

theorem WriterInv_new (k : Nat) (recs : List Rec) : WriterInv k recs [] (OutputThread.new k) where
  last := Or.inl rfl
  sorted := List.Pairwise.nil
  keys := by intro e he; simp [OutputThread.new] at he
  below := by intro id h1 h2; simp [OutputThread.new] at h2; omega
  added := by intro id h; simp at h
  range := by simp [OutputThread.new]
  at_pc := by simp [OutputThread.new, crcFold]

theorem WriterInv_Add {k : Nat} {recs : List Rec} {A : List Nat} {o : OutputThread}
    (h : WriterInv k recs A o) (id : Nat) (rec : Rec) (h1 : 1 ≤ id) (h2 : id ≤ recs.length)
    (h3 : recs.get? (id - 1) = some rec) (hA : id ∉ A) :
    WriterInv k recs (A ++ [id]) (o.Add id rec.data rec.bits rec.crc) where
  last := h.last
  sorted := mapAssign_sorted _ _ _ h.sorted
  keys := by
    intro e he
    have hge : o.next_id ≤ id := by
      by_contra hlt
      exact hA (h.below id h1 (by omega))
    rcases mem_mapAssign _ _ _ _ he with he | he
    · subst he
      exact ⟨hge, h2, h3, by simp⟩
    · obtain ⟨a, b, c, d⟩ := h.keys e he
      exact ⟨a, b, c, by simp [d]⟩
  below := by
    intro j hj1 hj2
    simp [h.below j hj1 hj2]
  added := by
    intro j hj
    show j < o.next_id ∨ j ∈ (mapAssign o.completed id _).map Prod.fst
    rw [mapAssign_keys]
    rcases List.mem_append.1 hj with hj | hj
    · rcases h.added j hj with hj | hj
      · exact Or.inl hj
      · exact Or.inr (Or.inr hj)
    · simp at hj
      exact Or.inr (Or.inl hj)
  range := h.range
  at_pc := h.at_pc

theorem WriterInv_SetLastBlock {k : Nat} {recs : List Rec} {A : List Nat} {o : OutputThread}
    (h : WriterInv k recs A o) : WriterInv k recs A (o.SetLastBlock recs.length) where
  last := Or.inr rfl
  sorted := h.sorted
  keys := h.keys
  below := h.below
  added := h.added
  range := h.range
  at_pc := by
    have := h.at_pc
    show match o.pc with
      | RunPc.locked => _
      | RunPc.writing rec => _
      | RunPc.finished => _
    cases hpc : o.pc with
    | locked => rw [hpc] at this; exact this
    | writing rec => rw [hpc] at this; exact this
    | finished =>
      rw [hpc] at this
      exact ⟨this.1, rfl, this.2.2⟩

theorem take_succ_of_get? {α : Type} (l : List α) (n : Nat) (a : α) (h : l.get? n = some a) :
    l.take (n + 1) = l.take n ++ [a] := by
  rw [List.take_succ]
  simp only [List.get?_eq_getElem?] at h
  rw [h]
  rfl

theorem crcFold_snoc (rs : List Rec) (r : Rec) :
    crcFold (rs ++ [r])
      = ((((crcFold rs) <<< 1) % 2 ^ 32) ||| ((crcFold rs) >>> 31)) ^^^ r.crc := by
  simp [crcFold, List.foldl_append]

theorem WriterInv_step {k : Nat} {recs : List Rec} {A : List Nat} {o : OutputThread}
    (hK : recs.length + 1 < 2 ^ 64) (h : WriterInv k recs A o) : WriterInv k recs A o.step := by
  have hat := h.at_pc
  obtain ⟨hr1, hr2⟩ := h.range
  cases hpc : o.pc with
  | locked =>
    rw [hpc] at hat
    obtain ⟨hw, hc, hdel⟩ := hat
    unfold OutputThread.step
    rw [hpc]
    simp only
    by_cases hgt : o.next_id > o.last_id
    · rw [if_pos hgt]
      have hlast : o.last_id = recs.length := by
        rcases h.last with hl | hl
        · omega
        · exact hl
      have hn : o.next_id = recs.length + 1 := by omega
      have hn1 : o.next_id - 1 = recs.length := by omega
      rw [hn1, List.take_length] at hw hc
      exact
        { last := h.last, sorted := h.sorted, keys := h.keys, below := h.below,
          added := h.added, range := h.range,
          at_pc := ⟨hn, hlast, by simp [hw, hc], rfl⟩ }
    · rw [if_neg hgt]
      cases hcomp : o.completed with
      | nil => simpa [hcomp] using h
      | cons e rest =>
        obtain ⟨key, rec⟩ := e
        simp only
        by_cases hk : key ≠ o.next_id
        · rw [if_pos hk]; exact h
        · rw [if_neg hk]
          have hk' : key = o.next_id := by simpa using hk
          have hmem : (key, rec) ∈ o.completed := by rw [hcomp]; exact List.mem_cons_self _ _
          obtain ⟨_, hle, hget, hinA⟩ := h.keys _ hmem
          simp only at hle hget hinA
          have hmod : (o.next_id + 1) % 2 ^ 64 = o.next_id + 1 := Nat.mod_eq_of_lt (by omega)
          rw [hmod]
          exact
            { last := h.last
              sorted := by
                show (mapErase (_ :: _) _).Pairwise _
                rw [← hcomp]
                exact List.Pairwise.filter _ h.sorted
              keys := by
                intro e he
                have he' : e ∈ mapErase o.completed o.next_id := by rw [hcomp]; exact he
                unfold mapErase at he'
                obtain ⟨hin, hne⟩ := List.mem_filter.1 he'
                obtain ⟨a, b, c, d⟩ := h.keys e hin
                have hne' : e.1 ≠ o.next_id := by simpa using hne
                exact ⟨by show o.next_id + 1 ≤ e.1; omega, b, c, d⟩
              below := by
                intro j hj1 hj2
                have hj2' : j < o.next_id + 1 := hj2
                by_cases hj : j < o.next_id
                · exact h.below j hj1 hj
                · have : j = key := by omega
                  rw [this]; exact hinA
              added := by
                intro j hj
                show j < o.next_id + 1 ∨ j ∈ (mapErase (_ :: _) _).map Prod.fst
                rw [← hcomp]
                rcases h.added j hj with hj | hj
                · exact Or.inl (by omega)
                · by_cases hjn : j = o.next_id
                  · exact Or.inl (by omega)
                  · right
                    obtain ⟨e, he, hej⟩ := List.mem_map.1 hj
                    refine List.mem_map.2 ⟨e, ?_, hej⟩
                    unfold mapErase
                    exact List.mem_filter.2 ⟨he, by simp [hej, hjn]⟩
              range := by show 1 ≤ o.next_id + 1 ∧ o.next_id + 1 ≤ recs.length + 1; omega
              at_pc := by
                show 2 ≤ o.next_id + 1 ∧ recs.get? (o.next_id + 1 - 2) = some rec ∧ _
                have e1 : o.next_id + 1 - 2 = o.next_id - 1 := by omega
                rw [e1]
                exact ⟨by omega, by rw [← hk']; exact hget, hw, hc, hdel⟩ }
  | writing rec =>
    rw [hpc] at hat
    obtain ⟨h2, hget, hw, hc, hdel⟩ := hat
    unfold OutputThread.step
    rw [hpc]
    simp only
    have e1 : o.next_id - 1 = (o.next_id - 2) + 1 := by omega
    exact
      { last := h.last, sorted := h.sorted, keys := h.keys, below := h.below,
        added := h.added, range := h.range,
        at_pc := by
          show _ = (OutputThread.magic k, 32) :: (recs.take (o.next_id - 1)).map Rec.payload ∧
            _ = crcFold (recs.take (o.next_id - 1)) ∧ _
          rw [e1, take_succ_of_get? recs _ rec hget, crcFold_snoc, ← hc, hw]
          simp [Rec.payload, hdel] }
  | finished =>
    unfold OutputThread.step
    rw [hpc]
    exact h

namespace OutputThread

theorem execAll_nil (o : OutputThread) : o.execAll [] = o := rfl

theorem execAll_cons (o : OutputThread) (e : Event) (evs : List Event) :
    o.execAll (e :: evs) = (o.exec e).execAll evs := rfl

theorem execAll_append (o : OutputThread) (evs evs' : List Event) :
    o.execAll (evs ++ evs') = (o.execAll evs).execAll evs' := by
  simp [execAll, List.foldl_append]

theorem step_last_id (o : OutputThread) : o.step.last_id = o.last_id := by
  unfold step
  split
  · split
    · rfl
    · split
      · rfl
      · split <;> rfl
  · rfl
  · rfl

end OutputThread

/-- The invariant holds along every valid schedule. -/
theorem WriterInv_execAll {k : Nat} {recs : List Rec} (hK : recs.length + 1 < 2 ^ 64)
    (evs : List Event) :
    ∀ (A : List Nat) (o : OutputThread), WriterInv k recs A o → (∀ e ∈ evs, e.ok recs) →
      (A ++ evs.filterMap Event.addId).Nodup →
      WriterInv k recs (A ++ evs.filterMap Event.addId) (o.execAll evs) := by
  induction evs with
  | nil => intro A o h _ _; simpa [OutputThread.execAll] using h
  | cons e evs ih =>
    intro A o h hok hnd
    have hok' : ∀ e' ∈ evs, e'.ok recs := fun e' he' => hok e' (List.mem_cons_of_mem _ he')
    have hoke := hok e (List.mem_cons_self _ _)
    rw [OutputThread.execAll_cons]
    cases e with
    | add id rec =>
      obtain ⟨h1, h2, h3⟩ := hoke
      have hfm : (Event.add id rec :: evs).filterMap Event.addId
          = id :: evs.filterMap Event.addId := by simp [Event.addId]
      rw [hfm] at hnd ⊢
      have hsplit : A ++ id :: evs.filterMap Event.addId
          = (A ++ [id]) ++ evs.filterMap Event.addId := by simp
      rw [hsplit] at hnd ⊢
      have hA : id ∉ A := by
        have h' := (List.nodup_append.1 hnd).1
        have := (List.nodup_append.1 h').2.2
        intro hin
        exact this hin (List.mem_singleton_self id)
      exact ih _ _ (WriterInv_Add h id rec h1 h2 h3 hA) hok' hnd
    | setLastBlock id =>
      have hid : id = recs.length := hoke
      subst hid
      have hfm : (Event.setLastBlock recs.length :: evs).filterMap Event.addId
          = evs.filterMap Event.addId := by simp [Event.addId]
      rw [hfm] at hnd ⊢
      exact ih _ _ (WriterInv_SetLastBlock h) hok' hnd
    | run =>
      have hfm : (Event.run :: evs).filterMap Event.addId
          = evs.filterMap Event.addId := by simp [Event.addId]
      rw [hfm] at hnd ⊢
      exact ih _ _ (WriterInv_step hK h) hok' hnd

/-- Once `SetLastBlock(K)` has been called, `last_id` stays `K`. -/
theorem last_id_execAll {recs : List Rec} (evs : List Event) :
    ∀ (o : OutputThread), (∀ e ∈ evs, e.ok recs) →
      (o.last_id = recs.length ∨ Event.setLastBlock recs.length ∈ evs) →
      (o.execAll evs).last_id = recs.length := by
  induction evs with
  | nil =>
    intro o _ h
    rcases h with h | h
    · exact h
    · simp at h
  | cons e evs ih =>
    intro o hok h
    have hok' : ∀ e' ∈ evs, e'.ok recs := fun e' he' => hok e' (List.mem_cons_of_mem _ he')
    have hoke := hok e (List.mem_cons_self _ _)
    rw [OutputThread.execAll_cons]
    cases e with
    | add id rec =>
      refine ih _ hok' ?_
      rcases h with h | h
      · exact Or.inl h
      · simp at h; exact Or.inr h
    | setLastBlock id =>
      have hid : id = recs.length := hoke
      exact ih _ hok' (Or.inl hid)
    | run =>
      refine ih _ hok' ?_
      rcases h with h | h
      · left
        show o.step.last_id = _
        rw [OutputThread.step_last_id]; exact h
      · simp at h; exact Or.inr h

/-- With every block added and the last id known, each atomic section of the
writer brings it one step closer to the end. -/
theorem step_remaining {k : Nat} {recs : List Rec} {A : List Nat} {o : OutputThread}
    (hK : recs.length + 1 < 2 ^ 64) (h : WriterInv k recs A o)
    (hall : ∀ id, 1 ≤ id → id ≤ recs.length → id ∈ A) (hlast : o.last_id = recs.length) :
    o.step.remaining recs.length = o.remaining recs.length - 1 := by
  obtain ⟨hr1, hr2⟩ := h.range
  cases hpc : o.pc with
  | locked =>
    unfold OutputThread.step
    rw [hpc]
    simp only
    by_cases hgt : o.next_id > o.last_id
    · rw [if_pos hgt]
      simp only [OutputThread.remaining, hpc]
      omega
    · rw [if_neg hgt]
      have hle : o.next_id ≤ recs.length := by omega
      have hin := h.added _ (hall _ hr1 hle)
      have hkeys : o.next_id ∈ o.completed.map Prod.fst := by
        rcases hin with hin | hin
        · omega
        · exact hin
      cases hcomp : o.completed with
      | nil => rw [hcomp] at hkeys; simp at hkeys
      | cons e rest =>
        obtain ⟨key, rec⟩ := e
        simp only
        have hsorted := h.sorted
        rw [hcomp, List.pairwise_cons] at hsorted
        have hge := (h.keys (key, rec) (by rw [hcomp]; exact List.mem_cons_self _ _)).1
        simp only at hge
        have hkey : key = o.next_id := by
          rw [hcomp] at hkeys
          simp only [List.map_cons, List.mem_cons] at hkeys
          rcases hkeys with hk | hk
          · exact hk.symm
          · obtain ⟨e, he, hej⟩ := List.mem_map.1 hk
            have := hsorted.1 e he
            simp only at this
            omega
        rw [if_neg (by simpa using hkey)]
        have hmod : (o.next_id + 1) % 2 ^ 64 = o.next_id + 1 := Nat.mod_eq_of_lt (by omega)
        simp only [OutputThread.remaining, hpc, hmod]
        omega
  | writing rec =>
    unfold OutputThread.step
    rw [hpc]
    simp [OutputThread.remaining, hpc]
  | finished =>
    unfold OutputThread.step
    rw [hpc]
    simp [OutputThread.remaining, hpc]

theorem remaining_zero {K : Nat} {o : OutputThread} (h : o.remaining K = 0) :
    o.pc = RunPc.finished := by
  unfold OutputThread.remaining at h
  cases hpc : o.pc with
  | locked => rw [hpc] at h; simp at h
  | writing rec => rw [hpc] at h; simp at h
  | finished => rfl

theorem remaining_le {k : Nat} {recs : List Rec} {A : List Nat} {o : OutputThread}
    (h : WriterInv k recs A o) : o.remaining recs.length ≤ 2 * recs.length + 2 := by
  have hat := h.at_pc
  obtain ⟨hr1, hr2⟩ := h.range
  unfold OutputThread.remaining
  cases hpc : o.pc with
  | locked => simp only; omega
  | writing rec => rw [hpc] at hat; have := hat.1; simp only; omega
  | finished => simp

/-- After enough atomic sections the writer has left its loop. -/
theorem run_steps_finish {k : Nat} {recs : List Rec} {A : List Nat}
    (hK : recs.length + 1 < 2 ^ 64) (hall : ∀ id, 1 ≤ id → id ≤ recs.length → id ∈ A) (n : Nat) :
    ∀ (o : OutputThread), WriterInv k recs A o → o.last_id = recs.length →
      o.remaining recs.length ≤ n →
      WriterInv k recs A (o.execAll (List.replicate n Event.run)) ∧
        (o.execAll (List.replicate n Event.run)).pc = RunPc.finished := by
  induction n with
  | zero =>
    intro o h _ hrem
    exact ⟨h, remaining_zero (Nat.le_zero.1 hrem)⟩
  | succ n ih =>
    intro o h hlast hrem
    rw [List.replicate_succ, OutputThread.execAll_cons]
    refine ih o.step (WriterInv_step hK h) ?_ ?_
    · rw [OutputThread.step_last_id]; exact hlast
    · rw [step_remaining hK h hall hlast]; omega

/-- A complete schedule followed by `2K + 2` atomic sections of the writer
ends with the writer past its loop. -/
theorem complete_finishes {k : Nat} {recs : List Rec} (hK : recs.length + 1 < 2 ^ 64)
    (evs : List Event) (hc : completeSchedule recs evs) :
    WriterInv k recs (evs.filterMap Event.addId)
        ((OutputThread.new k).execAll (evs ++ List.replicate (2 * recs.length + 2) Event.run)) ∧
      ((OutputThread.new k).execAll
        (evs ++ List.replicate (2 * recs.length + 2) Event.run)).pc = RunPc.finished := by
  obtain ⟨⟨hok, hnd⟩, hall, hset⟩ := hc
  have hinv := WriterInv_execAll (k := k) hK evs [] _ (WriterInv_new k recs) hok
    (by simpa using hnd)
  rw [List.nil_append] at hinv
  rw [OutputThread.execAll_append]
  exact run_steps_finish hK hall _ _ hinv (last_id_execAll evs _ hok (Or.inr hset))
    (remaining_le hinv)

/-- The trace of `Write` calls in a state reached by a valid schedule. -/
theorem valid_schedule_inv {k : Nat} {recs : List Rec} (hK : recs.length + 1 < 2 ^ 64)
    (evs : List Event) (hv : validSchedule recs evs) :
    WriterInv k recs (evs.filterMap Event.addId) ((OutputThread.new k).execAll evs) := by
  have hinv := WriterInv_execAll (k := k) hK evs [] _ (WriterInv_new k recs) hv.1
    (by simpa using hv.2)
  rwa [List.nil_append] at hinv

theorem loopWrites_of_inv {k : Nat} {recs : List Rec} {A : List Nat} {o : OutputThread}
    (h : WriterInv k recs A o) :
    (∃ m, o.loopWrites = (recs.take m).map Rec.payload) ∧
      (o.pc = RunPc.finished → o.loopWrites = recs.map Rec.payload) := by
  have hat := h.at_pc
  unfold OutputThread.loopWrites
  cases hpc : o.pc with
  | locked =>
    rw [hpc] at hat
    exact ⟨⟨o.next_id - 1, by simp [hat.1]⟩, by intro hf; cases hf⟩
  | writing rec =>
    rw [hpc] at hat
    exact ⟨⟨o.next_id - 2, by simp [hat.2.2.1]⟩, by intro hf; cases hf⟩
  | finished =>
    rw [hpc] at hat
    have hw : (List.drop 1 o.writer).dropLast = recs.map Rec.payload := by
      rw [hat.2.2.1]
      simp [List.dropLast_concat]
    refine ⟨⟨recs.length, ?_⟩, fun _ => hw⟩
    simp only [hw, List.take_length]

/-- C2. Along every schedule in which the blocks `1..K` are added at most once
each, in any order and interleaved in any way with the writer's atomic
sections and with `SetLastBlock(K)`, the payloads written inside the drain
loop are at every moment the payloads of blocks `1, 2, .., m` in that order for
some `m`, each with its own bit count; when the loop has been left they are
those of all `K` blocks; and once every block has been added and the last id
is set, `2K + 2` further atomic sections make the writer leave the loop. -/
theorem OutputThread_writes_in_id_order (k : Nat) (recs : List Rec)
    (hK : recs.length + 1 < 2 ^ 64) (evs : List Event) (hv : validSchedule recs evs) :
    (∃ m, ((OutputThread.new k).execAll evs).loopWrites = (recs.take m).map Rec.payload) ∧
      (((OutputThread.new k).execAll evs).pc = RunPc.finished →
        ((OutputThread.new k).execAll evs).loopWrites = recs.map Rec.payload) ∧
      (completeSchedule recs evs →
        ((OutputThread.new k).execAll
            (evs ++ List.replicate (2 * recs.length + 2) Event.run)).pc = RunPc.finished ∧
          ((OutputThread.new k).execAll
            (evs ++ List.replicate (2 * recs.length + 2) Event.run)).loopWrites
            = recs.map Rec.payload) := by
  have h := loopWrites_of_inv (valid_schedule_inv (k := k) hK evs hv)
  refine ⟨h.1, h.2, fun hc => ?_⟩
  obtain ⟨hinv, hfin⟩ := complete_finishes (k := k) hK evs hc
  exact ⟨hfin, (loopWrites_of_inv hinv).2 hfin⟩

/-- C2 at a concrete schedule: block 2 is added before block 1, the writer
runs in between, and the two payloads come out in id order. -/
theorem OutputThread_writes_in_id_order_witness :
    validSchedule [⟨[7], 8, 9⟩, ⟨[1, 2], 13, 5⟩]
        [Event.run, Event.add 2 ⟨[1, 2], 13, 5⟩, Event.run, Event.setLastBlock 2, Event.run,
          Event.add 1 ⟨[7], 8, 9⟩, Event.run] ∧
      ((OutputThread.new 1).execAll
        ([Event.run, Event.add 2 ⟨[1, 2], 13, 5⟩, Event.run, Event.setLastBlock 2, Event.run,
          Event.add 1 ⟨[7], 8, 9⟩, Event.run] ++ List.replicate 6 Event.run)).loopWrites
        = [([7], 8), ([1, 2], 13)] :=
  have hv : validSchedule [⟨[7], 8, 9⟩, ⟨[1, 2], 13, 5⟩]
      [Event.run, Event.add 2 ⟨[1, 2], 13, 5⟩, Event.run, Event.setLastBlock 2, Event.run,
        Event.add 1 ⟨[7], 8, 9⟩, Event.run] := by
    unfold validSchedule; decide
  ⟨hv, ((OutputThread_writes_in_id_order 1 _ (by norm_num) _ hv).2.2
    ⟨hv, by intro id h1 h2; simp at h2; interval_cases id <;> decide, by decide⟩).2⟩

/-! ## OutputThread: combined CRC and stream layout -/

/-- The rotate expression of `Run` is the 32-bit rotate left by one. -/
theorem rotate_expr_eq_rotl1 (a : Nat) (h : a < 2 ^ 32) :
    ((a <<< 1) % 2 ^ 32) ||| (a >>> 31) = rotl1 a := by
  unfold rotl1
  have h1 : (a <<< 1) % 2 ^ 32 = 2 ^ 1 * (a % 2 ^ 31) := by
    rw [Nat.shiftLeft_eq]; omega
  rw [h1, Nat.shiftRight_eq_div_pow, ← Nat.mul_add_lt_is_or (by omega)]
  omega

theorem rotl1_lt (a : Nat) (h : a < 2 ^ 32) : rotl1 a < 2 ^ 32 := by
  unfold rotl1; omega

theorem crcFold_eq_combineCrc (recs : List Rec) (hcrc : ∀ r ∈ recs, r.crc < 2 ^ 32) :
    crcFold recs = combineCrc (recs.map Rec.crc) ∧ crcFold recs < 2 ^ 32 := by
  induction recs using List.reverseRecOn with
  | nil => exact ⟨rfl, by simp [crcFold]⟩
  | append_singleton rs r ih =>
    obtain ⟨h1, h2⟩ := ih (fun r' hr' => hcrc r' (List.mem_append_left _ hr'))
    have hr : r.crc < 2 ^ 32 := hcrc r (by simp)
    rw [crcFold_snoc, rotate_expr_eq_rotl1 _ h2]
    refine ⟨?_, Nat.xor_lt_two_pow (rotl1_lt _ h2) hr⟩
    rw [h1]
    simp [combineCrc, List.foldl_append]

theorem trailer_eq (c : Nat) :
    OutputThread.trailer c = [0x17, 0x72, 0x45, 0x38, 0x50, 0x90] ++ be32 c := by
  have e (s : Nat) : (c >>> s) &&& 0xff = c / 2 ^ s % 256 := by
    rw [Nat.shiftRight_eq_div_pow]
    exact Nat.and_pow_two_sub_one_eq_mod _ 8
  have e0 : c &&& 0xff = c % 256 := Nat.and_pow_two_sub_one_eq_mod _ 8
  simp [OutputThread.trailer, be32, e, e0]

theorem trailerCrc_trailer (c : Nat) (h : c < 2 ^ 32) :
    trailerCrc (OutputThread.trailer c, 80) = c := by
  rw [trailer_eq]
  simp only [trailerCrc, be32, List.cons_append, List.nil_append, List.drop_succ_cons,
    List.drop_zero, List.take_succ_cons, List.take_zero, List.foldl_cons, List.foldl_nil]
  omega

/-- C4. For any `K ≥ 0` blocks with 32-bit CRCs, added in any order along a
valid schedule, the CRC stored in the trailer is the left fold of
`rotl1 a xor c` over the block CRCs in id order, starting from 0: it is so
whenever the writer has left its loop, and the writer does leave the loop
after a complete schedule. -/
theorem OutputThread_trailer_crc (k : Nat) (recs : List Rec)
    (hK : recs.length + 1 < 2 ^ 64) (hcrc : ∀ r ∈ recs, r.crc < 2 ^ 32)
    (evs : List Event) (hv : validSchedule recs evs) :
    (((OutputThread.new k).execAll evs).pc = RunPc.finished →
        ((OutputThread.new k).execAll evs).writer.getLast?.map trailerCrc
          = some (combineCrc (recs.map Rec.crc))) ∧
      (completeSchedule recs evs →
        ((OutputThread.new k).execAll
            (evs ++ List.replicate (2 * recs.length + 2) Event.run)).pc = RunPc.finished ∧
          ((OutputThread.new k).execAll
            (evs ++ List.replicate (2 * recs.length + 2) Event.run)).writer.getLast?.map trailerCrc
            = some (combineCrc (recs.map Rec.crc))) := by
  obtain ⟨hfold, hlt⟩ := crcFold_eq_combineCrc recs hcrc
  have key : ∀ (A : List Nat) (o : OutputThread), WriterInv k recs A o → o.pc = RunPc.finished →
      o.writer.getLast?.map trailerCrc = some (combineCrc (recs.map Rec.crc)) := by
    intro A o h hf
    have hat := h.at_pc
    rw [hf] at hat
    rw [hat.2.2.1, List.getLast?_concat, Option.map_some',
      trailerCrc_trailer _ hlt, hfold]
  refine ⟨key _ _ (valid_schedule_inv (k := k) hK evs hv), fun hc => ?_⟩
  obtain ⟨hinv, hfin⟩ := complete_finishes (k := k) hK evs hc
  exact ⟨hfin, key _ _ hinv hfin⟩

/-- C4 at a concrete schedule: CRCs 9 and 5 of blocks 1 and 2 combine to
`rotl1 9 xor 5 = 23`. -/
theorem OutputThread_trailer_crc_witness :
    ((OutputThread.new 1).execAll
        ([Event.add 2 ⟨[1, 2], 13, 5⟩, Event.setLastBlock 2, Event.run,
          Event.add 1 ⟨[7], 8, 9⟩] ++ List.replicate 6 Event.run)).writer.getLast?.map trailerCrc
      = some 23 :=
  have hv : validSchedule [⟨[7], 8, 9⟩, ⟨[1, 2], 13, 5⟩]
      [Event.add 2 ⟨[1, 2], 13, 5⟩, Event.setLastBlock 2, Event.run,
        Event.add 1 ⟨[7], 8, 9⟩] := by
    unfold validSchedule; decide
  ((OutputThread_trailer_crc 1 [⟨[7], 8, 9⟩, ⟨[1, 2], 13, 5⟩] (by norm_num) (by decide) _ hv).2
    ⟨hv, by intro id h1 h2; simp at h2; interval_cases id <;> decide, by decide⟩).2

theorem firstBits_all (data : List Nat) (n : Nat) (h : n = 8 * data.length) :
    firstBits data n = streamBits data := by
  unfold firstBits
  rw [List.take_of_length_le]
  rw [streamBits_length]; omega

theorem writtenBits_cons (c : List Nat × Nat) (cs : List (List Nat × Nat)) :
    writtenBits (c :: cs) = firstBits c.1 c.2 ++ writtenBits cs := by
  simp [writtenBits]

theorem writtenBits_append (cs cs' : List (List Nat × Nat)) :
    writtenBits (cs ++ cs') = writtenBits cs ++ writtenBits cs' := by
  simp [writtenBits]

theorem writtenBits_payloads (recs : List Rec) :
    writtenBits (recs.map Rec.payload) = recs.flatMap fun r => firstBits r.data r.bits := by
  simp [writtenBits, List.flatMap, Rec.payload, Function.comp_def]

/-- C5. For every block size class `k` in `1..9` and every list of blocks
(with 32-bit CRCs), the complete bit sequence handed to the bit writer is the
32 bits of `'B' 'Z' 'h' (0x30 + k)`, then for each block in id order the first
`bits` bits of its payload, then the 48 bits of `17 72 45 38 50 90`, then the
combined CRC as 32 bits, most significant byte first: it is so whenever the
writer has left its loop, and the writer does leave it after a complete
schedule. -/
theorem OutputThread_stream_layout (k : Nat) (hk1 : 1 ≤ k) (hk9 : k ≤ 9) (recs : List Rec)
    (hK : recs.length + 1 < 2 ^ 64) (hcrc : ∀ r ∈ recs, r.crc < 2 ^ 32)
    (evs : List Event) (hv : validSchedule recs evs) :
    (((OutputThread.new k).execAll evs).pc = RunPc.finished →
        writtenBits ((OutputThread.new k).execAll evs).writer
          = streamBits [0x42, 0x5A, 0x68, 0x30 + k]
            ++ (recs.flatMap fun r => firstBits r.data r.bits)
            ++ streamBits [0x17, 0x72, 0x45, 0x38, 0x50, 0x90]
            ++ streamBits (be32 (combineCrc (recs.map Rec.crc)))) ∧
      (completeSchedule recs evs →
        ((OutputThread.new k).execAll
            (evs ++ List.replicate (2 * recs.length + 2) Event.run)).pc = RunPc.finished ∧
          writtenBits ((OutputThread.new k).execAll
            (evs ++ List.replicate (2 * recs.length + 2) Event.run)).writer
            = streamBits [0x42, 0x5A, 0x68, 0x30 + k]
              ++ (recs.flatMap fun r => firstBits r.data r.bits)
              ++ streamBits [0x17, 0x72, 0x45, 0x38, 0x50, 0x90]
              ++ streamBits (be32 (combineCrc (recs.map Rec.crc)))) := by
  obtain ⟨hfold, -⟩ := crcFold_eq_combineCrc recs hcrc
  have hmagic : OutputThread.magic k = [0x42, 0x5A, 0x68, 0x30 + k] := by
    unfold OutputThread.magic
    rw [Nat.mod_eq_of_lt (by omega)]
  have key : ∀ (A : List Nat) (o : OutputThread), WriterInv k recs A o → o.pc = RunPc.finished →
      writtenBits o.writer
        = streamBits [0x42, 0x5A, 0x68, 0x30 + k]
          ++ (recs.flatMap fun r => firstBits r.data r.bits)
          ++ streamBits [0x17, 0x72, 0x45, 0x38, 0x50, 0x90]
          ++ streamBits (be32 (combineCrc (recs.map Rec.crc))) := by
    intro A o h hf
    have hat := h.at_pc
    rw [hf] at hat
    rw [hat.2.2.1, writtenBits_append, writtenBits_cons, writtenBits_payloads, writtenBits_cons]
    simp only [writtenBits, List.flatMap_nil, List.append_nil]
    rw [firstBits_all _ 32 (by rw [hmagic]; rfl), firstBits_all _ 80 (by rw [trailer_eq]; rfl),
      trailer_eq, streamBits_append, hmagic, hfold]
    simp only [List.append_assoc]
  refine ⟨key _ _ (valid_schedule_inv (k := k) hK evs hv), fun hc => ?_⟩
  obtain ⟨hinv, hfin⟩ := complete_finishes (k := k) hK evs hc
  exact ⟨hfin, key _ _ hinv hfin⟩

/-- C5 at a concrete schedule with `k = 1` and two blocks. -/
theorem OutputThread_stream_layout_witness :
    writtenBits ((OutputThread.new 1).execAll
        ([Event.add 2 ⟨[1, 2], 13, 5⟩, Event.setLastBlock 2, Event.run,
          Event.add 1 ⟨[7], 8, 9⟩] ++ List.replicate 6 Event.run)).writer
      = streamBits [0x42, 0x5A, 0x68, 0x30 + 1]
        ++ (firstBits [7] 8 ++ firstBits [1, 2] 13)
        ++ streamBits [0x17, 0x72, 0x45, 0x38, 0x50, 0x90]
        ++ streamBits (be32 23) :=
  have hv : validSchedule [⟨[7], 8, 9⟩, ⟨[1, 2], 13, 5⟩]
      [Event.add 2 ⟨[1, 2], 13, 5⟩, Event.setLastBlock 2, Event.run,
        Event.add 1 ⟨[7], 8, 9⟩] := by
    unfold validSchedule; decide
  ((OutputThread_stream_layout 1 (by decide) (by decide) [⟨[7], 8, 9⟩, ⟨[1, 2], 13, 5⟩]
      (by norm_num) (by decide) _ hv).2
    ⟨hv, by intro id h1 h2; simp at h2; interval_cases id <;> decide, by decide⟩).2

/-! ## RLE-1 decoder -/

theorem unRLEFrom_append (xs ys : List Nat) : ∀ (last cnt : Nat),
    unRLEFrom last cnt (xs ++ ys)
      = unRLEFrom last cnt xs
        ++ unRLEFrom (unRLEState last cnt xs).1 (unRLEState last cnt xs).2 ys := by
  induction xs with
  | nil => intro last cnt; simp [unRLEFrom, unRLEState]
  | cons b bs ih =>
    intro last cnt
    simp only [List.cons_append, unRLEFrom, unRLEState]
    split_ifs <;> simp [ih]

theorem unRLEState_append (xs ys : List Nat) : ∀ (last cnt : Nat),
    unRLEState last cnt (xs ++ ys)
      = unRLEState (unRLEState last cnt xs).1 (unRLEState last cnt xs).2 ys := by
  induction xs with
  | nil => intro last cnt; simp [unRLEState]
  | cons b bs ih =>
    intro last cnt
    simp only [List.cons_append, unRLEState]
    split_ifs <;> simp [ih]

/-- Decoding one tuple from a state that is not inside a run of the same byte. -/
theorem unRLE_tuple (last cnt c n : Nat) (hcnt : cnt ≤ 3) (hb : cnt = 0 ∨ last ≠ c)
    (h1 : 1 ≤ n) :
    unRLEFrom last cnt (tuple c n) = List.replicate n c ∧
      unRLEState last cnt (tuple c n) = (c, if n ≤ 3 then n else 0) := by
  have hne : ¬ (cnt ≠ 0 ∧ c = last) := by
    rintro ⟨h0, rfl⟩
    rcases hb with hb | hb
    · exact h0 hb
    · exact hb rfl
  have h4 : cnt ≠ 4 := by omega
  by_cases e1 : n = 1
  · subst e1
    simp [tuple, unRLEFrom, unRLEState, h4, hne]
  by_cases e2 : n = 2
  · subst e2
    simp [tuple, unRLEFrom, unRLEState, h4, hne, List.replicate]
  by_cases e3 : n = 3
  · subst e3
    simp [tuple, unRLEFrom, unRLEState, h4, hne, List.replicate]
  obtain ⟨m, rfl⟩ : ∃ m, n = m + 4 := ⟨n - 4, by omega⟩
  simp [tuple, unRLEFrom, unRLEState, h4, hne, List.replicate]

theorem tuple_length_le (c n : Nat) : (tuple c n).length ≤ 5 := by
  unfold tuple
  split_ifs <;> simp

theorem tuple_length_pos (c n : Nat) : 1 ≤ (tuple c n).length := by
  unfold tuple
  split_ifs <;> simp

theorem tuple_one (c : Nat) : tuple c 1 = [c] := by simp [tuple]

theorem encodeRuns_snoc (rs : List (Nat × Nat)) (c n : Nat) :
    encodeRuns (rs ++ [(c, n)]) = encodeRuns rs ++ tuple c n := by
  simp [encodeRuns]

theorem expandRuns_snoc (rs : List (Nat × Nat)) (c n : Nat) :
    expandRuns (rs ++ [(c, n)]) = expandRuns rs ++ List.replicate n c := by
  simp [expandRuns]

/-! ## InputThread: effect of `add_pair` -/

namespace InputThread

theorem crcLoop_eq (n : Nat) : ∀ (crc ch : Nat),
    crcLoop n crc ch = (List.replicate n ch).foldl BZ_UPDATE_CRC crc := by
  induction n with
  | zero => intro crc ch; rfl
  | succ n ih => intro crc ch; simp [crcLoop, ih, List.replicate]

/-- `add_pair` appends the tuple of the pending run to the block and folds
the run into the CRC. -/
theorem add_pair_spec (s : InputThread) (d : List Nat) (hb : s.block = some d)
    (hc : s.rle_ch < 256) (h1 : 1 ≤ s.rle_len) (h255 : s.rle_len ≤ 255) :
    s.add_pair = { s with
      block := some (d ++ tuple s.rle_ch s.rle_len)
      nblock := s.nblock + (tuple s.rle_ch s.rle_len).length
      crc := (List.replicate s.rle_len s.rle_ch).foldl BZ_UPDATE_CRC s.crc
      rle_len := 2 ^ 32 - 1 } := by
  have hm : s.rle_ch % 256 = s.rle_ch := Nat.mod_eq_of_lt hc
  unfold add_pair
  split
  · rename_i h
    simp [storeByte, hb, hm, crcLoop_eq, h, tuple]
  · rename_i h
    simp [storeByte, hb, hm, crcLoop_eq, h, tuple]
  · rename_i h
    simp [storeByte, hb, hm, crcLoop_eq, h, tuple]
  · rename_i h1 h2 h3
    have e1 : ¬ s.rle_len = 1 := h1
    have e2 : ¬ s.rle_len = 2 := h2
    have e3 : ¬ s.rle_len = 3 := h3
    have hcount : (s.rle_len + 2 ^ 32 - 4) % 2 ^ 32 % 256 = s.rle_len - 4 := by omega
    simp only [storeByte, hb, hm, hcount, crcLoop_eq, tuple, e1, e2, e3, if_false,
      Option.map_some', List.append_assoc, List.singleton_append, List.length_cons,
      List.length_nil, List.cons_append, List.nil_append]
end InputThread

/-! ## InputThread: the reader invariant -/

namespace InputThread

theorem bytes_of_size_eq (b : InputBlock) (h : b.size = b.data.length) : b.bytes = b.data := by
  unfold InputBlock.bytes
  rw [h, List.take_length]

/-- The block-full check keeps the invariant and leaves room in the block. -/
theorem checkFull_inv {P : List Nat} {s : InputThread} {d : List Nat}
    (hmax : 0 < s.nblockMAX) (h : ReaderInv P s d) :
    ∃ d1, ReaderInv P s.checkFull d1 ∧ s.checkFull.nblock < s.checkFull.nblockMAX ∧
      s.checkFull.nblockMAX = s.nblockMAX := by
  unfold checkFull
  by_cases hfull : s.nblock ≥ s.nblockMAX
  · rw [if_pos hfull]
    have hne : s.block ≠ none := by rw [h.blk]; simp
    rw [if_pos hne]
    refine ⟨[], ?_, hmax, rfl⟩
    have hfill : s.nblock ≤ s.nblockMAX + 4 := by
      rcases h.fill with hf | hf
      · exact hf.2
      · omega
    have hblock : BlockOK (s.nblockMAX + 5)
        { data := s.block.getD [], size := s.nblock, crc := BZ_FINALISE_CRC s.crc,
          id := s.block_id } := by
      have hd : s.block.getD [] = d := by rw [h.blk]; rfl
      refine ⟨?_, ?_, ?_, ?_, ?_⟩
      · show s.nblock = (s.block.getD []).length
        rw [hd]; exact h.len
      · show 1 ≤ s.nblock
        omega
      · show s.nblock ≤ s.nblockMAX + 5
        omega
      · show ∃ rs, _ ∧ s.block.getD [] = _ ∧ unRLE (s.block.getD []) = _
        rw [hd]; exact h.runs
      · show BZ_FINALISE_CRC s.crc = crc32_bzip2 (unRLE (s.block.getD []))
        rw [hd, h.crc]; rfl
    exact
      { blk := rfl
        len := rfl
        runs := ⟨[], by simp, rfl, rfl⟩
        boundary := ⟨by simp [unRLEState], Or.inl rfl⟩
        crc := rfl
        input := by
          show P = ((s.busy_queue ++ [_]).map fun b : InputBlock => unRLE b.bytes).flatten
            ++ unRLE [] ++ List.replicate s.rle_len s.rle_ch
          rw [List.map_append, List.flatten_append, List.map_singleton, List.flatten_singleton,
            bytes_of_size_eq _ hblock.1]
          have hd : s.block.getD [] = d := by rw [h.blk]; rfl
          show P = _ ++ unRLE (s.block.getD []) ++ unRLE [] ++ _
          rw [hd]
          simpa [unRLE, unRLEFrom] using h.input
        ch := h.ch
        run := h.run
        fill := Or.inr hmax
        blocks := by
          intro b hb
          rcases List.mem_append.1 hb with hb | hb
          · exact h.blocks b hb
          · rw [List.mem_singleton.1 hb]; exact hblock }
  · rw [if_neg hfull]
    exact ⟨d, h, by omega, rfl⟩

/-- The run-length step keeps the invariant, with the input prefix grown by
the byte read. -/
theorem rleByte_inv {P : List Nat} {s : InputThread} {d : List Nat}
    (h : ReaderInv P s d) (hroom : s.nblock < s.nblockMAX) (ch : Nat) (hch : ch < 256) :
    ∃ d1, ReaderInv (P ++ [ch]) (s.rleByte ch) d1 ∧ (s.rleByte ch).nblockMAX = s.nblockMAX := by
  obtain ⟨rs, hvalid, henc, hdec⟩ := h.runs
  obtain ⟨hb3, hbne⟩ := h.boundary
  obtain ⟨hr1, hr255⟩ := h.run
  have htup := unRLE_tuple (unRLEState 0 0 d).1 (unRLEState 0 0 d).2 s.rle_ch s.rle_len
    hb3 hbne hr1
  have hdec' : unRLE (d ++ tuple s.rle_ch s.rle_len)
      = unRLE d ++ List.replicate s.rle_len s.rle_ch := by
    unfold unRLE
    rw [unRLEFrom_append, htup.1]
  have hst' : unRLEState 0 0 (d ++ tuple s.rle_ch s.rle_len)
      = (s.rle_ch, if s.rle_len ≤ 3 then s.rle_len else 0) := by
    rw [unRLEState_append, htup.2]
  have hruns' : ∃ rs', (∀ r ∈ rs', validRun r) ∧ d ++ tuple s.rle_ch s.rle_len = encodeRuns rs' ∧
      unRLE (d ++ tuple s.rle_ch s.rle_len) = expandRuns rs' := by
    refine ⟨rs ++ [(s.rle_ch, s.rle_len)], ?_, ?_, ?_⟩
    · intro r hr
      rcases List.mem_append.1 hr with hr | hr
      · exact hvalid r hr
      · rw [List.mem_singleton.1 hr]; exact ⟨h.ch, hr1, hr255⟩
    · rw [encodeRuns_snoc, henc]
    · rw [hdec', expandRuns_snoc, hdec]
  have hm : s.rle_ch % 256 = s.rle_ch := Nat.mod_eq_of_lt h.ch
  unfold rleByte
  by_cases hA : ch ≠ s.rle_ch ∧ s.rle_len = 1
  · -- a single byte followed by a different byte
    rw [if_pos hA]
    obtain ⟨hne, hone⟩ := hA
    rw [hone, tuple_one] at hdec' hst' hruns'
    refine ⟨d ++ [s.rle_ch], ?_, rfl⟩
    exact
      { blk := by
          show (s.block.map (· ++ [s.rle_ch % 256])) = some (d ++ [s.rle_ch])
          rw [h.blk, hm]; rfl
        len := by
          show s.nblock + 1 = (d ++ [s.rle_ch]).length
          rw [List.length_append, h.len]; rfl
        runs := hruns'
        boundary := by
          rw [hst']
          exact ⟨by simp, Or.inr (fun e => hne e.symm)⟩
        crc := by
          show BZ_UPDATE_CRC s.crc s.rle_ch = _
          rw [hdec', List.foldl_append, ← h.crc]
          rfl
        input := by
          show P ++ [ch] = _ ++ unRLE (d ++ [s.rle_ch]) ++ List.replicate s.rle_len ch
          rw [hdec', hone]
          have := h.input
          rw [hone] at this
          rw [this]
          simp [List.replicate, storeByte]
        ch := hch
        run := h.run
        fill := by
          left
          exact ⟨hone, by show s.nblock + 1 ≤ s.nblockMAX + 4; omega⟩
        blocks := h.blocks }
  · rw [if_neg hA]
    by_cases hB : ch = s.rle_ch ∧ s.rle_len ≠ 255
    · -- the run goes on
      rw [if_pos hB]
      obtain ⟨heq, hlen⟩ := hB
      have hmod : (s.rle_len + 1) % 2 ^ 32 = s.rle_len + 1 := Nat.mod_eq_of_lt (by omega)
      rw [hmod]
      refine ⟨d, ?_, rfl⟩
      exact
        { blk := h.blk
          len := h.len
          runs := h.runs
          boundary := h.boundary
          crc := h.crc
          input := by
            show P ++ [ch] = _ ++ unRLE d ++ List.replicate (s.rle_len + 1) s.rle_ch
            rw [List.replicate_succ', ← List.append_assoc, ← h.input, heq]
          ch := h.ch
          run := by show 1 ≤ s.rle_len + 1 ∧ s.rle_len + 1 ≤ 255; omega
          fill := Or.inr hroom
          blocks := h.blocks }
    · -- the pending run is stored and a new run starts
      rw [if_neg hB]
      have hne256 : s.rle_ch ≠ 256 := by have := h.ch; omega
      simp only [hne256, ne_eq, not_false_eq_true, if_true]
      rw [add_pair_spec s d h.blk h.ch hr1 hr255]
      refine ⟨d ++ tuple s.rle_ch s.rle_len, ?_, rfl⟩
      exact
        { blk := rfl
          len := by
            show s.nblock + _ = (d ++ tuple s.rle_ch s.rle_len).length
            rw [List.length_append, h.len]
          runs := hruns'
          boundary := by
            rw [hst']
            show (if s.rle_len ≤ 3 then s.rle_len else 0) ≤ 3 ∧
              ((if s.rle_len ≤ 3 then s.rle_len else 0) = 0 ∨ s.rle_ch ≠ ch)
            by_cases h3 : s.rle_len ≤ 3
            · rw [if_pos h3]
              refine ⟨h3, Or.inr ?_⟩
              intro e
              exact hB ⟨e.symm, by omega⟩
            · rw [if_neg h3]
              exact ⟨by omega, Or.inl rfl⟩
          crc := by
            show List.foldl BZ_UPDATE_CRC s.crc _ = _
            rw [hdec', List.foldl_append, ← h.crc]
          input := by
            show P ++ [ch] = _ ++ unRLE (d ++ tuple s.rle_ch s.rle_len) ++ List.replicate 1 ch
            rw [hdec', ← List.append_assoc, ← h.input]
            rfl
          ch := hch
          run := by show 1 ≤ 1 ∧ 1 ≤ 255; omega
          fill := by
            left
            refine ⟨rfl, ?_⟩
            show s.nblock + (tuple s.rle_ch s.rle_len).length ≤ s.nblockMAX + 4
            have := tuple_length_le s.rle_ch s.rle_len
            omega
          blocks := h.blocks }

/-- One loop iteration keeps the invariant. -/
theorem feed_inv {P : List Nat} {s : InputThread} {d : List Nat}
    (hmax : 0 < s.nblockMAX) (h : ReaderInv P s d) (ch : Nat) (hch : ch < 256) :
    ∃ d1, ReaderInv (P ++ [ch]) (s.feed ch) d1 ∧ (s.feed ch).nblockMAX = s.nblockMAX := by
  obtain ⟨d1, h1, hroom, hm1⟩ := checkFull_inv hmax h
  obtain ⟨d2, h2, hm2⟩ := rleByte_inv h1 hroom ch hch
  exact ⟨d2, h2, by unfold feed; rw [hm2, hm1]⟩

theorem feedAll_inv (buf : List Nat) : ∀ {P : List Nat} {s : InputThread} {d : List Nat},
    0 < s.nblockMAX → ReaderInv P s d → (∀ b ∈ buf, b < 256) →
    ∃ d1, ReaderInv (P ++ buf) (s.feedAll buf) d1 ∧ (s.feedAll buf).nblockMAX = s.nblockMAX := by
  induction buf with
  | nil => intro P s d _ h _; exact ⟨d, by simpa [feedAll] using h, rfl⟩
  | cons c cs ih =>
    intro P s d hmax h hb
    obtain ⟨d1, h1, hm1⟩ := feed_inv hmax h c (hb c (List.mem_cons_self _ _))
    obtain ⟨d2, h2, hm2⟩ := ih (by rw [hm1]; exact hmax) h1
      (fun b hb' => hb b (List.mem_cons_of_mem _ hb'))
    refine ⟨d2, ?_, ?_⟩
    · have e : P ++ c :: cs = P ++ [c] ++ cs := by simp
      rw [e]; exact h2
    · show ((s.feed c).feedAll cs).nblockMAX = _
      rw [hm2, hm1]

/-- The first input byte: a block is prepared and the byte becomes the pending
run. -/
theorem feed_first (s : InputThread) (hmax : 0 < s.nblockMAX) (hq : s.busy_queue = [])
    (ch : Nat) (hch : ch < 256) :
    ReaderInv [ch] (s.start.feed ch) [] ∧ (s.start.feed ch).nblockMAX = s.nblockMAX := by
  have hstep : s.start.feed ch =
      { s with nblock := 0, block := some [], rle_ch := ch, rle_len := 1,
               crc := BZ_INITIALISE_CRC, block_id := (s.block_id + 1) % 2 ^ 64 } := by
    have h256 : ch ≠ 256 := by omega
    simp [feed, checkFull, rleByte, start, PrepareBlock, h256]
  rw [hstep]
  refine ⟨?_, rfl⟩
  exact
    { blk := rfl
      len := rfl
      runs := ⟨[], by simp, rfl, rfl⟩
      boundary := ⟨by simp [unRLEState], Or.inl rfl⟩
      crc := rfl
      input := by simp [hq, unRLE, unRLEFrom, List.replicate]
      ch := hch
      run := by show 1 ≤ 1 ∧ 1 ≤ 255; omega
      fill := Or.inr hmax
      blocks := by intro b hb; rw [show s.busy_queue = [] from hq] at hb; simp at hb }

theorem feedAll_append (s : InputThread) (xs ys : List Nat) :
    s.feedAll (xs ++ ys) = (s.feedAll xs).feedAll ys := by
  simp [feedAll, List.foldl_append]

/-- The main loop only depends on the bytes read, not on how `fread` cut
them. -/
theorem readLoop_eq (reads : List (List Nat)) : ∀ (s : InputThread),
    s.readLoop reads = s.feedAll (consumed reads) := by
  induction reads with
  | nil => intro s; rfl
  | cons c rest ih =>
    intro s
    cases c with
    | nil => rfl
    | cons x xs =>
      rw [readLoop, consumed, feedAll_append, ih]

theorem mem_consumed (reads : List (List Nat)) (h : ∀ c ∈ reads, ∀ b ∈ c, b < 256) :
    ∀ b ∈ consumed reads, b < 256 := by
  induction reads with
  | nil => intro b hb; simp [consumed] at hb
  | cons c rest ih =>
    cases c with
    | nil => intro b hb; simp [consumed] at hb
    | cons x xs =>
      intro b hb
      rw [consumed] at hb
      rcases List.mem_append.1 hb with hb | hb
      · exact h _ (List.mem_cons_self _ _) b hb
      · exact ih (fun c hc => h c (List.mem_cons_of_mem _ hc)) b hb

end InputThread

namespace InputThread

theorem nblockMAX_new (k : Nat) (hk1 : 1 ≤ k) (hk9 : k ≤ 9) :
    (new k).nblockMAX = 100000 * k - 19 := by
  show (100000 * k + 2 ^ 32 - 19) % 2 ^ 32 = 100000 * k - 19
  omega

/-- After the loop: the pending run is stored and the last block dispatched. -/
theorem finish_inv {X : List Nat} {s : InputThread} {d : List Nat} (h : ReaderInv X s d) :
    ∃ b, s.finish.busy_queue = s.busy_queue ++ [b] ∧ b.id = s.block_id ∧
      BlockOK (s.nblockMAX + 5) b ∧ s.finish.block_id = s.block_id ∧
      (s.finish.busy_queue.map fun b : InputBlock => unRLE b.bytes).flatten = X := by
  obtain ⟨rs, hvalid, henc, hdec⟩ := h.runs
  obtain ⟨hb3, hbne⟩ := h.boundary
  obtain ⟨hr1, hr255⟩ := h.run
  have htup := unRLE_tuple (unRLEState 0 0 d).1 (unRLEState 0 0 d).2 s.rle_ch s.rle_len
    hb3 hbne hr1
  have hdec' : unRLE (d ++ tuple s.rle_ch s.rle_len)
      = unRLE d ++ List.replicate s.rle_len s.rle_ch := by
    unfold unRLE
    rw [unRLEFrom_append, htup.1]
  have hne256 : s.rle_ch ≠ 256 := by have := h.ch; omega
  have hpos : s.rle_len > 0 := hr1
  have hlen1 := tuple_length_pos s.rle_ch s.rle_len
  have hlen5 := tuple_length_le s.rle_ch s.rle_len
  have hfin : s.finish =
      { s with
        block := some (d ++ tuple s.rle_ch s.rle_len)
        nblock := s.nblock + (tuple s.rle_ch s.rle_len).length
        crc := BZ_FINALISE_CRC ((List.replicate s.rle_len s.rle_ch).foldl BZ_UPDATE_CRC s.crc)
        rle_len := 2 ^ 32 - 1
        busy_queue := s.busy_queue ++
          [{ data := d ++ tuple s.rle_ch s.rle_len
             size := s.nblock + (tuple s.rle_ch s.rle_len).length
             crc := BZ_FINALISE_CRC ((List.replicate s.rle_len s.rle_ch).foldl BZ_UPDATE_CRC s.crc)
             id := s.block_id }]
        fp := false } := by
    unfold finish
    simp only [hne256, hpos, ne_eq, not_false_eq_true, and_self, if_true]
    rw [add_pair_spec s d h.blk h.ch hr1 hr255]
    have hnz : s.nblock + (tuple s.rle_ch s.rle_len).length ≠ 0 := by omega
    simp only [hnz, not_false_eq_true, and_true, reduceCtorEq, if_true, DispatchBlock,
      Option.getD_some]
  have hsize : s.nblock + (tuple s.rle_ch s.rle_len).length ≤ s.nblockMAX + 5 := by
    rcases h.fill with hf | hf
    · have : (tuple s.rle_ch s.rle_len).length = 1 := by rw [hf.1, tuple_one]; rfl
      omega
    · omega
  have hblock : BlockOK (s.nblockMAX + 5)
      { data := d ++ tuple s.rle_ch s.rle_len
        size := s.nblock + (tuple s.rle_ch s.rle_len).length
        crc := BZ_FINALISE_CRC ((List.replicate s.rle_len s.rle_ch).foldl BZ_UPDATE_CRC s.crc)
        id := s.block_id } := by
    refine ⟨?_, ?_, hsize, ⟨rs ++ [(s.rle_ch, s.rle_len)], ?_, ?_, ?_⟩, ?_⟩
    · show s.nblock + _ = (d ++ tuple s.rle_ch s.rle_len).length
      rw [List.length_append, h.len]
    · show 1 ≤ s.nblock + _
      omega
    · intro r hr
      rcases List.mem_append.1 hr with hr | hr
      · exact hvalid r hr
      · rw [List.mem_singleton.1 hr]; exact ⟨h.ch, hr1, hr255⟩
    · show d ++ tuple s.rle_ch s.rle_len = _
      rw [encodeRuns_snoc, henc]
    · show unRLE (d ++ tuple s.rle_ch s.rle_len) = _
      rw [hdec', expandRuns_snoc, hdec]
    · show BZ_FINALISE_CRC _ = crc32_bzip2 (unRLE (d ++ tuple s.rle_ch s.rle_len))
      rw [hdec', h.crc]
      unfold crc32_bzip2
      rw [List.foldl_append]
  rw [hfin]
  refine ⟨_, rfl, rfl, hblock, rfl, ?_⟩
  show ((s.busy_queue ++ [_]).map fun b : InputBlock => unRLE b.bytes).flatten = X
  rw [List.map_append, List.flatten_append, List.map_singleton, List.flatten_singleton,
    bytes_of_size_eq _ hblock.1]
  show _ ++ unRLE (d ++ tuple s.rle_ch s.rle_len) = X
  rw [hdec', ← List.append_assoc, ← h.input]

/-- `Run` on an input without bytes dispatches nothing and counts no block. -/
theorem Run_empty (s : InputThread) (reads : List (List Nat)) (h : consumed reads = []) :
    (s.Run reads).busy_queue = s.busy_queue ∧ (s.Run reads).block_id = s.block_id := by
  unfold Run
  rw [readLoop_eq, h]
  simp [feedAll, finish, start]

/-- The blocks `Run` dispatches, for a reader that starts with an empty busy
queue: decoded one by one and concatenated they give the input back, and each
is well formed. -/
theorem Run_blocks (s : InputThread) (hmax : 0 < s.nblockMAX) (hq : s.busy_queue = [])
    (reads : List (List Nat)) (hbytes : ∀ c ∈ reads, ∀ b ∈ c, b < 256) :
    ((s.Run reads).busy_queue.map fun b : InputBlock => unRLE b.bytes).flatten = consumed reads ∧
      ∀ b ∈ (s.Run reads).busy_queue, BlockOK (s.nblockMAX + 5) b := by
  have hb := mem_consumed reads hbytes
  cases hX : consumed reads with
  | nil =>
    obtain ⟨h1, -⟩ := Run_empty s reads hX
    rw [h1, hq]
    simp
  | cons x xs =>
    rw [hX] at hb
    unfold Run
    rw [readLoop_eq, hX]
    obtain ⟨h1, hm1⟩ := feed_first s hmax hq x (hb x (List.mem_cons_self _ _))
    obtain ⟨d2, h2, hm2⟩ := feedAll_inv xs (by rw [hm1]; exact hmax) h1
      (fun b hb' => hb b (List.mem_cons_of_mem _ hb'))
    obtain ⟨b, hq', -, hblock, -, hdec⟩ := finish_inv h2
    have hX' : [x] ++ xs = x :: xs := rfl
    rw [hX'] at hdec
    refine ⟨hdec, ?_⟩
    intro b' hb'
    have hmm : ((s.start.feed x).feedAll xs).nblockMAX = s.nblockMAX := by rw [hm2, hm1]
    have hfe : s.start.feedAll (x :: xs) = (s.start.feed x).feedAll xs := rfl
    rw [hfe, hq'] at hb'
    rcases List.mem_append.1 hb' with hb' | hb'
    · rw [← hmm]; exact h2.blocks b' hb'
    · rw [List.mem_singleton.1 hb', ← hmm]; exact hblock

end InputThread

/-- C6. For every input and every block size class `k` in `1..9`, the `crc`
field of each dispatched block is the bzip2 CRC-32 of the bytes the block
encodes, that is of the RLE-1 decoding of `data[0..size)`. -/
theorem InputThread_block_crc (k : Nat) (hk1 : 1 ≤ k) (hk9 : k ≤ 9)
    (reads : List (List Nat)) (hbytes : ∀ c ∈ reads, ∀ b ∈ c, b < 256) :
    ∀ b ∈ ((InputThread.new k).Run reads).busy_queue,
      b.crc = crc32_bzip2 (unRLE (b.data.take b.size)) := by
  have hmax : 0 < (InputThread.new k).nblockMAX := by
    rw [InputThread.nblockMAX_new k hk1 hk9]; omega
  obtain ⟨-, h2⟩ := InputThread.Run_blocks (InputThread.new k) hmax rfl reads hbytes
  intro b hb
  obtain ⟨hsz, -, -, -, hcrc⟩ := h2 b hb
  rw [hcrc]
  congr 2
  exact (InputThread.bytes_of_size_eq b hsz).symm

/-- C6 at a concrete input: the single byte `0x61` with `k = 9`. -/
theorem InputThread_block_crc_witness :
    ∃ b, b ∈ ((InputThread.new 9).Run [[0x61]]).busy_queue ∧
      b.crc = crc32_bzip2 (unRLE (b.data.take b.size)) :=
  ⟨{ data := [0x61], size := 1, crc := 0x19939B6B, id := 1 }, by decide,
    InputThread_block_crc 9 (by decide) (by decide) [[0x61]] (by decide) _ (by decide)⟩

/-! ## InputThread: block numbering -/

namespace InputThread

theorem storeByte_frame (s : InputThread) (x : Nat) :
    (s.storeByte x).busy_queue = s.busy_queue ∧ (s.storeByte x).block_id = s.block_id ∧
      ((s.storeByte x).block = none ↔ s.block = none) := by
  refine ⟨rfl, rfl, ?_⟩
  show s.block.map _ = none ↔ _
  cases s.block <;> simp

theorem add_pair_frame (s : InputThread) :
    s.add_pair.busy_queue = s.busy_queue ∧ s.add_pair.block_id = s.block_id ∧
      (s.add_pair.block = none ↔ s.block = none) := by
  unfold add_pair
  split <;> (simp only [storeByte]; cases s.block <;> simp)

theorem rleByte_frame (s : InputThread) (ch : Nat) :
    (s.rleByte ch).busy_queue = s.busy_queue ∧ (s.rleByte ch).block_id = s.block_id ∧
      ((s.rleByte ch).block = none ↔ s.block = none) := by
  unfold rleByte
  split_ifs
  · simp only [storeByte]; cases s.block <;> simp
  · exact ⟨rfl, rfl, Iff.rfl⟩
  · exact add_pair_frame s
  · exact ⟨rfl, rfl, Iff.rfl⟩

theorem checkFull_dispatch (s : InputThread) (hfull : s.nblock ≥ s.nblockMAX)
    (hb : s.block ≠ none) :
    s.checkFull = { s with
      busy_queue := s.busy_queue ++
        [{ data := s.block.getD [], size := s.nblock, crc := BZ_FINALISE_CRC s.crc,
           id := s.block_id }]
      block := some []
      block_id := (s.block_id + 1) % 2 ^ 64
      nblock := 0
      crc := BZ_INITIALISE_CRC } := by
  unfold checkFull
  rw [if_pos hfull, if_pos hb]
  rfl

theorem checkFull_first (s : InputThread) (hfull : s.nblock ≥ s.nblockMAX)
    (hb : s.block = none) :
    s.checkFull = { s with
      block := some []
      block_id := (s.block_id + 1) % 2 ^ 64
      nblock := 0
      crc := BZ_INITIALISE_CRC } := by
  unfold checkFull
  rw [if_pos hfull, if_neg (by simpa using hb)]
  rfl

theorem IdInv_checkFull {n : Nat} {s : InputThread} (h : IdInv n s) (hn : n + 1 < 2 ^ 64) :
    IdInv (n + 1) s.checkFull := by
  have hle := h.le
  by_cases hfull : s.nblock ≥ s.nblockMAX
  · have hmod : (s.block_id + 1) % 2 ^ 64 = s.block_id + 1 := Nat.mod_eq_of_lt (by omega)
    by_cases hb : s.block ≠ none
    · rw [checkFull_dispatch s hfull hb, hmod]
      have hcount : s.block_id = s.busy_queue.length + 1 := by
        rcases h.count with hc | hc
        · exact absurd hc.1 hb
        · exact hc.2
      exact
        { ids := by
            show (s.busy_queue ++ [_]).map InputBlock.id = List.range' 1 (s.busy_queue ++ [_]).length
            rw [List.map_append, h.ids, List.length_append, List.length_singleton,
              List.range'_concat, hcount]
            simp [Nat.add_comm]
          count := by
            right
            refine ⟨by simp, ?_⟩
            show s.block_id + 1 = (s.busy_queue ++ [_]).length + 1
            rw [hcount, List.length_append, List.length_singleton]
          le := by
            show s.block_id + 1 ≤ n + 1
            omega }
    · have hb' : s.block = none := by simpa using hb
      rw [checkFull_first s hfull hb', hmod]
      obtain ⟨hid, hq⟩ : s.block_id = 0 ∧ s.busy_queue = [] := by
        rcases h.count with hc | hc
        · exact hc.2
        · exact absurd hb' hc.1
      exact
        { ids := by show s.busy_queue.map _ = List.range' 1 s.busy_queue.length; rw [hq]; rfl
          count := by
            right
            refine ⟨by simp, ?_⟩
            show s.block_id + 1 = s.busy_queue.length + 1
            rw [hid, hq]; rfl
          le := by
            show s.block_id + 1 ≤ n + 1
            omega }
  · unfold checkFull
    rw [if_neg hfull]
    exact { ids := h.ids, count := h.count, le := by omega }

theorem IdInv_rleByte {n : Nat} {s : InputThread} (h : IdInv n s) (ch : Nat) :
    IdInv n (s.rleByte ch) := by
  obtain ⟨hq, hid, hb⟩ := rleByte_frame s ch
  exact
    { ids := by rw [hq]; exact h.ids
      count := by
        rw [hq, hid]
        rcases h.count with hc | hc
        · exact Or.inl ⟨hb.2 hc.1, hc.2⟩
        · exact Or.inr ⟨fun e => hc.1 (hb.1 e), hc.2⟩
      le := by rw [hid]; exact h.le }

theorem IdInv_feedAll (buf : List Nat) : ∀ {n : Nat} {s : InputThread},
    IdInv n s → n + buf.length < 2 ^ 64 → IdInv (n + buf.length) (s.feedAll buf) := by
  induction buf with
  | nil => intro n s h _; exact h
  | cons c cs ih =>
    intro n s h hn
    simp only [List.length_cons] at hn ⊢
    have h1 : IdInv (n + 1) (s.feed c) := IdInv_rleByte (IdInv_checkFull h (by omega)) c
    have h2 := ih h1 (by omega)
    have e : n + (cs.length + 1) = n + 1 + cs.length := by omega
    rw [e]
    exact h2

/-- Block numbering of a whole `Run`: the ids in dispatch order are `1..K`
and `K` is the block count. -/
theorem Run_ids (k : Nat) (hk1 : 1 ≤ k) (hk9 : k ≤ 9) (reads : List (List Nat))
    (hbytes : ∀ c ∈ reads, ∀ b ∈ c, b < 256) (hlen : (consumed reads).length < 2 ^ 64) :
    ((new k).Run reads).busy_queue.map InputBlock.id
        = List.range' 1 ((new k).Run reads).GetBlocksCount ∧
      ((new k).Run reads).GetBlocksCount = ((new k).Run reads).busy_queue.length := by
  have hmax : 0 < (new k).nblockMAX := by rw [nblockMAX_new k hk1 hk9]; omega
  have hb := mem_consumed reads hbytes
  cases hX : consumed reads with
  | nil =>
    obtain ⟨h1, h2⟩ := Run_empty (new k) reads hX
    unfold GetBlocksCount
    rw [h1, h2]
    exact ⟨rfl, rfl⟩
  | cons x xs =>
    rw [hX] at hb hlen
    have hid0 : IdInv 0 (new k).start :=
      { ids := rfl, count := Or.inl ⟨rfl, rfl, rfl⟩, le := Nat.le_refl _ }
    have hid := IdInv_feedAll (x :: xs) hid0 (by omega)
    obtain ⟨h1, hm1⟩ := feed_first (new k) hmax rfl x (hb x (List.mem_cons_self _ _))
    obtain ⟨d2, h2, -⟩ := feedAll_inv xs (by rw [hm1]; exact hmax) h1
      (fun b hb' => hb b (List.mem_cons_of_mem _ hb'))
    obtain ⟨b, hq', hbid, -, hcnt, -⟩ := finish_inv h2
    have hfe : (new k).start.feedAll (x :: xs) = ((new k).start.feed x).feedAll xs := rfl
    rw [hfe] at hid
    have hcount : (((new k).start.feed x).feedAll xs).block_id
        = (((new k).start.feed x).feedAll xs).busy_queue.length + 1 := by
      rcases hid.count with hc | hc
      · rw [h2.blk] at hc; exact absurd hc.1 (by simp)
      · exact hc.2
    unfold Run GetBlocksCount
    rw [readLoop_eq, hX, hfe, hq', hcnt, List.map_append, hid.ids, List.length_append,
      List.length_singleton, List.map_singleton, hbid, hcount, List.range'_concat]
    simp [Nat.add_comm]

end InputThread

/-- C9. For every input of fewer than `2^64` bytes and every block size class
`k` in `1..9`, the ids of the dispatched blocks, in dispatch order, are exactly
`1, 2, .., K`, where `K` is the value of `GetBlocksCount()` after `Run` and
also the number of blocks dispatched, and the decoded blocks concatenated in
that order are the input: block `i` encodes the bytes just before those of
block `i + 1`. -/
theorem InputThread_block_ids_dense (k : Nat) (hk1 : 1 ≤ k) (hk9 : k ≤ 9)
    (reads : List (List Nat)) (hbytes : ∀ c ∈ reads, ∀ b ∈ c, b < 256)
    (hlen : (consumed reads).length < 2 ^ 64) :
    ((InputThread.new k).Run reads).busy_queue.map InputBlock.id
        = List.range' 1 ((InputThread.new k).Run reads).GetBlocksCount ∧
      ((InputThread.new k).Run reads).GetBlocksCount
        = ((InputThread.new k).Run reads).busy_queue.length ∧
      (((InputThread.new k).Run reads).busy_queue.map fun b : InputBlock =>
        unRLE (b.data.take b.size)).flatten = consumed reads := by
  have hmax : 0 < (InputThread.new k).nblockMAX := by
    rw [InputThread.nblockMAX_new k hk1 hk9]; omega
  obtain ⟨h1, h2⟩ := InputThread.Run_ids k hk1 hk9 reads hbytes hlen
  obtain ⟨h3, -⟩ := InputThread.Run_blocks (InputThread.new k) hmax rfl reads hbytes
  exact ⟨h1, h2, h3⟩

/-- C9 at a concrete input. -/
theorem InputThread_block_ids_dense_witness :
    ((InputThread.new 1).Run [[1, 1, 1, 1, 1, 2, 2], [3, 3, 3, 3], [3, 3, 4]]).busy_queue.map
        InputBlock.id
      = List.range' 1
          ((InputThread.new 1).Run [[1, 1, 1, 1, 1, 2, 2], [3, 3, 3, 3], [3, 3, 4]]).GetBlocksCount :=
  (InputThread_block_ids_dense 1 (by decide) (by decide)
    [[1, 1, 1, 1, 1, 2, 2], [3, 3, 3, 3], [3, 3, 4]] (by decide)
    (by simp [consumed])).1

/-! ## InputThread: explicit runs of the loop -/

namespace InputThread

/-- The first loop iteration, in closed form. -/
theorem feed_start_eq (s : InputThread) (ch : Nat) (hch : ch < 256) :
    s.start.feed ch =
      { s with nblock := 0, block := some [], rle_ch := ch, rle_len := 1,
               crc := BZ_INITIALISE_CRC, block_id := (s.block_id + 1) % 2 ^ 64 } := by
  have h256 : ch ≠ 256 := by omega
  simp [feed, checkFull, rleByte, start, PrepareBlock, h256]

/-- The end of `Run`, in closed form, when a run is pending. -/
theorem finish_spec (s : InputThread) (d : List Nat) (hb : s.block = some d)
    (hc : s.rle_ch < 256) (h1 : 1 ≤ s.rle_len) (h255 : s.rle_len ≤ 255) :
    s.finish =
      { s with
        block := some (d ++ tuple s.rle_ch s.rle_len)
        nblock := s.nblock + (tuple s.rle_ch s.rle_len).length
        crc := BZ_FINALISE_CRC ((List.replicate s.rle_len s.rle_ch).foldl BZ_UPDATE_CRC s.crc)
        rle_len := 2 ^ 32 - 1
        busy_queue := s.busy_queue ++
          [{ data := d ++ tuple s.rle_ch s.rle_len
             size := s.nblock + (tuple s.rle_ch s.rle_len).length
             crc := BZ_FINALISE_CRC ((List.replicate s.rle_len s.rle_ch).foldl BZ_UPDATE_CRC s.crc)
             id := s.block_id }]
        fp := false } := by
  have hne256 : s.rle_ch ≠ 256 := by omega
  have hpos : s.rle_len > 0 := h1
  have hlen1 := tuple_length_pos s.rle_ch s.rle_len
  unfold finish
  simp only [hne256, hpos, ne_eq, not_false_eq_true, and_self, if_true]
  rw [add_pair_spec s d hb hc h1 h255]
  have hnz : s.nblock + (tuple s.rle_ch s.rle_len).length ≠ 0 := by omega
  simp only [hnz, not_false_eq_true, and_true, reduceCtorEq, if_true, DispatchBlock,
    Option.getD_some]

theorem checkFull_room (s : InputThread) (hroom : s.nblock < s.nblockMAX) : s.checkFull = s := by
  unfold checkFull
  rw [if_neg (by omega)]

/-- A byte that differs from a pending single byte: the pending byte is
stored. -/
theorem feed_single (s : InputThread) (d : List Nat) (ch : Nat) (hb : s.block = some d)
    (hlen : s.rle_len = 1) (hne : ch ≠ s.rle_ch) (hc : s.rle_ch < 256)
    (hroom : s.nblock < s.nblockMAX) :
    s.feed ch = { s with
      crc := BZ_UPDATE_CRC s.crc s.rle_ch
      block := some (d ++ [s.rle_ch])
      nblock := s.nblock + 1
      rle_ch := ch } := by
  unfold feed
  rw [checkFull_room s hroom]
  unfold rleByte
  rw [if_pos ⟨hne, hlen⟩]
  simp [storeByte, hb, Nat.mod_eq_of_lt hc]

/-- A byte that continues the pending run below the limit of 255. -/
theorem feed_same (s : InputThread) (ch : Nat) (heq : ch = s.rle_ch) (h1 : 1 ≤ s.rle_len)
    (hlen : s.rle_len < 255) (hroom : s.nblock < s.nblockMAX) :
    s.feed ch = { s with rle_len := s.rle_len + 1 } := by
  unfold feed
  rw [checkFull_room s hroom]
  unfold rleByte
  have hA : ¬ (ch ≠ s.rle_ch ∧ s.rle_len = 1) := fun h => h.1 heq
  have hB : ch = s.rle_ch ∧ s.rle_len ≠ 255 := ⟨heq, by omega⟩
  rw [if_neg hA, if_pos hB, Nat.mod_eq_of_lt (by omega)]

/-- A byte that continues a pending run of 255: the run is stored as one
tuple and a new run starts. -/
theorem feed_split (s : InputThread) (d : List Nat) (ch : Nat) (hb : s.block = some d)
    (heq : ch = s.rle_ch) (hlen : s.rle_len = 255) (hc : s.rle_ch < 256)
    (hroom : s.nblock < s.nblockMAX) :
    s.feed ch = { s with
      block := some (d ++ tuple s.rle_ch s.rle_len)
      nblock := s.nblock + (tuple s.rle_ch s.rle_len).length
      crc := (List.replicate s.rle_len s.rle_ch).foldl BZ_UPDATE_CRC s.crc
      rle_ch := ch
      rle_len := 1 } := by
  unfold feed
  rw [checkFull_room s hroom]
  unfold rleByte
  have hA : ¬ (ch ≠ s.rle_ch ∧ s.rle_len = 1) := fun h => h.1 heq
  have hB : ¬ (ch = s.rle_ch ∧ s.rle_len ≠ 255) := fun h => h.2 hlen
  have hne256 : s.rle_ch ≠ 256 := by omega
  rw [if_neg hA, if_neg hB]
  simp only [hne256, ne_eq, not_false_eq_true, if_true]
  rw [add_pair_spec s d hb hc (by omega) (by omega)]

/-- A stretch of equal bytes that keeps the run within 255 only counts. -/
theorem feedAll_same (b : Nat) (n : Nat) : ∀ (s : InputThread), s.rle_ch = b → 1 ≤ s.rle_len →
    s.rle_len + n ≤ 255 → s.nblock < s.nblockMAX →
    s.feedAll (List.replicate n b) = { s with rle_len := s.rle_len + n } := by
  induction n with
  | zero => intro s _ _ _ _; rfl
  | succ n ih =>
    intro s hch h1 hlen hroom
    rw [List.replicate_succ]
    show (s.feed b).feedAll (List.replicate n b) = _
    rw [feed_same s b hch.symm h1 (by omega) hroom,
      ih { s with rle_len := s.rle_len + 1 } hch (by show 1 ≤ s.rle_len + 1; omega)
        (by show s.rle_len + 1 + n ≤ 255; omega) hroom]
    show { s with rle_len := s.rle_len + 1 + n } = _
    rw [Nat.add_assoc, Nat.add_comm 1 n]

/-- A stretch of alternating bytes stores one byte for each byte read. -/
theorem feedAll_alternating (n : Nat) : ∀ (b : Nat) (s : InputThread) (d : List Nat), b ≤ 1 →
    s.block = some d → s.rle_len = 1 → s.rle_ch = 1 - b → s.nblock + n ≤ s.nblockMAX →
    ∃ d1, (s.feedAll (alternating n b)).block = some d1 ∧
      (s.feedAll (alternating n b)).rle_len = 1 ∧ (s.feedAll (alternating n b)).rle_ch ≤ 1 ∧
      (s.feedAll (alternating n b)).nblock = s.nblock + n ∧
      (s.feedAll (alternating n b)).busy_queue = s.busy_queue ∧
      (s.feedAll (alternating n b)).block_id = s.block_id := by
  induction n with
  | zero =>
    intro b s d _ hb hlen hch _
    exact ⟨d, hb, hlen, by show s.rle_ch ≤ 1; omega, rfl, rfl, rfl⟩
  | succ n ih =>
    intro b s d hb1 hb hlen hch hroom
    have hstep := feed_single s d b hb hlen (by omega) (by omega) (by omega)
    have hfa : s.feedAll (alternating (n + 1) b) = (s.feed b).feedAll (alternating n (1 - b)) :=
      rfl
    rw [hfa, hstep]
    obtain ⟨d1, h1, h2, h3, h4, h5, h6⟩ := ih (1 - b)
      { s with crc := BZ_UPDATE_CRC s.crc s.rle_ch, block := some (d ++ [s.rle_ch]),
               nblock := s.nblock + 1, rle_ch := b }
      (d ++ [s.rle_ch]) (by omega) rfl hlen (by show b = 1 - (1 - b); omega)
      (by show s.nblock + 1 + n ≤ s.nblockMAX; omega)
    exact ⟨d1, h1, h2, h3, by rw [h4]; show s.nblock + 1 + n = _; omega, h5, h6⟩

end InputThread

/-! ## InputThread: block sizes -/

namespace InputThread

theorem Run_eq (s : InputThread) (reads : List (List Nat)) :
    s.Run reads = (s.start.feedAll (consumed reads)).finish := by
  unfold Run
  rw [readLoop_eq]

theorem consumed_single (x : Nat) (xs : List Nat) : consumed [x :: xs] = x :: xs := by
  simp [consumed]

theorem feedAll_cons (s : InputThread) (c : Nat) (cs : List Nat) :
    s.feedAll (c :: cs) = (s.feed c).feedAll cs := rfl

theorem alternating_succ (n b : Nat) :
    alternating (n + 1) b = b :: alternating n (1 - b) := by
  rw [alternating]

/-- With `k = 1`, an input of 99982 alternating bytes gives one block of
99982 bytes. -/
theorem Run_alternating_size :
    ((new 1).Run [alternating 99982 0]).busy_queue.map InputBlock.size = [99982] := by
  have halt : alternating 99982 0 = 0 :: alternating 99981 1 := by
    have e : (99982 : Nat) = 99981 + 1 := by norm_num
    rw [e, alternating_succ]
  rw [Run_eq, halt, consumed_single, feedAll_cons, feed_start_eq (new 1) 0 (by norm_num)]
  obtain ⟨d1, h1, h2, h3, h4, h5, -⟩ := feedAll_alternating 99981 1
    { new 1 with nblock := 0, block := some [], rle_ch := 0, rle_len := 1,
                 crc := BZ_INITIALISE_CRC, block_id := ((new 1).block_id + 1) % 2 ^ 64 }
    [] (by norm_num) rfl rfl rfl (by decide)
  rw [finish_spec _ d1 h1 (by omega) (by omega) (by omega)]
  show List.map InputBlock.size (_ ++ [_]) = _
  rw [h5, h4, h2, tuple_one]
  rfl

end InputThread

/-- C7, counterexample. With block size class 1 the reader dispatches, for an
input of 99982 alternating bytes, a block of 99982 bytes, which is more than
`nblock_max = 100000 * 1 - 19 = 99981`. -/
theorem InputThread_block_exceeds_nblockMAX :
    ((InputThread.new 1).Run [alternating 99982 0]).busy_queue.map InputBlock.size = [99982] ∧
      ¬ (99982 ≤ 100000 * 1 - 19) :=
  ⟨InputThread.Run_alternating_size, by decide⟩

/-- C7, amended. For every input and every block size class `k` in `1..9`, no
dispatched block has a size above `nblock_max + 5 = 100000 * k - 14`: the
fill count is compared with `nblock_max` before each input byte, and one input
byte stores at most one tuple of five bytes, after which the end of the input
can store one more byte. -/
theorem InputThread_block_size_bound (k : Nat) (hk1 : 1 ≤ k) (hk9 : k ≤ 9)
    (reads : List (List Nat)) (hbytes : ∀ c ∈ reads, ∀ b ∈ c, b < 256) :
    ∀ b ∈ ((InputThread.new k).Run reads).busy_queue, b.size ≤ 100000 * k - 14 := by
  have hnm := InputThread.nblockMAX_new k hk1 hk9
  have hmax : 0 < (InputThread.new k).nblockMAX := by rw [hnm]; omega
  obtain ⟨-, h2⟩ := InputThread.Run_blocks (InputThread.new k) hmax rfl reads hbytes
  intro b hb
  obtain ⟨-, -, hsz, -, -⟩ := h2 b hb
  rw [hnm] at hsz
  omega

/-- C7, amended, at a concrete input. -/
theorem InputThread_block_size_bound_witness :
    ∃ b, b ∈ ((InputThread.new 1).Run [[0x61]]).busy_queue ∧ b.size ≤ 100000 * 1 - 14 :=
  ⟨{ data := [0x61], size := 1, crc := 0x19939B6B, id := 1 }, by decide,
    InputThread_block_size_bound 1 (by decide) (by decide) [[0x61]] (by decide) _ (by decide)⟩

/-! ## InputThread: a single run of equal bytes -/

namespace InputThread

theorem bytes_mk (d : List Nat) (n crc id : Nat) (h : n = d.length) :
    InputBlock.bytes { data := d, size := n, crc := crc, id := id } = d := by
  unfold InputBlock.bytes
  show List.take n d = d
  rw [h, List.take_length]

theorem consumed_replicate (n b : Nat) (h : 1 ≤ n) :
    consumed [List.replicate n b] = List.replicate n b := by
  obtain ⟨m, rfl⟩ : ∃ m, n = m + 1 := ⟨n - 1, by omega⟩
  rw [List.replicate_succ, consumed_single]

/-- An input of `r ≤ 255` equal bytes gives one block holding one tuple. -/
theorem Run_short_run (k : Nat) (hk1 : 1 ≤ k) (hk9 : k ≤ 9) (b : Nat) (hb : b < 256)
    (r : Nat) (h1 : 1 ≤ r) (h255 : r ≤ 255) (reads : List (List Nat))
    (hX : consumed reads = List.replicate r b) :
    ((new k).Run reads).busy_queue.map InputBlock.bytes = [tuple b r] := by
  have hnm := nblockMAX_new k hk1 hk9
  obtain ⟨n, rfl⟩ : ∃ n, r = n + 1 := ⟨r - 1, by omega⟩
  rw [Run_eq, hX, List.replicate_succ, feedAll_cons, feed_start_eq (new k) b hb,
    feedAll_same b n _ rfl (by show 1 ≤ 1; omega) (by show 1 + n ≤ 255; omega)
      (by show 0 < (new k).nblockMAX; rw [hnm]; omega),
    finish_spec _ [] rfl hb (by show 1 ≤ 1 + n; omega) (by show 1 + n ≤ 255; omega)]
  show List.map InputBlock.bytes ([] ++ [_]) = _
  rw [List.nil_append, List.map_singleton, bytes_mk _ _ _ _ (by simp)]
  show [[] ++ tuple b (1 + n)] = _
  rw [List.nil_append, Nat.add_comm 1 n]

/-- An input of `r` equal bytes with `256 ≤ r ≤ 510` gives one block holding
the tuple of 255 bytes followed by the tuple of the other `r - 255` bytes. -/
theorem Run_long_run (k : Nat) (hk1 : 1 ≤ k) (hk9 : k ≤ 9) (b : Nat) (hb : b < 256)
    (r : Nat) (h256 : 256 ≤ r) (h510 : r ≤ 510) (reads : List (List Nat))
    (hX : consumed reads = List.replicate r b) :
    ((new k).Run reads).busy_queue.map InputBlock.bytes
      = [[b, b, b, b, 251] ++ tuple b (r - 255)] := by
  have hnm := nblockMAX_new k hk1 hk9
  have hmax : 5 < (new k).nblockMAX := by rw [hnm]; omega
  obtain ⟨m, rfl⟩ : ∃ m, r = 1 + 254 + 1 + m := ⟨r - 256, by omega⟩
  have hsplit : List.replicate (1 + 254 + 1 + m) b
      = b :: (List.replicate 254 b ++ (b :: List.replicate m b)) := by
    rw [List.replicate_add, List.replicate_add, List.replicate_add, List.replicate_one]
    simp only [List.append_assoc, List.singleton_append]
    rfl
  have htup : tuple b (1 + 254) = [b, b, b, b, 251] := by simp [tuple]
  rw [Run_eq, hX, hsplit, feedAll_cons, feed_start_eq (new k) b hb, feedAll_append,
    feedAll_same b 254 _ rfl (by show 1 ≤ 1; omega) (by show 1 + 254 ≤ 255; omega)
      (by show 0 < (new k).nblockMAX; omega),
    feedAll_cons,
    feed_split _ [] b rfl rfl rfl hb (by show 0 < (new k).nblockMAX; omega)]
  simp only [htup, List.nil_append, List.length_cons, List.length_nil]
  rw [feedAll_same b m _ rfl (by show 1 ≤ 1; omega) (by show 1 + m ≤ 255; omega)
      (by show 0 + (0 + 1 + 1 + 1 + 1 + 1) < (new k).nblockMAX; omega),
    finish_spec _ [b, b, b, b, 251] rfl hb (by show 1 ≤ 1 + m; omega)
      (by show 1 + m ≤ 255; omega)]
  show List.map InputBlock.bytes ([] ++ [_]) = _
  rw [List.nil_append, List.map_singleton, bytes_mk _ _ _ _
    (by simp only [List.length_append, List.length_cons, List.length_nil])]
  have e : 1 + 254 + 1 + m - 255 = 1 + m := by omega
  rw [e]

end InputThread

/-- C8, counterexample. With 256 copies of the byte `0x41` the reader stores
two tuples, `41 41 41 41 FB` and `41`, and not the single tuple
`41 41 41 41 FC` the claim gives for `r = 256`. -/
theorem InputThread_run_of_256_is_split :
    ((InputThread.new 1).Run [List.replicate 256 0x41]).busy_queue.map InputBlock.bytes
        = [[0x41, 0x41, 0x41, 0x41, 251, 0x41]] ∧
      ((InputThread.new 1).Run [List.replicate 256 0x41]).busy_queue.map InputBlock.bytes
        ≠ [[0x41, 0x41, 0x41, 0x41, 256 - 4]] := by
  have h := InputThread.Run_long_run 1 (by decide) (by decide) 0x41 (by decide) 256
    (by decide) (by decide) [List.replicate 256 0x41]
    (InputThread.consumed_replicate 256 0x41 (by decide))
  have ht : tuple 0x41 (256 - 255) = [0x41] := by simp [tuple]
  rw [ht] at h
  rw [h]
  exact ⟨rfl, by decide⟩

/-- C8, amended. For every byte `b`, every block size class `k` in `1..9` and
every run length `r` with `1 ≤ r ≤ 255`, the input of `r` copies of `b` is
stored as one tuple: `b`, `b b`, `b b b`, or for `r ≥ 4` the five bytes
`b b b b (r-4)`.  Runs longer than 255 are split: for `256 ≤ r ≤ 510` the
reader stores `b b b b 251` followed by the tuple of the other `r - 255`
bytes. -/
theorem InputThread_run_tuple (k : Nat) (hk1 : 1 ≤ k) (hk9 : k ≤ 9) (b : Nat) (hb : b < 256)
    (r : Nat) (reads : List (List Nat)) (hX : consumed reads = List.replicate r b) :
    (1 ≤ r → r ≤ 255 →
      ((InputThread.new k).Run reads).busy_queue.map InputBlock.bytes
        = [if r = 1 then [b] else if r = 2 then [b, b] else if r = 3 then [b, b, b]
           else [b, b, b, b, r - 4]]) ∧
    (256 ≤ r → r ≤ 510 →
      ((InputThread.new k).Run reads).busy_queue.map InputBlock.bytes
        = [[b, b, b, b, 251] ++
            (if r - 255 = 1 then [b] else if r - 255 = 2 then [b, b]
             else if r - 255 = 3 then [b, b, b] else [b, b, b, b, r - 255 - 4])]) :=
  ⟨fun h1 h255 => InputThread.Run_short_run k hk1 hk9 b hb r h1 h255 reads hX,
   fun h256 h510 => InputThread.Run_long_run k hk1 hk9 b hb r h256 h510 reads hX⟩

/-- C8, amended, at a concrete input: seven copies of `0x41` read in two
pieces give `41 41 41 41 03`. -/
theorem InputThread_run_tuple_witness :
    ((InputThread.new 1).Run [[0x41, 0x41, 0x41], [0x41, 0x41, 0x41, 0x41]]).busy_queue.map
        InputBlock.bytes = [[0x41, 0x41, 0x41, 0x41, 3]] :=
  (InputThread_run_tuple 1 (by decide) (by decide) 0x41 (by decide) 7
    [[0x41, 0x41, 0x41], [0x41, 0x41, 0x41, 0x41]] (by decide)).1 (by decide) (by decide)

/-! ## The empty input -/

/-- C10. For the empty input with block size class 1 the reader dispatches no
block and counts none; and whenever the writer is then told the block count
by `SetLastBlock`, in any interleaving with its own atomic sections, two more
atomic sections make it leave its loop and delete the bit writer, and the
file has then received exactly the 14 bytes `'B' 'Z' 'h' '1'`,
`17 72 45 38 50 90`, `00 00 00 00`. -/
theorem empty_input_output (reads : List (List Nat)) (hX : consumed reads = [])
    (evs : List Event) (hv : validSchedule [] evs)
    (hset : Event.setLastBlock ((InputThread.new 1).Run reads).GetBlocksCount ∈ evs) :
    ((InputThread.new 1).Run reads).busy_queue = [] ∧
      ((InputThread.new 1).Run reads).GetBlocksCount = 0 ∧
      ((OutputThread.new 1).execAll (evs ++ [Event.run, Event.run])).pc = RunPc.finished ∧
      ((OutputThread.new 1).execAll (evs ++ [Event.run, Event.run])).deleted = true ∧
      emittedBytes kOutBuf ((OutputThread.new 1).execAll (evs ++ [Event.run, Event.run])).writer
        = some [0x42, 0x5A, 0x68, 0x31, 0x17, 0x72, 0x45, 0x38, 0x50, 0x90, 0, 0, 0, 0] := by
  obtain ⟨hq, hid⟩ := InputThread.Run_empty (InputThread.new 1) reads hX
  have hcount : ((InputThread.new 1).Run reads).GetBlocksCount = 0 := hid
  rw [hcount] at hset
  have hc : completeSchedule [] evs :=
    ⟨hv, fun id h1 h0 => by simp at h0; omega, hset⟩
  obtain ⟨hinv, hfin⟩ := @complete_finishes 1 [] (by norm_num) evs hc
  have hrep : List.replicate (2 * ([] : List Rec).length + 2) Event.run
      = [Event.run, Event.run] := rfl
  rw [hrep] at hinv hfin
  have hat := hinv.at_pc
  rw [hfin] at hat
  obtain ⟨-, -, hw, hdel⟩ := hat
  refine ⟨hq, hcount, hfin, hdel, ?_⟩
  rw [hw]
  decide

/-- C10 at a concrete schedule: the writer waits once, then learns that there
are no blocks. -/
theorem empty_input_output_witness :
    emittedBytes kOutBuf ((OutputThread.new 1).execAll
        ([Event.run, Event.setLastBlock 0] ++ [Event.run, Event.run])).writer
      = some [0x42, 0x5A, 0x68, 0x31, 0x17, 0x72, 0x45, 0x38, 0x50, 0x90, 0, 0, 0, 0] :=
  (empty_input_output [] rfl [Event.run, Event.setLastBlock 0]
    (by unfold validSchedule; decide) (by decide)).2.2.2.2

/-! ## BitStreamWriter: padding and the pending register -/

/-- C13. For every sequence of writes to a fresh `BitStreamWriter` whose total
bit count `B` is not a multiple of 8, the bits that follow the first `B` bits
in the bytes delivered at destruction are `8 - B mod 8` zero bits, whatever the
input bytes hold beyond their stated bit lengths. -/
theorem BitStreamWriter_trailing_bits_zero (n : Nat) (hn : 1 ≤ n)
    (calls : List (List Nat × Nat))
    (hbytes : ∀ c ∈ calls, ∀ b ∈ c.1, b < 256)
    (hlen : ∀ c ∈ calls, (c.2 + 7) / 8 ≤ c.1.length)
    (hB : totalBits calls % 8 ≠ 0) :
    ∃ out, emittedBytes n calls = some out ∧
      (streamBits out).drop (totalBits calls)
        = List.replicate (8 - totalBits calls % 8) false := by
  have hlen' : ∀ c ∈ calls, c.2 ≤ 8 * c.1.length := fun c hc => by
    have := hlen c hc; omega
  obtain ⟨w1, hw, hwf1, -, hbits1⟩ := BitStreamWriter.writeAll_spec calls
    (BitStreamWriter.new n) (BitStreamWriter.WF_new n hn)
    (fun c hc => ⟨hbytes c hc, hlen' c hc⟩)
  obtain ⟨out, hd, hout⟩ := BitStreamWriter.dtor_spec w1 hwf1
  rw [BitStreamWriter.bits_new, List.nil_append] at hbits1
  have hBl := writtenBits_length calls hlen'
  have hlen1 := congrArg List.length hbits1
  rw [BitStreamWriter.bits_length w1 hwf1.1, hBl] at hlen1
  have hlive : w1.live = totalBits calls % 8 := by have := hwf1.1; omega
  refine ⟨out.flatten, ?_, ?_⟩
  · unfold emittedBytes
    rw [hw]
    simp [hd]
  · rw [hout, hbits1, List.drop_left' hBl, hlive]
    congr 1
    omega

/-- C13 at a concrete input: 12 bits, then 3 bits taken from the byte `0xFF`,
whose other five bits do not reach the output. -/
theorem BitStreamWriter_trailing_bits_zero_witness :
    ∃ out, emittedBytes 2 [([0xAB, 0xCD], 12), ([0xFF], 3)] = some out ∧
      (streamBits out).drop (totalBits [([0xAB, 0xCD], 12), ([0xFF], 3)])
        = List.replicate (8 - totalBits [([0xAB, 0xCD], 12), ([0xFF], 3)] % 8) false :=
  BitStreamWriter_trailing_bits_zero 2 (by decide) _ (by decide) (by decide) (by decide)

/-- C17. Starting from a fresh `BitStreamWriter`, after any sequence of `Write`
calls totalling `B` bits the field `live` is at most 7 and equals `B mod 8`,
and the low byte of `reg` holds the last `live` bits written, left-aligned,
with zeros below them. -/
theorem BitStreamWriter_live_and_reg (n : Nat) (hn : 1 ≤ n)
    (calls : List (List Nat × Nat))
    (hbytes : ∀ c ∈ calls, ∀ b ∈ c.1, b < 256)
    (hlen : ∀ c ∈ calls, (c.2 + 7) / 8 ≤ c.1.length) :
    ∃ w, (BitStreamWriter.new n).writeAll calls = some w ∧
      w.live ≤ 7 ∧ w.live = totalBits calls % 8 ∧
      bitsMSB (w.reg % 256)
        = (writtenBits calls).drop (totalBits calls - totalBits calls % 8)
          ++ List.replicate (8 - totalBits calls % 8) false := by
  have hlen' : ∀ c ∈ calls, c.2 ≤ 8 * c.1.length := fun c hc => by
    have := hlen c hc; omega
  obtain ⟨w1, hw, hwf1, -, hbits1⟩ := BitStreamWriter.writeAll_spec calls
    (BitStreamWriter.new n) (BitStreamWriter.WF_new n hn)
    (fun c hc => ⟨hbytes c hc, hlen' c hc⟩)
  rw [BitStreamWriter.bits_new, List.nil_append] at hbits1
  have hBl := writtenBits_length calls hlen'
  have hlen1 := congrArg List.length hbits1
  rw [BitStreamWriter.bits_length w1 hwf1.1, hBl] at hlen1
  have hl8 := hwf1.1
  have hlive : w1.live = totalBits calls % 8 := by omega
  refine ⟨w1, hw, by omega, hlive, ?_⟩
  have hst : (streamBits w1.stored).length = totalBits calls - totalBits calls % 8 := by
    rw [streamBits_length]; omega
  have hpend : w1.pending
      = (writtenBits calls).drop (totalBits calls - totalBits calls % 8) := by
    rw [← hbits1]
    unfold BitStreamWriter.bits
    rw [List.drop_left' hst]
  rw [← hpend, ← hlive, ← hwf1.2.2]
  unfold BitStreamWriter.pending
  rw [List.take_append_drop]

/-- C17 at a concrete input. -/
theorem BitStreamWriter_live_and_reg_witness :
    ∃ w, (BitStreamWriter.new 2).writeAll [([0xAB, 0xCD], 12), ([0xFF], 3)] = some w ∧
      w.live ≤ 7 ∧ w.live = totalBits [([0xAB, 0xCD], 12), ([0xFF], 3)] % 8 ∧
      bitsMSB (w.reg % 256)
        = (writtenBits [([0xAB, 0xCD], 12), ([0xFF], 3)]).drop
            (totalBits [([0xAB, 0xCD], 12), ([0xFF], 3)]
              - totalBits [([0xAB, 0xCD], 12), ([0xFF], 3)] % 8)
          ++ List.replicate (8 - totalBits [([0xAB, 0xCD], 12), ([0xFF], 3)] % 8) false :=
  BitStreamWriter_live_and_reg 2 (by decide) _ (by decide) (by decide)

/-! ## The one-byte input -/

/-- In a finished writer the trailer holds the combined CRC. -/
theorem finished_trailer_crc {k : Nat} {recs : List Rec} {A : List Nat} {o : OutputThread}
    (hcrc : ∀ r ∈ recs, r.crc < 2 ^ 32) (h : WriterInv k recs A o)
    (hf : o.pc = RunPc.finished) :
    o.writer.getLast?.map trailerCrc = some (combineCrc (recs.map Rec.crc)) := by
  obtain ⟨hfold, hlt⟩ := crcFold_eq_combineCrc recs hcrc
  have hat := h.at_pc
  rw [hf] at hat
  rw [hat.2.2.1, List.getLast?_concat, Option.map_some', trailerCrc_trailer _ hlt, hfold]

theorem Run_single_61 (reads : List (List Nat)) (hX : consumed reads = [0x61]) :
    ((InputThread.new 9).Run reads).busy_queue
      = [{ data := [0x61], size := 1, crc := 0x19939B6B, id := 1 }] := by
  rw [InputThread.Run_eq, hX]
  decide

/-- C12, counterexample. For the input `"a"` with block size class 9 the
reader produces one block with CRC `0x19939B6B`, and a writer that receives
that block writes `0x19939B6B` as file CRC, not `0x43BEB7E8`. -/
theorem single_byte_crc_is_not_43BEB7E8 :
    ((InputThread.new 9).Run [[0x61]]).busy_queue.map InputBlock.crc = [0x19939B6B] ∧
      ((OutputThread.new 9).execAll
          ([Event.add 1 ⟨[], 0, 0x19939B6B⟩, Event.setLastBlock 1]
            ++ List.replicate 4 Event.run)).writer.getLast?.map trailerCrc
        ≠ some 0x43BEB7E8 := by
  constructor
  · rw [Run_single_61 [[0x61]] rfl]
    rfl
  · decide

/-- C12, amended. For the one-byte input `0x61` with block size class 9 the
reader produces exactly one block, whose CRC is `0x19939B6B`, the bzip2 CRC-32
of `"a"`; and whatever payload the worker adds for it, along every complete
schedule the file CRC in the trailer is `0x19939B6B`. -/
theorem single_byte_file_crc (reads : List (List Nat)) (hX : consumed reads = [0x61])
    (payload : List Nat) (bits : Nat) (evs : List Event)
    (hc : completeSchedule
      (((InputThread.new 9).Run reads).busy_queue.map fun b : InputBlock =>
        ({ data := payload, bits := bits, crc := b.crc } : Rec)) evs) :
    ((InputThread.new 9).Run reads).busy_queue.length = 1 ∧
      ((InputThread.new 9).Run reads).busy_queue.map InputBlock.crc = [0x19939B6B] ∧
      ((OutputThread.new 9).execAll (evs ++ List.replicate 4 Event.run)).pc
        = RunPc.finished ∧
      ((OutputThread.new 9).execAll
          (evs ++ List.replicate 4 Event.run)).writer.getLast?.map trailerCrc
        = some 0x19939B6B := by
  rw [Run_single_61 reads hX] at hc ⊢
  simp only [List.map_cons, List.map_nil] at hc
  obtain ⟨hinv, hfin⟩ := @complete_finishes 9 _ (by simp) evs hc
  have hcrc := finished_trailer_crc
    (by intro r hr; simp at hr; subst hr; show 429103979 < 2 ^ 32; norm_num) hinv hfin
  have e : combineCrc (List.map Rec.crc
      [({ data := payload, bits := bits, crc := 429103979 } : Rec)]) = 429103979 := by
    show combineCrc [429103979] = 429103979
    decide
  rw [e] at hcrc
  exact ⟨rfl, rfl, hfin, hcrc⟩

/-- C12, amended, at a concrete schedule. -/
theorem single_byte_file_crc_witness :
    ((OutputThread.new 9).execAll
        ([Event.run, Event.add 1 ⟨[0x55], 5, 0x19939B6B⟩, Event.setLastBlock 1]
          ++ List.replicate 4 Event.run)).writer.getLast?.map trailerCrc
      = some 0x19939B6B :=
  (single_byte_file_crc [[0x61]] rfl [0x55] 5
    [Event.run, Event.add 1 ⟨[0x55], 5, 0x19939B6B⟩, Event.setLastBlock 1]
    (by
      rw [Run_single_61 [[0x61]] rfl]
      exact ⟨⟨by decide, by decide⟩,
        by intro id h1 h2; simp at h2; interval_cases id; decide, by decide⟩)).2.2.2

/-! ## InputThread: a long run of equal bytes -/

namespace InputThread

theorem tuple_255_length (b : Nat) : (tuple b (1 + 254)).length = 5 := by simp [tuple]

/-- One stretch of 255 equal bytes, fed while one byte of the run is pending,
stores one tuple of five bytes and leaves one byte pending. -/
theorem feed_full_run (b : Nat) (hb : b < 256) (s : InputThread) (d : List Nat)
    (hblk : s.block = some d) (hch : s.rle_ch = b) (hlen : s.rle_len = 1)
    (hroom : s.nblock < s.nblockMAX) :
    ∃ d1, ((s.feedAll (List.replicate 254 b)).feed b).block = some d1 ∧
      ((s.feedAll (List.replicate 254 b)).feed b).rle_ch = b ∧
      ((s.feedAll (List.replicate 254 b)).feed b).rle_len = 1 ∧
      ((s.feedAll (List.replicate 254 b)).feed b).nblock = s.nblock + 5 ∧
      ((s.feedAll (List.replicate 254 b)).feed b).busy_queue = s.busy_queue ∧
      ((s.feedAll (List.replicate 254 b)).feed b).nblockMAX = s.nblockMAX ∧
      ((s.feedAll (List.replicate 254 b)).feed b).block_id = s.block_id := by
  rw [feedAll_same b 254 s hch (by omega) (by omega) hroom,
    feed_split { s with rle_len := s.rle_len + 254 } d b hblk hch.symm
      (by show s.rle_len + 254 = 255; omega) (by show s.rle_ch < 256; omega) hroom]
  refine ⟨_, rfl, rfl, rfl, ?_, rfl, rfl, rfl⟩
  show s.nblock + (tuple s.rle_ch (s.rle_len + 254)).length = s.nblock + 5
  rw [hlen, hch, tuple_255_length]

/-- `j` stretches of 255 equal bytes, fed while one byte of the run is
pending, store `j` tuples of five bytes and leave one byte pending. -/
theorem feedAll_full_runs (b : Nat) (hb : b < 256) (j : Nat) :
    ∀ (s : InputThread) (d : List Nat), s.block = some d → s.rle_ch = b → s.rle_len = 1 →
      s.nblock + 5 * j < s.nblockMAX →
      ∃ d1, (s.feedAll (List.replicate (255 * j) b)).block = some d1 ∧
        (s.feedAll (List.replicate (255 * j) b)).rle_ch = b ∧
        (s.feedAll (List.replicate (255 * j) b)).rle_len = 1 ∧
        (s.feedAll (List.replicate (255 * j) b)).nblock = s.nblock + 5 * j ∧
        (s.feedAll (List.replicate (255 * j) b)).busy_queue = s.busy_queue ∧
        (s.feedAll (List.replicate (255 * j) b)).nblockMAX = s.nblockMAX ∧
        (s.feedAll (List.replicate (255 * j) b)).block_id = s.block_id := by
  induction j with
  | zero =>
    intro s d hblk hch hlen _
    exact ⟨d, hblk, hch, hlen, rfl, rfl, rfl, rfl⟩
  | succ j ih =>
    intro s d hblk hch hlen hroom
    have hsplit : List.replicate (255 * (j + 1)) b
        = List.replicate 254 b ++ (b :: List.replicate (255 * j) b) := by
      have e : 255 * (j + 1) = 254 + (1 + 255 * j) := by omega
      rw [e, List.replicate_add, List.replicate_add, List.replicate_one]
      rfl
    rw [hsplit, feedAll_append, feedAll_cons]
    obtain ⟨d1, g1, g2, g3, g4, g5, g6, g7⟩ :=
      feed_full_run b hb s d hblk hch hlen (by omega)
    obtain ⟨d2, h1, h2, h3, h4, h5, h6, h7⟩ := ih _ d1 g1 g2 g3 (by rw [g4, g6]; omega)
    exact ⟨d2, h1, h2, h3, by rw [h4, g4]; omega, by rw [h5, g5], by rw [h6, g6],
      by rw [h7, g7]⟩

theorem tuple_32_length (b : Nat) : (tuple b (1 + 31)).length = 5 := by simp [tuple]

/-- The end of a run whose last 32 bytes are pending after 8224 full tuples. -/
theorem finish_after_full_runs (b : Nat) (hb : b < 256) (s2 : InputThread) (d1 : List Nat)
    (h1 : s2.block = some d1) (h2 : s2.rle_ch = b) (h3 : s2.rle_len = 1)
    (h4 : s2.nblock = 41120) (h5 : s2.busy_queue = []) (h7 : s2.block_id = 1)
    (hroom : s2.nblock < s2.nblockMAX) :
    (s2.feedAll (List.replicate 31 b)).finish.busy_queue.map InputBlock.size = [41125] ∧
      (s2.feedAll (List.replicate 31 b)).finish.GetBlocksCount = 1 := by
  have a1 : s2.rle_ch < 256 := by rw [h2]; exact hb
  rw [feedAll_same b 31 s2 h2 (by omega) (by omega) hroom,
    finish_spec { s2 with rle_len := s2.rle_len + 31 } d1 h1 a1
      (by show 1 ≤ s2.rle_len + 31; omega) (by show s2.rle_len + 31 ≤ 255; omega)]
  constructor
  · show List.map InputBlock.size (s2.busy_queue ++ [_]) = _
    rw [h5, List.nil_append, List.map_singleton]
    show [s2.nblock + (tuple s2.rle_ch (s2.rle_len + 31)).length] = _
    rw [h4, h3, h2, tuple_32_length]
  · show s2.block_id = 1
    exact h7

/-- Two MiB of one byte with `k = 1`: one block of 41125 bytes. -/
theorem Run_2MiB (b : Nat) (hb : b < 256) (reads : List (List Nat))
    (hX : consumed reads = List.replicate 2097152 b) :
    ((new 1).Run reads).busy_queue.map InputBlock.size = [41125] ∧
      ((new 1).Run reads).GetBlocksCount = 1 := by
  have hsplit : List.replicate 2097152 b
      = b :: (List.replicate (255 * 8224) b ++ List.replicate 31 b) := by
    have e : 2097152 = 1 + (255 * 8224 + 31) := by norm_num
    rw [e, List.replicate_add, List.replicate_add, List.replicate_one]
    rfl
  have hmax : (new 1).nblockMAX = 99981 := by decide
  rw [Run_eq, hX, hsplit, feedAll_cons, feedAll_append]
  have g := feed_start_eq (new 1) b hb
  have gn : ((new 1).start.feed b).nblock = 0 := by rw [g]
  have gq : ((new 1).start.feed b).busy_queue = [] := by rw [g]; rfl
  have gi : ((new 1).start.feed b).block_id = 1 := by rw [g]; rfl
  have gm : ((new 1).start.feed b).nblockMAX = 99981 := by rw [g]; exact hmax
  obtain ⟨d1, h1, h2, h3, h4, h5, h6, h7⟩ := feedAll_full_runs b hb 8224
    ((new 1).start.feed b) [] (by rw [g]) (by rw [g]) (by rw [g])
    (by rw [gn, gm]; norm_num)
  exact finish_after_full_runs b hb _ d1 h1 h2 h3 (by rw [h4, gn])
    (by rw [h5, gq]) (by rw [h7, gi]) (by rw [h4, h6, gn, gm]; norm_num)

end InputThread

/-- C19, counterexample. For 2 MiB of `0x41` with block size class 1 the
reader dispatches a single block, of 41125 bytes, not 23 blocks or more. -/
theorem two_MiB_run_is_one_block :
    ((InputThread.new 1).Run [List.replicate 2097152 0x41]).busy_queue.map InputBlock.size
        = [41125] ∧
      ¬ (23 ≤ ((InputThread.new 1).Run [List.replicate 2097152 0x41]).GetBlocksCount) := by
  obtain ⟨h1, h2⟩ := InputThread.Run_2MiB 0x41 (by decide) [List.replicate 2097152 0x41]
    (InputThread.consumed_replicate 2097152 0x41 (by decide))
  rw [h2]
  exact ⟨h1, by decide⟩

/-- C19, amended. For the input of 2 MiB (2097152 bytes) all equal to `0x41`
with block size class 1, however it is cut into reads, the reader produces
exactly one block; it holds 41125 bytes, 8225 tuples of five bytes. -/
theorem two_MiB_run_block_count (reads : List (List Nat))
    (hX : consumed reads = List.replicate 2097152 0x41) :
    ((InputThread.new 1).Run reads).GetBlocksCount = 1 ∧
      ((InputThread.new 1).Run reads).busy_queue.map InputBlock.size = [41125] :=
  ⟨(InputThread.Run_2MiB 0x41 (by decide) reads hX).2,
   (InputThread.Run_2MiB 0x41 (by decide) reads hX).1⟩

/-- C19, amended, for the input delivered by one read. -/
theorem two_MiB_run_block_count_witness :
    ((InputThread.new 1).Run [List.replicate 2097152 0x41]).GetBlocksCount = 1 :=
  (two_MiB_run_block_count [List.replicate 2097152 0x41]
    (InputThread.consumed_replicate 2097152 0x41 (by decide))).1

/-! ## InputThread: the fill count stays inside the buffer -/

namespace InputThread

/-- The store `block[nblock++] = x` on a block that holds `nblock` bytes puts
the byte at index `nblock`, after the bytes already stored. -/
theorem storeByte_index (s : InputThread) (d : List Nat) (x : Nat) (hb : s.block = some d)
    (hl : s.nblock = d.length) :
    (s.storeByte x).block = some (d ++ [x % 256]) ∧
      (d ++ [x % 256]).get? s.nblock = some (x % 256) ∧
      (s.storeByte x).nblock = (d ++ [x % 256]).length := by
  refine ⟨?_, ?_, ?_⟩
  · unfold storeByte
    rw [hb]
    rfl
  · rw [hl, List.get?_eq_getElem?, List.getElem?_append_right (Nat.le_refl _), Nat.sub_self]
    rfl
  · unfold storeByte
    rw [List.length_append, List.length_singleton, ← hl]

/-- The state after any prefix of the input: the fill count is at most
`nblockMAX + 4` and equals the number of bytes stored in the current block. -/
theorem feedAll_fill (s : InputThread) (hmax : 0 < s.nblockMAX) (hq : s.busy_queue = [])
    (P : List Nat) (hP : ∀ b ∈ P, b < 256) :
    (s.start.feedAll P).nblock ≤ s.nblockMAX + 4 ∧
      (s.start.feedAll P).nblockMAX = s.nblockMAX ∧
      ∀ d, (s.start.feedAll P).block = some d → d.length = (s.start.feedAll P).nblock := by
  cases P with
  | nil =>
    refine ⟨?_, rfl, ?_⟩
    · show s.nblockMAX ≤ s.nblockMAX + 4
      omega
    · intro d hd
      exact absurd hd (by show (none : Option (List Nat)) ≠ some d; simp)
  | cons x xs =>
    obtain ⟨h1, hm1⟩ := feed_first s hmax hq x (hP x (List.mem_cons_self _ _))
    obtain ⟨d2, h2, hm2⟩ := feedAll_inv xs (by rw [hm1]; exact hmax) h1
      (fun b hb => hP b (List.mem_cons_of_mem _ hb))
    rw [feedAll_cons]
    refine ⟨?_, by rw [hm2, hm1], ?_⟩
    · have hf := h2.fill
      rw [hm2, hm1] at hf
      omega
    · intro d hd
      rw [h2.blk] at hd
      rw [h2.len, ← Option.some.inj hd]

/-- The state `Run` ends in: the fill count is at most `nblockMAX + 5` and
equals the number of bytes stored in the current block. -/
theorem Run_fill (s : InputThread) (hmax : 0 < s.nblockMAX) (hq : s.busy_queue = [])
    (reads : List (List Nat)) (hbytes : ∀ c ∈ reads, ∀ b ∈ c, b < 256) :
    (s.Run reads).nblock ≤ s.nblockMAX + 5 ∧
      ∀ d, (s.Run reads).block = some d → d.length = (s.Run reads).nblock := by
  have hb := mem_consumed reads hbytes
  rw [Run_eq]
  cases hX : consumed reads with
  | nil =>
    constructor
    · show (s.start.finish).nblock ≤ _
      simp [finish, start]
    · intro d hd
      have : (s.start.finish).block = none := by simp [finish, start]
      rw [feedAll] at hd
      rw [List.foldl_nil, this] at hd
      simp at hd
  | cons x xs =>
    rw [hX] at hb
    obtain ⟨h1, hm1⟩ := feed_first s hmax hq x (hb x (List.mem_cons_self _ _))
    obtain ⟨d2, h2, hm2⟩ := feedAll_inv xs (by rw [hm1]; exact hmax) h1
      (fun b hb' => hb b (List.mem_cons_of_mem _ hb'))
    rw [feedAll_cons, finish_spec _ d2 h2.blk h2.ch h2.run.1 h2.run.2]
    have hf := h2.fill
    rw [hm2, hm1] at hf
    have hlen5 := tuple_length_le ((s.start.feed x).feedAll xs).rle_ch
      ((s.start.feed x).feedAll xs).rle_len
    constructor
    · show ((s.start.feed x).feedAll xs).nblock + (tuple _ _).length ≤ _
      rcases hf with ⟨hr, hf⟩ | hf
      · rw [hr, tuple_one]
        show _ + 1 ≤ _
        omega
      · omega
    · intro d hd
      have hd' : some (d2 ++ tuple ((s.start.feed x).feedAll xs).rle_ch
          ((s.start.feed x).feedAll xs).rle_len) = some d := hd
      rw [← Option.some.inj hd', List.length_append, ← h2.len]

end InputThread

/-- C20. For every input and every block size class `k` in `1..9`, however
`fread` cuts the input into reads: after every prefix of the input the fill
count `nblock` is at most `100000 * k - 10` and equals the number of bytes
stored so far in the current block, every store being made at index `nblock`;
the same holds in the state `Run` ends in, after the pending run has been
flushed; and every dispatched block holds `size` bytes, fewer than the
capacity `100000 * k` of its buffer, so every index stored at is below the
capacity. -/
theorem InputThread_fill_within_capacity (k : Nat) (hk1 : 1 ≤ k) (hk9 : k ≤ 9)
    (reads : List (List Nat)) (hbytes : ∀ c ∈ reads, ∀ b ∈ c, b < 256) :
    (∀ P Q, consumed reads = P ++ Q →
      ((InputThread.new k).start.feedAll P).nblock ≤ 100000 * k - 10 ∧
      ∀ d, ((InputThread.new k).start.feedAll P).block = some d →
        d.length = ((InputThread.new k).start.feedAll P).nblock ∧ d.length < 100000 * k) ∧
    ((InputThread.new k).Run reads).nblock ≤ 100000 * k - 10 ∧
    (∀ d, ((InputThread.new k).Run reads).block = some d →
      d.length = ((InputThread.new k).Run reads).nblock ∧ d.length < 100000 * k) ∧
    ∀ b ∈ ((InputThread.new k).Run reads).busy_queue,
      b.data.length = b.size ∧ b.data.length < 100000 * k := by
  have hnm := InputThread.nblockMAX_new k hk1 hk9
  have hmax : 0 < (InputThread.new k).nblockMAX := by rw [hnm]; omega
  have hb := InputThread.mem_consumed reads hbytes
  refine ⟨?_, ?_, ?_, ?_⟩
  · intro P Q hPQ
    obtain ⟨h1, -, h3⟩ := InputThread.feedAll_fill (InputThread.new k) hmax rfl P
      (fun b hbP => hb b (by rw [hPQ]; exact List.mem_append_left _ hbP))
    rw [hnm] at h1
    refine ⟨by omega, ?_⟩
    intro d hd
    have := h3 d hd
    exact ⟨this, by omega⟩
  · obtain ⟨h1, -⟩ := InputThread.Run_fill (InputThread.new k) hmax rfl reads hbytes
    rw [hnm] at h1
    omega
  · obtain ⟨h1, h2⟩ := InputThread.Run_fill (InputThread.new k) hmax rfl reads hbytes
    rw [hnm] at h1
    intro d hd
    have := h2 d hd
    exact ⟨this, by omega⟩
  · obtain ⟨-, h2⟩ := InputThread.Run_blocks (InputThread.new k) hmax rfl reads hbytes
    intro b hbq
    obtain ⟨hsz, -, hle, -, -⟩ := h2 b hbq
    rw [hnm] at hle
    exact ⟨hsz.symm, by omega⟩

/-- C20 at a concrete input: one read of the single byte `0x61`, `k = 1`. -/
theorem InputThread_fill_within_capacity_witness :
    ((InputThread.new 1).Run [[0x61]]).nblock ≤ 100000 * 1 - 10 :=
  (InputThread_fill_within_capacity 1 (by decide) (by decide) [[0x61]] (by decide)).2.1

/-! ## OutputThread: the pending map and the count of emitted blocks -/

/-- Under the writer invariant the number of payloads written inside the drain
loop is `next_id - 1` at the loop head and past the loop, and `next_id - 2`
while the record taken from the map is being written. -/
theorem loopWrites_length_of_inv {k : Nat} {recs : List Rec} {A : List Nat} {o : OutputThread}
    (h : WriterInv k recs A o) :
    ((∀ rec, o.pc ≠ RunPc.writing rec) → o.loopWrites.length = o.next_id - 1) ∧
      (∀ rec, o.pc = RunPc.writing rec → 2 ≤ o.next_id ∧
        o.loopWrites.length = o.next_id - 2) := by
  have hat := h.at_pc
  have hr := h.range
  unfold OutputThread.loopWrites
  cases hpc : o.pc with
  | locked =>
    rw [hpc] at hat
    refine ⟨fun _ => ?_, fun rec hf => by cases hf⟩
    rw [hat.1]
    simp only [List.drop_succ_cons, List.drop_zero, List.length_map, List.length_take]
    omega
  | writing rec =>
    rw [hpc] at hat
    refine ⟨fun hne => absurd rfl (hne rec), fun rec' _ => ⟨hat.1, ?_⟩⟩
    rw [hat.2.2.1]
    simp only [List.drop_succ_cons, List.drop_zero, List.length_map, List.length_take]
    omega
  | finished =>
    rw [hpc] at hat
    refine ⟨fun _ => ?_, fun rec hf => by cases hf⟩
    have hw : (List.drop 1 o.writer).dropLast = recs.map Rec.payload := by
      rw [hat.2.2.1]
      simp [List.dropLast_concat]
    rw [hw, List.length_map, hat.1]
    omega

/-- C18. In every state the writer reaches along a schedule of `Add`,
`SetLastBlock(K)` and atomic sections of `Run` in which every block id in
`1..K` is added at most once: every key of the map `completed` is at least
`next_id`; whenever the writer is not in the middle of a drain step (it is at
the head of its loop or past it), `next_id - 1` is the number of payloads
written by the drain loop; and in the middle of a drain step, after
`completed.erase(next_id++)` and before `Write` has returned, that number is
`next_id - 2`, the record in hand being block `next_id - 1`. -/
theorem OutputThread_pending_keys_and_count (k : Nat) (recs : List Rec)
    (hK : recs.length + 1 < 2 ^ 64) (evs : List Event) (hv : validSchedule recs evs) :
    (∀ e ∈ ((OutputThread.new k).execAll evs).completed,
        ((OutputThread.new k).execAll evs).next_id ≤ e.1) ∧
      ((∀ rec, ((OutputThread.new k).execAll evs).pc ≠ RunPc.writing rec) →
        ((OutputThread.new k).execAll evs).loopWrites.length
          = ((OutputThread.new k).execAll evs).next_id - 1) ∧
      (∀ rec, ((OutputThread.new k).execAll evs).pc = RunPc.writing rec →
        2 ≤ ((OutputThread.new k).execAll evs).next_id ∧
        ((OutputThread.new k).execAll evs).loopWrites.length
          = ((OutputThread.new k).execAll evs).next_id - 2 ∧
        recs.get? (((OutputThread.new k).execAll evs).next_id - 2) = some rec) := by
  have hinv := valid_schedule_inv (k := k) hK evs hv
  have h := loopWrites_length_of_inv hinv
  refine ⟨fun e he => (hinv.keys e he).1, h.1, fun rec hpc => ?_⟩
  obtain ⟨h2, hl⟩ := h.2 rec hpc
  have hat := hinv.at_pc
  rw [hpc] at hat
  exact ⟨h2, hl, hat.2.1⟩

/-- C18 at a concrete schedule: block 2 is added first and stays in the map
while block 1 is added and written; then `next_id = 2`, the only key is 2 and
one payload has been written. -/
theorem OutputThread_pending_keys_and_count_witness :
    validSchedule [⟨[7], 8, 9⟩, ⟨[1, 2], 13, 5⟩]
        [Event.add 2 ⟨[1, 2], 13, 5⟩, Event.run, Event.add 1 ⟨[7], 8, 9⟩, Event.run,
          Event.run] ∧
      ((OutputThread.new 1).execAll
        [Event.add 2 ⟨[1, 2], 13, 5⟩, Event.run, Event.add 1 ⟨[7], 8, 9⟩, Event.run,
          Event.run]).next_id = 2 ∧
      ((OutputThread.new 1).execAll
        [Event.add 2 ⟨[1, 2], 13, 5⟩, Event.run, Event.add 1 ⟨[7], 8, 9⟩, Event.run,
          Event.run]).loopWrites.length = 2 - 1 :=
  have hv : validSchedule [⟨[7], 8, 9⟩, ⟨[1, 2], 13, 5⟩]
      [Event.add 2 ⟨[1, 2], 13, 5⟩, Event.run, Event.add 1 ⟨[7], 8, 9⟩, Event.run,
        Event.run] := by
    unfold validSchedule; decide
  have hp : ((OutputThread.new 1).execAll
      [Event.add 2 ⟨[1, 2], 13, 5⟩, Event.run, Event.add 1 ⟨[7], 8, 9⟩, Event.run,
        Event.run]).pc = RunPc.locked := by decide
  ⟨hv, by decide,
    (OutputThread_pending_keys_and_count 1 _ (by norm_num) _ hv).2.1
      (fun rec h => RunPc.noConfusion (hp.symm.trans h))⟩

/-! ## main: the block size class set by the argument loop -/

/-- One argument leaves the block size class between 0 and 9, and unchanged
unless the argument is a dash followed by one digit. -/
theorem mainArg_blockSize (a : MainArgs) (arg : String) (next : Option String)
    (r : MainArgs × Bool) (h : mainArg a arg next = some r) :
    ((0 ≤ a.blockSize100k ∧ a.blockSize100k ≤ 9) →
        0 ≤ r.1.blockSize100k ∧ r.1.blockSize100k ≤ 9) ∧
      (isSizeFlag arg = false → r.1.blockSize100k = a.blockSize100k) := by
  unfold mainArg at h
  split at h
  · cases h
    exact ⟨fun hr => hr, fun _ => rfl⟩
  · rename_i hdash
    split at h
    · rename_i hd
      cases h
      have hdig := hd.2
      unfold isdigit at hdig
      have hdig2 := of_decide_eq_true hdig
      refine ⟨fun _ => ⟨?_, ?_⟩, fun hf => ?_⟩
      · show (0 : Int) ≤ ((arg.data.getD 1 ' ').toNat : Int) - 48
        omega
      · show ((arg.data.getD 1 ' ').toNat : Int) - 48 ≤ 9
        omega
      · exfalso
        have hh : arg.data.head? = some '-' := not_not.1 hdash
        unfold isSizeFlag at hf
        rw [hd.2, Bool.and_true, decide_eq_false_iff_not] at hf
        exact hf ⟨hh, hd.1⟩
    · split at h
      · cases h
        exact ⟨fun hr => hr, fun _ => rfl⟩
      · split at h
        · cases h
          exact ⟨fun hr => hr, fun _ => rfl⟩
        · cases h

/-- Every command line the argument loop accepts leaves a block size class
between 0 and 9 when it started from one, and leaves it unchanged when no
argument is a dash followed by one digit. -/
theorem mainLoop_blockSize : ∀ (args : List String) (a r : MainArgs),
    mainLoop a args = some r →
    ((0 ≤ a.blockSize100k ∧ a.blockSize100k ≤ 9) →
        0 ≤ r.blockSize100k ∧ r.blockSize100k ≤ 9) ∧
      ((∀ arg ∈ args, isSizeFlag arg = false) → r.blockSize100k = a.blockSize100k)
  | [], a, r, h => by
    cases h
    exact ⟨fun hr => hr, fun _ => rfl⟩
  | [arg], a, r, h => by
    unfold mainLoop at h
    cases hm : mainArg a arg none with
    | none => rw [hm] at h; cases h
    | some p =>
      rw [hm] at h
      cases h
      obtain ⟨h1, h2⟩ := mainArg_blockSize a arg none p hm
      exact ⟨h1, fun hf => h2 (hf arg (List.mem_singleton.2 rfl))⟩
  | arg :: next :: rest, a, r, h => by
    unfold mainLoop at h
    cases hm : mainArg a arg (some next) with
    | none => rw [hm] at h; cases h
    | some p =>
      obtain ⟨a1, used⟩ := p
      rw [hm] at h
      obtain ⟨h1, h2⟩ := mainArg_blockSize a arg (some next) (a1, used) hm
      cases used with
      | true =>
        obtain ⟨g1, g2⟩ := mainLoop_blockSize rest a1 r h
        refine ⟨fun hr => g1 (h1 hr), fun hf => ?_⟩
        rw [g2 (fun x hx => hf x (List.mem_cons_of_mem _ (List.mem_cons_of_mem _ hx))),
          h2 (hf arg (List.mem_cons_self _ _))]
      | false =>
        obtain ⟨g1, g2⟩ := mainLoop_blockSize (next :: rest) a1 r h
        refine ⟨fun hr => g1 (h1 hr), fun hf => ?_⟩
        rw [g2 (fun x hx => hf x (List.mem_cons_of_mem _ hx)),
          h2 (hf arg (List.mem_cons_self _ _))]

/-- Every command line that `main` accepts gives a block size class between 0
and 9, and 9 when no argument is a dash followed by one digit. -/
theorem main_blockSize_range (argv : List String) (cpus : Int) (r : MainArgs)
    (h : main argv cpus = some r) :
    (0 ≤ r.blockSize100k ∧ r.blockSize100k ≤ 9) ∧
      ((∀ arg ∈ argv.drop 1, isSizeFlag arg = false) → r.blockSize100k = 9) := by
  obtain ⟨h1, h2⟩ := mainLoop_blockSize (argv.drop 1) _ r h
  exact ⟨h1 ⟨by show (0 : Int) ≤ 9; decide, by show (9 : Int) ≤ 9; decide⟩, fun hf => h2 hf⟩

/-- C16. The argument loop accepts the command line `mtbzip2 -0`: the usage
text is not printed, and the block size class is set to 0, which is not in
`1..9`. -/
theorem main_accepts_block_size_zero :
    main ["mtbzip2", "-0"] 4
        = some { blockSize100k := 0, numLocalWorkers := 4, keepFlag := 0, files := [] } := by
  decide

/-! ## InputThread: the pool neither loses nor duplicates a block -/

namespace BlockPool

/-- `Get` on a non-empty busy queue takes its front, whether or not the input
is still open. -/
theorem Get_cons {p : BlockPool} {x : Nat × InputBlock} {rest : List (Nat × InputBlock)}
    (hq : p.busy_queue = x :: rest) :
    p.Get = GetResult.ret (some x) { p with busy_queue := rest } := by
  unfold Get
  rw [hq]
  simp

/-- `Get` on an empty busy queue waits while the input is open. -/
theorem Get_empty_open {p : BlockPool} (hq : p.busy_queue = []) (hfp : p.fp = true) :
    p.Get = GetResult.wait := by
  unfold Get
  rw [hq, hfp]
  simp

/-- `Get` on an empty busy queue returns `NULL` once the input is closed. -/
theorem Get_empty_closed {p : BlockPool} (hq : p.busy_queue = []) (hfp : p.fp = false) :
    p.Get = GetResult.ret none p := by
  unfold Get
  rw [hq, hfp]
  simp

end BlockPool

namespace PoolState

/-- One call permutes the pointers accounted for. -/
theorem owned_step {st st1 : PoolState} {op : PoolOp} (h : st.step op = some st1)
    (hb : st.reader = true → st.pool.blk ≠ none) :
    st1.owned.Perm st.owned ∧ (st1.reader = true → st1.pool.blk ≠ none) := by
  cases op with
  | prepare =>
    unfold step at h
    simp only at h
    split at h
    · cases h
    · rename_i hr
      unfold BlockPool.PrepareBlock at h
      cases hl : st.pool.free_queue.getLast? with
      | none => rw [hl] at h; cases h
      | some b =>
        rw [hl] at h
        simp only [Option.some.injEq] at h
        subst h
        have hfree := List.dropLast_append_getLast? b (by rw [hl]; exact rfl)
        have hr2 : st.reader = false := by simpa using hr
        refine ⟨?_, fun _ => by simp⟩
        unfold owned
        simp only [hr2, if_true, Bool.false_eq_true, if_false, Option.toList, List.append_nil]
        nth_rewrite 2 [← hfree]
        apply List.perm_iff_count.2
        intro a
        simp only [List.count_append]
        omega
  | dispatch b =>
    unfold step at h
    simp only at h
    split at h
    · rename_i hr
      unfold BlockPool.DispatchBlock at h
      cases hk : st.pool.blk with
      | none => exact absurd hk (hb hr)
      | some i =>
        rw [hk] at h
        simp only [Option.some.injEq] at h
        subst h
        refine ⟨?_, fun hf => by simp at hf⟩
        unfold owned
        simp only [hr, hk, if_true, Bool.false_eq_true, if_false, Option.toList, List.append_nil,
          List.map_append, List.map_cons, List.map_nil]
        apply List.perm_iff_count.2
        intro a
        simp only [List.count_append]
        omega
    · cases h
  | get =>
    unfold step at h
    simp only at h
    cases hq : st.pool.busy_queue with
    | nil =>
      cases hfp : st.pool.fp with
      | true =>
        rw [BlockPool.Get_empty_open hq hfp] at h
        cases h
      | false =>
        rw [BlockPool.Get_empty_closed hq hfp] at h
        simp only [Option.some.injEq] at h
        subst h
        exact ⟨List.Perm.refl _, hb⟩
    | cons x rest =>
      rw [BlockPool.Get_cons hq] at h
      simp only [Option.some.injEq] at h
      subst h
      refine ⟨?_, hb⟩
      unfold owned
      simp only [hq, List.map_cons]
      apply List.perm_iff_count.2
      intro a
      simp only [List.count_append, List.count_cons]
      omega
  | put ptr =>
    unfold step at h
    simp only at h
    split at h
    · rename_i hmem
      simp only [Option.some.injEq] at h
      subst h
      refine ⟨?_, hb⟩
      unfold owned BlockPool.Put
      simp only
      have hp := List.perm_cons_erase hmem
      apply List.perm_iff_count.2
      intro a
      have hc := List.perm_iff_count.1 hp a
      simp only [List.count_append, List.count_cons, List.count_nil] at hc ⊢
      omega
    · cases h
  | close =>
    unfold step at h
    simp only [Option.some.injEq] at h
    subst h
    exact ⟨List.Perm.refl _, hb⟩

/-- A sequence of calls permutes the pointers accounted for. -/
theorem owned_run (ops : List PoolOp) : ∀ {st st1 : PoolState}, st.run ops = some st1 →
    (st.reader = true → st.pool.blk ≠ none) →
    st1.owned.Perm st.owned ∧ (st1.reader = true → st1.pool.blk ≠ none) := by
  induction ops with
  | nil =>
    intro st st1 h hb
    simp only [run, Option.some.injEq] at h
    subst h
    exact ⟨List.Perm.refl _, hb⟩
  | cons op ops ih =>
    intro st st1 h hb
    unfold run at h
    cases hs : st.step op with
    | none => rw [hs] at h; cases h
    | some st2 =>
      rw [hs] at h
      obtain ⟨h1, h2⟩ := owned_step hs hb
      obtain ⟨h3, h4⟩ := ih h h2
      exact ⟨h3.trans h1, h4⟩

end PoolState

/-- C14. In every state reached from a pool of `num_workers + remote_workers
+ 2` blocks by calls of `PrepareBlock`, `DispatchBlock`, `Get`, `Put` and the
closing of the input, each `Put` giving back a pointer that `Get` returned
and that has not been given back since: the blocks in the free queue, those
in the busy queue, the one the reader holds between `PrepareBlock` and
`DispatchBlock`, and those held by consumers are together
`num_workers + remote_workers + 2` blocks, and they are exactly the blocks
allocated by the constructor, each once. -/
theorem InputThread_pool_conserved (num_workers remote_workers : Nat) (ops : List PoolOp)
    (st : PoolState)
    (h : (PoolState.new (num_workers + remote_workers + 2)).run ops = some st) :
    st.pool.free_queue.length + st.pool.busy_queue.length
        + (if st.reader = true then 1 else 0) + st.held.length
        = num_workers + remote_workers + 2 ∧
      (st.pool.free_queue ++ st.pool.busy_queue.map Prod.fst
        ++ (if st.reader = true then st.pool.blk.toList else []) ++ st.held).Perm
        (List.range (num_workers + remote_workers + 2)) := by
  obtain ⟨h1, h2⟩ := PoolState.owned_run ops h (by intro hr; cases hr)
  have h0 : (PoolState.new (num_workers + remote_workers + 2)).owned
      = List.range (num_workers + remote_workers + 2) := by
    simp [PoolState.owned, PoolState.new, BlockPool.new]
  rw [h0] at h1
  refine ⟨?_, h1⟩
  have hl := h1.length_eq
  rw [List.length_range] at hl
  unfold PoolState.owned at hl
  cases hr : st.reader with
  | false =>
    rw [hr] at hl
    simp only [Bool.false_eq_true, if_false, List.append_nil, List.length_append,
      List.length_map] at hl
    simp only [Bool.false_eq_true, if_false]
    omega
  | true =>
    rw [hr] at hl
    cases hk : st.pool.blk with
    | none => exact absurd hk (h2 hr)
    | some i =>
      rw [hk] at hl
      simp only [if_true, Option.toList, List.length_append, List.length_map,
        List.length_singleton] at hl
      simp only [if_true]
      omega

/-- C14 at a concrete run with one worker: the reader fills two blocks, the
worker takes the first and gives it back. -/
theorem InputThread_pool_conserved_witness :
    (PoolState.new (1 + 0 + 2)).run
        [PoolOp.prepare, PoolOp.dispatch ⟨[1], 1, 5, 1⟩, PoolOp.prepare, PoolOp.get,
          PoolOp.dispatch ⟨[2], 1, 6, 2⟩, PoolOp.put 2]
      = some { pool := { free_queue := [0, 2], busy_queue := [(1, ⟨[2], 1, 6, 2⟩)],
                         blk := some 1, fp := true },
               reader := false, held := [], got := [⟨[1], 1, 5, 1⟩] } ∧
      [0, 2].length + [(1, (⟨[2], 1, 6, 2⟩ : InputBlock))].length
        + (if false = true then 1 else 0) + ([] : List Nat).length = 1 + 0 + 2 :=
  have h : (PoolState.new (1 + 0 + 2)).run
      [PoolOp.prepare, PoolOp.dispatch ⟨[1], 1, 5, 1⟩, PoolOp.prepare, PoolOp.get,
        PoolOp.dispatch ⟨[2], 1, 6, 2⟩, PoolOp.put 2]
      = some { pool := { free_queue := [0, 2], busy_queue := [(1, ⟨[2], 1, 6, 2⟩)],
                         blk := some 1, fp := true },
               reader := false, held := [], got := [⟨[1], 1, 5, 1⟩] } := by decide
  ⟨h, (InputThread_pool_conserved 1 0 _ _ h).1⟩

/-! ## InputThread: `Get` hands out the blocks in dispatch order -/

namespace PoolState

/-- One call keeps the blocks returned by `Get` followed by the busy queue
equal to the blocks dispatched. -/
theorem fifo_step {st st1 : PoolState} {op : PoolOp} (h : st.step op = some st1) :
    st1.got ++ st1.pool.busy_queue.map Prod.snd
      = st.got ++ st.pool.busy_queue.map Prod.snd ++ op.dispatched.toList := by
  cases op with
  | prepare =>
    unfold step at h
    simp only at h
    split at h
    · cases h
    · unfold BlockPool.PrepareBlock at h
      cases hl : st.pool.free_queue.getLast? with
      | none => rw [hl] at h; cases h
      | some b =>
        rw [hl] at h
        simp only [Option.some.injEq] at h
        subst h
        simp [PoolOp.dispatched]
  | dispatch b =>
    unfold step at h
    simp only at h
    split at h
    · unfold BlockPool.DispatchBlock at h
      cases hk : st.pool.blk with
      | none => rw [hk] at h; cases h
      | some i =>
        rw [hk] at h
        simp only [Option.some.injEq] at h
        subst h
        simp [PoolOp.dispatched]
    · cases h
  | get =>
    unfold step at h
    simp only at h
    cases hq : st.pool.busy_queue with
    | nil =>
      cases hfp : st.pool.fp with
      | true =>
        rw [BlockPool.Get_empty_open hq hfp] at h
        cases h
      | false =>
        rw [BlockPool.Get_empty_closed hq hfp] at h
        simp only [Option.some.injEq] at h
        subst h
        simp [PoolOp.dispatched, hq]
    | cons x rest =>
      rw [BlockPool.Get_cons hq] at h
      simp only [Option.some.injEq] at h
      subst h
      simp [PoolOp.dispatched]
  | put ptr =>
    unfold step at h
    simp only at h
    split at h
    · simp only [Option.some.injEq] at h
      subst h
      simp [PoolOp.dispatched, BlockPool.Put]
    · cases h
  | close =>
    unfold step at h
    simp only [Option.some.injEq] at h
    subst h
    simp [PoolOp.dispatched, BlockPool.close]

/-- A sequence of calls keeps the blocks returned by `Get` followed by the
busy queue equal to the blocks dispatched. -/
theorem fifo_run (ops : List PoolOp) : ∀ {st st1 : PoolState}, st.run ops = some st1 →
    st1.got ++ st1.pool.busy_queue.map Prod.snd
      = st.got ++ st.pool.busy_queue.map Prod.snd ++ ops.filterMap PoolOp.dispatched := by
  induction ops with
  | nil =>
    intro st st1 h
    simp only [run, Option.some.injEq] at h
    subst h
    simp
  | cons op ops ih =>
    intro st st1 h
    unfold run at h
    cases hs : st.step op with
    | none => rw [hs] at h; cases h
    | some st2 =>
      rw [hs] at h
      rw [ih h, fifo_step hs]
      cases hd : op.dispatched with
      | none => simp [List.filterMap_cons, hd]
      | some b => simp [List.filterMap_cons, hd]

end PoolState

/-- C15. `Get` returns `NULL` exactly when the busy queue is empty and the
input is closed; on a non-empty busy queue, also after the input is closed,
it removes and returns the front; and in every state reached from a fresh
pool the blocks that `Get` has returned so far, in the order returned,
followed by the blocks still in the busy queue, are the blocks dispatched so
far in dispatch order, so that once `Get` returns `NULL` every dispatched
block has been returned. -/
theorem InputThread_Get_fifo (queueSize : Nat) (ops : List PoolOp) (st : PoolState)
    (h : (PoolState.new queueSize).run ops = some st) :
    (∀ p : BlockPool, (∃ p1, p.Get = GetResult.ret none p1) ↔
        (p.busy_queue = [] ∧ p.fp = false)) ∧
      (∀ (p : BlockPool) (x : Nat × InputBlock) (rest : List (Nat × InputBlock)),
        p.busy_queue = x :: rest →
          p.Get = GetResult.ret (some x) { p with busy_queue := rest }) ∧
      st.got ++ st.pool.busy_queue.map Prod.snd = ops.filterMap PoolOp.dispatched ∧
      ((∃ p1, st.pool.Get = GetResult.ret none p1) →
        st.got = ops.filterMap PoolOp.dispatched) := by
  have hget : ∀ p : BlockPool, (∃ p1, p.Get = GetResult.ret none p1) ↔
      (p.busy_queue = [] ∧ p.fp = false) := by
    intro p
    constructor
    · rintro ⟨p1, hp⟩
      cases hq : p.busy_queue with
      | nil =>
        cases hfp : p.fp with
        | true => rw [BlockPool.Get_empty_open hq hfp] at hp; cases hp
        | false => exact ⟨rfl, rfl⟩
      | cons x rest => rw [BlockPool.Get_cons hq] at hp; cases hp
    · rintro ⟨hq, hfp⟩
      exact ⟨p, BlockPool.Get_empty_closed hq hfp⟩
  have hf := PoolState.fifo_run ops h
  have h0 : (PoolState.new queueSize).got
      ++ (PoolState.new queueSize).pool.busy_queue.map Prod.snd = [] := rfl
  rw [h0, List.nil_append] at hf
  refine ⟨hget, fun p x rest hq => BlockPool.Get_cons hq, hf, fun hn => ?_⟩
  have hq := ((hget st.pool).1 hn).1
  rw [hq] at hf
  simpa using hf

/-- C15 at a concrete run: two blocks are dispatched, the input is closed,
and three calls of `Get` return block 1, block 2 and `NULL`. -/
theorem InputThread_Get_fifo_witness :
    (PoolState.new 3).run
        [PoolOp.prepare, PoolOp.dispatch ⟨[1], 1, 5, 1⟩, PoolOp.prepare,
          PoolOp.dispatch ⟨[2], 1, 6, 2⟩, PoolOp.close, PoolOp.get, PoolOp.get, PoolOp.get]
      = some { pool := { free_queue := [0], busy_queue := [], blk := some 1, fp := false },
               reader := false, held := [1, 2],
               got := [⟨[1], 1, 5, 1⟩, ⟨[2], 1, 6, 2⟩] } ∧
      [(⟨[1], 1, 5, 1⟩ : InputBlock), ⟨[2], 1, 6, 2⟩] ++ [] =
        [PoolOp.prepare, PoolOp.dispatch ⟨[1], 1, 5, 1⟩, PoolOp.prepare,
          PoolOp.dispatch ⟨[2], 1, 6, 2⟩, PoolOp.close, PoolOp.get, PoolOp.get,
          PoolOp.get].filterMap PoolOp.dispatched :=
  have h : (PoolState.new 3).run
      [PoolOp.prepare, PoolOp.dispatch ⟨[1], 1, 5, 1⟩, PoolOp.prepare,
        PoolOp.dispatch ⟨[2], 1, 6, 2⟩, PoolOp.close, PoolOp.get, PoolOp.get, PoolOp.get]
      = some { pool := { free_queue := [0], busy_queue := [], blk := some 1, fp := false },
               reader := false, held := [1, 2],
               got := [⟨[1], 1, 5, 1⟩, ⟨[2], 1, 6, 2⟩] } := by decide
  ⟨h, (InputThread_Get_fifo 3 _ _ h).2.2.1⟩

/-! ## Compress: the writer sees every block once, whatever the workers do -/

/-- Replacing the state of one worker changes the blocks in the workers'
hands by that worker's block. -/
theorem WorkerPc.count_block_set (a : InputBlock) (w w1 : WorkerPc) :
    ∀ (ws : List WorkerPc) (i : Nat), ws.get? i = some w →
      List.count a ((ws.set i w1).flatMap WorkerPc.block) + List.count a w.block
        = List.count a (ws.flatMap WorkerPc.block) + List.count a w1.block
  | [], i, h => by simp at h
  | x :: xs, 0, h => by
    simp only [List.get?_cons_zero, Option.some.injEq] at h
    subst h
    simp only [List.set_cons_zero, List.flatMap_cons, List.count_append]
    omega
  | x :: xs, i + 1, h => by
    have ih := WorkerPc.count_block_set a w w1 xs i (by simpa using h)
    simp only [List.set_cons_succ, List.flatMap_cons, List.count_append]
    omega

/-- A worker's block is among the blocks in the workers' hands. -/
theorem WorkerPc.mem_blocks {ws : List WorkerPc} {i : Nat} {w : WorkerPc}
    (h : ws.get? i = some w) {b : InputBlock} (hb : b ∈ w.block) :
    b ∈ ws.flatMap WorkerPc.block :=
  List.mem_flatMap.2 ⟨w, List.get?_mem h, hb⟩

/-- In a list of blocks numbered `1..K` in order, the block with id `i` is at
position `i - 1`. -/
theorem block_at_id (blocks : List InputBlock)
    (hids : blocks.map InputBlock.id = List.range' 1 blocks.length) (b : InputBlock)
    (hb : b ∈ blocks) :
    1 ≤ b.id ∧ b.id ≤ blocks.length ∧ blocks.get? (b.id - 1) = some b := by
  obtain ⟨j, hj, rfl⟩ := List.getElem_of_mem hb
  have h1 := congrArg (fun l : List Nat => l[j]?) hids
  simp only [List.getElem?_map, List.getElem?_eq_getElem hj, Option.map_some'] at h1
  rw [List.getElem?_range' _ _ hj] at h1
  have h2 : blocks[j].id = 1 + 1 * j := Option.some.inj h1
  refine ⟨by omega, by omega, ?_⟩
  have h3 : blocks[j].id - 1 = j := by omega
  rw [h3, List.get?_eq_getElem?, List.getElem?_eq_getElem hj]

/-- A block in a worker's hands has not been added yet. -/
theorem PipeInv.not_done {cmp : Nat → List Nat → Nat → List Nat × Nat} {k : Nat}
    {blocks done : List InputBlock} {p : CompressState} (h : PipeInv cmp k blocks done p)
    (hids : blocks.map InputBlock.id = List.range' 1 blocks.length) {b : InputBlock}
    (hb : b ∈ p.workers.flatMap WorkerPc.block) :
    b ∈ blocks ∧ b.id ∉ done.map InputBlock.id := by
  have hmem : b ∈ blocks := by
    apply h.perm.subset
    simp only [List.mem_append]
    exact Or.inl (Or.inr (Or.inr hb))
  refine ⟨hmem, ?_⟩
  have hc := (h.perm.map InputBlock.id).count_eq b.id
  have hnd : (blocks.map InputBlock.id).Nodup := by rw [hids]; exact List.nodup_range' _ _
  have hle := List.nodup_iff_count_le_one.1 hnd b.id
  have hpos : 0 < List.count b.id ((p.workers.flatMap WorkerPc.block).map InputBlock.id) :=
    List.count_pos_iff.2 (List.mem_map.2 ⟨b, hb, rfl⟩)
  simp only [List.map_append, List.count_append] at hc
  have hz : List.count b.id (done.map InputBlock.id) = 0 := by omega
  exact List.count_eq_zero.1 hz

namespace Compress

/-- Every step keeps the invariant. -/
theorem PipeInv_step {cmp : Nat → List Nat → Nat → List Nat × Nat} {k : Nat}
    {blocks done : List InputBlock} {p q : CompressState}
    (hK : blocks.length + 1 < 2 ^ 64)
    (hids : blocks.map InputBlock.id = List.range' 1 blocks.length)
    (h : PipeInv cmp k blocks done p) (e : CompressEvent) (hs : step cmp k p e = some q) :
    ∃ done1, PipeInv cmp k blocks done1 q := by
  have hKr : (blocks.map (WorkerThread.compressed cmp k)).length + 1 < 2 ^ 64 := by
    rw [List.length_map]; exact hK
  cases e with
  | prepare =>
    unfold step at hs
    simp only at hs
    split at hs
    · cases hs
    · split at hs
      · cases hs
      · unfold BlockPool.PrepareBlock at hs
        cases hl : p.ithread.free_queue.getLast? with
        | none => rw [hl] at hs; cases hs
        | some b =>
          rw [hl] at hs
          simp only [Option.some.injEq] at hs
          subst hs
          rename_i hq
          exact ⟨done, ⟨h.writer, by simpa [hq] using h.perm, h.count⟩⟩
  | dispatch =>
    unfold step at hs
    simp only at hs
    split at hs
    · split at hs
      · cases hs
      · rename_i b rest hq
        unfold BlockPool.DispatchBlock at hs
        cases hb : p.ithread.blk with
        | none => rw [hb] at hs; cases hs
        | some i =>
          rw [hb] at hs
          simp only [Option.some.injEq] at hs
          subst hs
          refine ⟨done, ⟨h.writer, ?_, h.count⟩⟩
          refine List.Perm.trans ?_ h.perm
          apply List.perm_iff_count.2
          intro a
          simp only [hq, List.map_append, List.map_cons, List.map_nil, List.count_append,
            List.count_cons, List.count_nil]
          omega
    · cases hs
  | close =>
    unfold step at hs
    simp only at hs
    split at hs
    · simp only [Option.some.injEq] at hs
      subst hs
      exact ⟨done, ⟨h.writer, h.perm, h.count⟩⟩
    · cases hs
  | get i =>
    unfold step at hs
    simp only at hs
    split at hs
    · rename_i hw
      cases hq : p.ithread.busy_queue with
      | nil =>
        cases hfp : p.ithread.fp with
        | true =>
          rw [BlockPool.Get_empty_open hq hfp] at hs
          cases hs
        | false =>
          rw [BlockPool.Get_empty_closed hq hfp] at hs
          simp only [Option.some.injEq] at hs
          subst hs
          refine ⟨done, ⟨h.writer, ?_, h.count⟩⟩
          refine List.Perm.trans ?_ h.perm
          apply List.perm_iff_count.2
          intro a
          have hc := WorkerPc.count_block_set a WorkerPc.idle WorkerPc.exited p.workers i hw
          simp only [WorkerPc.block, List.count_nil] at hc
          simp only [List.count_append]
          omega
      | cons x rest =>
        rw [BlockPool.Get_cons hq] at hs
        simp only [Option.some.injEq] at hs
        subst hs
        refine ⟨done, ⟨h.writer, ?_, h.count⟩⟩
        refine List.Perm.trans ?_ h.perm
        apply List.perm_iff_count.2
        intro a
        have hc := WorkerPc.count_block_set a WorkerPc.idle (WorkerPc.copying x.1 x.2)
          p.workers i hw
        simp only [WorkerPc.block, List.count_nil, List.count_cons] at hc
        simp only [hq, List.map_cons, List.count_append, List.count_cons]
        omega
    · cases hs
  | put i =>
    unfold step at hs
    simp only at hs
    split at hs
    · rename_i blk b hw
      simp only [Option.some.injEq] at hs
      subst hs
      refine ⟨done, ⟨h.writer, ?_, h.count⟩⟩
      refine List.Perm.trans ?_ h.perm
      apply List.perm_iff_count.2
      intro a
      have hc := WorkerPc.count_block_set a (WorkerPc.copying blk b) (WorkerPc.compressing b)
        p.workers i hw
      simp only [WorkerPc.block] at hc
      simp only [BlockPool.Put, List.count_append]
      omega
    · cases hs
  | add i =>
    unfold step at hs
    simp only at hs
    split at hs
    · rename_i b hw
      simp only [Option.some.injEq] at hs
      subst hs
      have hbw : b ∈ p.workers.flatMap WorkerPc.block :=
        WorkerPc.mem_blocks hw (by simp [WorkerPc.block])
      obtain ⟨hmem, hnot⟩ := h.not_done hids hbw
      obtain ⟨h1, h2, h3⟩ := block_at_id blocks hids b hmem
      refine ⟨done ++ [b], ⟨?_, ?_, h.count⟩⟩
      · rw [List.map_append, List.map_singleton]
        refine WriterInv_Add h.writer b.id (WorkerThread.compressed cmp k b) h1
          (by rw [List.length_map]; exact h2) ?_ hnot
        rw [List.get?_eq_getElem?, List.getElem?_map, ← List.get?_eq_getElem?, h3]
        rfl
      · refine List.Perm.trans ?_ h.perm
        apply List.perm_iff_count.2
        intro a
        have hc := WorkerPc.count_block_set a (WorkerPc.compressing b) WorkerPc.idle
          p.workers i hw
        simp only [WorkerPc.block, List.count_nil, List.count_cons] at hc
        simp only [List.count_append, List.count_cons, List.count_nil]
        omega
    · cases hs
  | setLastBlock =>
    unfold step at hs
    simp only at hs
    split at hs
    · simp only [Option.some.injEq] at hs
      subst hs
      refine ⟨done, ⟨?_, h.perm, h.count⟩⟩
      have hw := WriterInv_SetLastBlock h.writer
      rw [List.length_map, ← h.count] at hw
      exact hw
    · cases hs
  | run =>
    unfold step at hs
    simp only [Option.some.injEq] at hs
    subst hs
    exact ⟨done, ⟨WriterInv_step hKr h.writer, h.perm, h.count⟩⟩

/-- Every sequence of steps keeps the invariant. -/
theorem PipeInv_exec {cmp : Nat → List Nat → Nat → List Nat × Nat} {k : Nat}
    {blocks : List InputBlock} (hK : blocks.length + 1 < 2 ^ 64)
    (hids : blocks.map InputBlock.id = List.range' 1 blocks.length) (evs : List CompressEvent) :
    ∀ {done : List InputBlock} {p q : CompressState}, PipeInv cmp k blocks done p →
      exec cmp k p evs = some q → ∃ done1, PipeInv cmp k blocks done1 q := by
  induction evs with
  | nil =>
    intro done p q h hs
    simp only [exec, Option.some.injEq] at hs
    subst hs
    exact ⟨done, h⟩
  | cons e evs ih =>
    intro done p q h hs
    unfold exec at hs
    cases hst : step cmp k p e with
    | none => rw [hst] at hs; cases hs
    | some p1 =>
      rw [hst] at hs
      obtain ⟨done1, h1⟩ := PipeInv_step hK hids h e hst
      exact ih h1 hs

/-- The invariant holds when the threads start. -/
theorem PipeInv_start (cmp : Nat → List Nat → Nat → List Nat × Nat) (k n : Nat)
    (reads : List (List Nat))
    (hcount : ((InputThread.new k).Run reads).GetBlocksCount
      = ((InputThread.new k).Run reads).busy_queue.length) :
    PipeInv cmp k ((InputThread.new k).Run reads).busy_queue [] (start k n reads) where
  writer := WriterInv_new k _
  perm := by
    show ([] ++ (([] : List (Nat × InputBlock)).map Prod.snd
      ++ (List.replicate n WorkerPc.idle).flatMap WorkerPc.block)
      ++ ((InputThread.new k).Run reads).busy_queue).Perm _
    have hw : (List.replicate n WorkerPc.idle).flatMap WorkerPc.block = [] := by
      induction n with
      | zero => rfl
      | succ m ih => rw [List.replicate_succ, List.flatMap_cons, ih]; rfl
    rw [hw]
    exact List.Perm.refl _
  count := hcount

/-- The calls of `Write` made by a writer that has left its loop. -/
theorem PipeInv.writer_finished {cmp : Nat → List Nat → Nat → List Nat × Nat} {k : Nat}
    {blocks done : List InputBlock} {p : CompressState} (h : PipeInv cmp k blocks done p)
    (hf : p.othread.pc = RunPc.finished) :
    p.othread.writer = (OutputThread.magic k, 32)
      :: (blocks.map (WorkerThread.compressed cmp k)).map Rec.payload
      ++ [(OutputThread.trailer (crcFold (blocks.map (WorkerThread.compressed cmp k))), 80)] := by
  have hat := h.writer.at_pc
  rw [hf] at hat
  exact hat.2.2.1

end Compress

/-! ## Compress: sequences of steps -/

namespace Compress

theorem exec_cons (cmp : Nat → List Nat → Nat → List Nat × Nat) (k : Nat) (p : CompressState)
    (e : CompressEvent) (evs : List CompressEvent) :
    exec cmp k p (e :: evs) = (step cmp k p e).bind fun q => exec cmp k q evs := by
  rw [exec]
  cases step cmp k p e <;> rfl

theorem exec_append (cmp : Nat → List Nat → Nat → List Nat × Nat) (k : Nat)
    (evs evs1 : List CompressEvent) : ∀ (p : CompressState),
    exec cmp k p (evs ++ evs1) = (exec cmp k p evs).bind fun q => exec cmp k q evs1 := by
  induction evs with
  | nil => intro p; rfl
  | cons e evs ih =>
    intro p
    rw [List.cons_append, exec_cons, exec_cons]
    cases step cmp k p e with
    | none => rfl
    | some q => exact ih q

/-- Atomic sections of the writer alone. -/
theorem exec_runs (cmp : Nat → List Nat → Nat → List Nat × Nat) (k n : Nat) :
    ∀ (p : CompressState), exec cmp k p (List.replicate n CompressEvent.run)
      = some { p with othread := p.othread.execAll (List.replicate n Event.run) } := by
  induction n with
  | zero => intro p; rfl
  | succ m ih =>
    intro p
    rw [List.replicate_succ, List.replicate_succ, exec_cons]
    show exec cmp k { p with othread := p.othread.step } _ = _
    rw [ih]
    rfl

end Compress

/-! ## Compress: from every state the threads can run to the end -/

/-- Replacing the state of one worker changes a sum over the workers by that
worker's share. -/
theorem WorkerPc.sum_set (f : WorkerPc → Nat) (w w1 : WorkerPc) :
    ∀ (ws : List WorkerPc) (i : Nat), ws.get? i = some w →
      ((ws.set i w1).map f).sum + f w = (ws.map f).sum + f w1
  | [], i, h => by simp at h
  | x :: xs, 0, h => by
    simp only [List.get?_cons_zero, Option.some.injEq] at h
    subst h
    simp only [List.set_cons_zero, List.map_cons, List.sum_cons]
    omega
  | x :: xs, i + 1, h => by
    have ih := WorkerPc.sum_set f w w1 xs i (by simpa using h)
    simp only [List.set_cons_succ, List.map_cons, List.sum_cons]
    omega

/-- A worker that has left its loop after a change of one worker's state had
left it before, unless it is the changed one. -/
theorem WorkerPc.exited_of_set {ws : List WorkerPc} {i : Nat} {w1 : WorkerPc}
    (h : WorkerPc.exited ∈ ws.set i w1) (hne : w1 ≠ WorkerPc.exited) :
    WorkerPc.exited ∈ ws := by
  rcases List.mem_or_eq_of_mem_set h with h | h
  · exact h
  · exact absurd h.symm hne

namespace Compress

/-- Every step keeps the pool invariant. -/
theorem LiveInv_step {cmp : Nat → List Nat → Nat → List Nat × Nat} {k n : Nat}
    {p q : CompressState} (h : LiveInv n p) (e : CompressEvent)
    (hs : step cmp k p e = some q) : LiveInv n q := by
  cases e with
  | prepare =>
    unfold step at hs
    simp only at hs
    split at hs
    · cases hs
    · rename_i hr
      have hr2 : p.reader = false := by simpa using hr
      split at hs
      · cases hs
      · rename_i b rest hq
        unfold BlockPool.PrepareBlock at hs
        cases hl : p.ithread.free_queue.getLast? with
        | none => rw [hl] at hs; cases hs
        | some c =>
          rw [hl] at hs
          simp only [Option.some.injEq] at hs
          subst hs
          have hfree := List.dropLast_append_getLast? c (by rw [hl]; exact rfl)
          have hlen : p.ithread.free_queue.length
              = p.ithread.free_queue.dropLast.length + 1 := by
            conv_lhs => rw [← hfree]
            simp
          have hp := h.pool
          rw [hr2] at hp
          simp only [Bool.false_eq_true, if_false] at hp
          exact
            { pool := by simp only [if_true]; omega
              rblk := fun _ => ⟨by simp, by rw [hq]; simp⟩
              closed := fun hfp => by
                have := (h.closed hfp).1
                rw [hq] at this
                cases this
              exited := h.exited
              nworkers := h.nworkers }
  | dispatch =>
    unfold step at hs
    simp only at hs
    split at hs
    · rename_i hr
      split at hs
      · cases hs
      · rename_i b rest hq
        unfold BlockPool.DispatchBlock at hs
        cases hb : p.ithread.blk with
        | none => rw [hb] at hs; cases hs
        | some i =>
          rw [hb] at hs
          simp only [Option.some.injEq] at hs
          subst hs
          have hp := h.pool
          rw [hr] at hp
          simp only [if_true] at hp
          exact
            { pool := by
                simp only [List.length_append, List.length_singleton, Bool.false_eq_true,
                  if_false]
                omega
              rblk := fun hf => by simp at hf
              closed := fun hfp => by
                have := (h.closed hfp).2
                rw [hr] at this
                cases this
              exited := fun hx => by
                have := (h.closed (h.exited hx).1).2
                rw [hr] at this
                cases this
              nworkers := h.nworkers }
    · cases hs
  | close =>
    unfold step at hs
    simp only at hs
    split at hs
    · rename_i hc
      simp only [Option.some.injEq] at hs
      subst hs
      exact
        { pool := h.pool
          rblk := h.rblk
          closed := fun _ => ⟨hc.2.1, hc.1⟩
          exited := fun hx => by
            have := (h.exited hx).1
            rw [hc.2.2] at this
            cases this
          nworkers := h.nworkers }
    · cases hs
  | get i =>
    unfold step at hs
    simp only at hs
    split at hs
    · rename_i hw
      cases hq : p.ithread.busy_queue with
      | nil =>
        cases hfp : p.ithread.fp with
        | true =>
          rw [BlockPool.Get_empty_open hq hfp] at hs
          cases hs
        | false =>
          rw [BlockPool.Get_empty_closed hq hfp] at hs
          simp only [Option.some.injEq] at hs
          subst hs
          have hsum := WorkerPc.sum_set WorkerPc.holds WorkerPc.idle WorkerPc.exited
            p.workers i hw
          simp only [WorkerPc.holds] at hsum
          have hp := h.pool
          exact
            { pool := by simp only; omega
              rblk := h.rblk
              closed := h.closed
              exited := fun _ => ⟨hfp, hq⟩
              nworkers := by simp only [List.length_set]; exact h.nworkers }
      | cons x rest =>
        rw [BlockPool.Get_cons hq] at hs
        simp only [Option.some.injEq] at hs
        subst hs
        have hsum := WorkerPc.sum_set WorkerPc.holds WorkerPc.idle
          (WorkerPc.copying x.1 x.2) p.workers i hw
        simp only [WorkerPc.holds] at hsum
        have hp := h.pool
        rw [hq] at hp
        simp only [List.length_cons] at hp
        exact
          { pool := by simp only; omega
            rblk := h.rblk
            closed := h.closed
            exited := fun hx => by
              have := (h.exited (WorkerPc.exited_of_set hx (by simp))).2
              rw [hq] at this
              cases this
            nworkers := by simp only [List.length_set]; exact h.nworkers }
    · cases hs
  | put i =>
    unfold step at hs
    simp only at hs
    split at hs
    · rename_i blk b hw
      simp only [Option.some.injEq] at hs
      subst hs
      have hsum := WorkerPc.sum_set WorkerPc.holds (WorkerPc.copying blk b)
        (WorkerPc.compressing b) p.workers i hw
      simp only [WorkerPc.holds] at hsum
      have hp := h.pool
      exact
        { pool := by
            simp only [BlockPool.Put, List.length_append, List.length_singleton]
            omega
          rblk := h.rblk
          closed := h.closed
          exited := fun hx => h.exited (WorkerPc.exited_of_set hx (by simp))
          nworkers := by simp only [List.length_set]; exact h.nworkers }
    · cases hs
  | add i =>
    unfold step at hs
    simp only at hs
    split at hs
    · rename_i b hw
      simp only [Option.some.injEq] at hs
      subst hs
      have hsum := WorkerPc.sum_set WorkerPc.holds (WorkerPc.compressing b) WorkerPc.idle
        p.workers i hw
      simp only [WorkerPc.holds] at hsum
      have hp := h.pool
      exact
        { pool := by simp only; omega
          rblk := h.rblk
          closed := h.closed
          exited := fun hx => h.exited (WorkerPc.exited_of_set hx (by simp))
          nworkers := by simp only [List.length_set]; exact h.nworkers }
    · cases hs
  | setLastBlock =>
    unfold step at hs
    simp only at hs
    split at hs
    · simp only [Option.some.injEq] at hs
      subst hs
      exact ⟨h.pool, h.rblk, h.closed, h.exited, h.nworkers⟩
    · cases hs
  | run =>
    unfold step at hs
    simp only [Option.some.injEq] at hs
    subst hs
    exact ⟨h.pool, h.rblk, h.closed, h.exited, h.nworkers⟩

/-- Every sequence of steps keeps the pool invariant. -/
theorem LiveInv_exec {cmp : Nat → List Nat → Nat → List Nat × Nat} {k n : Nat}
    (evs : List CompressEvent) : ∀ {p q : CompressState}, LiveInv n p →
      exec cmp k p evs = some q → LiveInv n q := by
  induction evs with
  | nil =>
    intro p q h hs
    simp only [exec, Option.some.injEq] at hs
    subst hs
    exact h
  | cons e evs ih =>
    intro p q h hs
    rw [exec_cons] at hs
    cases hst : step cmp k p e with
    | none => rw [hst] at hs; cases hs
    | some p1 =>
      rw [hst, Option.some_bind] at hs
      exact ih (LiveInv_step h e hst) hs

/-- The pool invariant holds when the threads start. -/
theorem LiveInv_start (k n : Nat) (reads : List (List Nat)) : LiveInv n (start k n reads) where
  pool := by
    have hw : ((List.replicate n WorkerPc.idle).map WorkerPc.holds).sum = 0 := by
      induction n with
      | zero => rfl
      | succ m ih => rw [List.replicate_succ, List.map_cons, List.sum_cons, ih]; rfl
    show (List.range (n + 0 + 2)).length + 0 + 0
      + ((List.replicate n WorkerPc.idle).map WorkerPc.holds).sum = n + 2
    rw [hw, List.length_range]
  rblk := fun hf => by cases hf
  closed := fun hf => by cases hf
  exited := fun hx => by
    have := List.eq_of_mem_replicate hx
    cases this
  nworkers := List.length_replicate _ _

end Compress

/-- Workers without work hold no block. -/
theorem WorkerPc.no_work : ∀ (ws : List WorkerPc), (∀ w ∈ ws, w.work = 0) →
    (ws.map WorkerPc.work).sum = 0 ∧ (ws.map WorkerPc.holds).sum = 0 ∧
      ws.flatMap WorkerPc.block = []
  | [], _ => ⟨rfl, rfl, rfl⟩
  | w :: ws, h => by
    obtain ⟨h1, h2, h3⟩ := WorkerPc.no_work ws (fun x hx => h x (List.mem_cons_of_mem _ hx))
    have hw := h w (List.mem_cons_self _ _)
    simp only [List.map_cons, List.sum_cons, List.flatMap_cons, h1, h2, h3]
    cases w <;> simp_all [WorkerPc.work, WorkerPc.holds, WorkerPc.block]

namespace Compress

/-- With at least one worker, either the reader and the workers have done all
their work, or one of them can take a step that leaves less to do. -/
theorem progress (cmp : Nat → List Nat → Nat → List Nat × Nat) (k : Nat) {n : Nat}
    {p : CompressState} (hn : 1 ≤ n) (h : LiveInv n p) :
    (p.todo = [] ∧ p.ithread.busy_queue = [] ∧ p.ithread.fp = false ∧
        p.workers.flatMap WorkerPc.block = []) ∨
      ∃ e q, step cmp k p e = some q ∧ pending q < pending p := by
  by_cases hwk : ∃ w ∈ p.workers, w.work ≠ 0
  · obtain ⟨w, hmem, hw0⟩ := hwk
    obtain ⟨i, hi⟩ := List.mem_iff_get?.1 hmem
    right
    cases w with
    | idle => exact absurd rfl hw0
    | exited => exact absurd rfl hw0
    | copying blk b =>
      have hs : step cmp k p (CompressEvent.put i)
          = some { p with ithread := p.ithread.Put blk,
                          workers := p.workers.set i (WorkerPc.compressing b) } := by
        simp only [step, hi]
      refine ⟨_, _, hs, ?_⟩
      have hsum := WorkerPc.sum_set WorkerPc.work (WorkerPc.copying blk b)
        (WorkerPc.compressing b) p.workers i hi
      simp only [WorkerPc.work] at hsum
      simp only [pending, BlockPool.Put]
      omega
    | compressing b =>
      have hs : step cmp k p (CompressEvent.add i)
          = some { p with
              othread := p.othread.Add b.id (WorkerThread.compressed cmp k b).data
                (WorkerThread.compressed cmp k b).bits (WorkerThread.compressed cmp k b).crc
              workers := p.workers.set i WorkerPc.idle } := by
        simp only [step, hi]
      refine ⟨_, _, hs, ?_⟩
      have hsum := WorkerPc.sum_set WorkerPc.work (WorkerPc.compressing b) WorkerPc.idle
        p.workers i hi
      simp only [WorkerPc.work] at hsum
      simp only [pending]
      omega
  · have hall : ∀ w ∈ p.workers, w.work = 0 := by
      intro w hw
      by_contra hne
      exact hwk ⟨w, hw, hne⟩
    obtain ⟨hwork, hholds, hblocks⟩ := WorkerPc.no_work p.workers hall
    have hp := h.pool
    rw [hholds] at hp
    cases hr : p.reader with
    | true =>
      right
      obtain ⟨hblk, htodo⟩ := h.rblk hr
      cases hq : p.todo with
      | nil => exact absurd hq htodo
      | cons b rest =>
        cases hb : p.ithread.blk with
        | none => exact absurd hb hblk
        | some c =>
          have hs : step cmp k p CompressEvent.dispatch
              = some { p with
                  ithread := { p.ithread with
                    busy_queue := p.ithread.busy_queue ++ [(c, b)] }
                  todo := rest, reader := false } := by
            simp only [step, hr, hq, BlockPool.DispatchBlock, hb, if_true]
          refine ⟨_, _, hs, ?_⟩
          simp only [pending, hr, hq, List.length_cons, List.length_append, List.length_nil,
            if_true, Bool.false_eq_true, if_false]
          omega
    | false =>
      rw [hr] at hp
      simp only [Bool.false_eq_true, if_false] at hp
      cases hq : p.ithread.busy_queue with
      | cons x rest =>
        right
        cases hws : p.workers with
        | nil =>
          have hnw := h.nworkers
          rw [hws, List.length_nil] at hnw
          omega
        | cons w0 ws =>
          have hi : p.workers.get? 0 = some w0 := by rw [hws]; rfl
          have hw0 : w0 = WorkerPc.idle := by
            have hwz := hall w0 (by rw [hws]; exact List.mem_cons_self _ _)
            cases w0 with
            | idle => rfl
            | exited =>
              have := (h.exited (by rw [hws]; exact List.mem_cons_self _ _)).2
              rw [hq] at this
              cases this
            | copying blk b => simp [WorkerPc.work] at hwz
            | compressing b => simp [WorkerPc.work] at hwz
          rw [hw0] at hi
          have hs : step cmp k p (CompressEvent.get 0)
              = some { p with
                  ithread := { p.ithread with busy_queue := rest }
                  workers := p.workers.set 0 (WorkerPc.copying x.1 x.2) } := by
            simp only [step, hi, BlockPool.Get_cons hq]
          refine ⟨_, _, hs, ?_⟩
          have hsum := WorkerPc.sum_set WorkerPc.work WorkerPc.idle (WorkerPc.copying x.1 x.2)
            p.workers 0 hi
          simp only [WorkerPc.work] at hsum
          simp only [pending, hq, List.length_cons]
          omega
      | nil =>
        rw [hq] at hp
        simp only [List.length_nil] at hp
        cases ht : p.todo with
        | cons b rest =>
          right
          cases hl : p.ithread.free_queue.getLast? with
          | none =>
            rw [List.getLast?_eq_none_iff] at hl
            rw [hl, List.length_nil] at hp
            omega
          | some c =>
            have hs : step cmp k p CompressEvent.prepare
                = some { p with
                    ithread := { p.ithread with
                      blk := some c, free_queue := p.ithread.free_queue.dropLast }
                    reader := true } := by
              simp only [step, hr, ht, BlockPool.PrepareBlock, hl, Bool.false_eq_true, if_false]
            refine ⟨_, _, hs, ?_⟩
            simp only [pending, hr, ht, List.length_cons, if_true, Bool.false_eq_true, if_false]
            omega
        | nil =>
          cases hfp : p.ithread.fp with
          | false => exact Or.inl ⟨rfl, rfl, rfl, hblocks⟩
          | true =>
            right
            have hs : step cmp k p CompressEvent.close
                = some { p with ithread := p.ithread.close } := by
              simp only [step, hr, ht, hfp, and_self, if_true]
            refine ⟨_, _, hs, ?_⟩
            simp only [pending, hfp, BlockPool.close, if_true, Bool.false_eq_true, if_false]
            omega

/-- With at least one worker, from every state in which the pool invariant
holds the reader and the workers can run until every block has been added and
the input is closed. -/
theorem drain (cmp : Nat → List Nat → Nat → List Nat × Nat) (k : Nat) {n : Nat} (hn : 1 ≤ n) :
    ∀ (m : Nat) (p : CompressState), LiveInv n p → pending p ≤ m →
      ∃ evs q, exec cmp k p evs = some q ∧ q.todo = [] ∧ q.ithread.busy_queue = [] ∧
        q.ithread.fp = false ∧ q.workers.flatMap WorkerPc.block = [] := by
  intro m
  induction m with
  | zero =>
    intro p h hm
    rcases progress cmp k hn h with hdone | ⟨e, q, -, hlt⟩
    · exact ⟨[], p, rfl, hdone⟩
    · omega
  | succ m ih =>
    intro p h hm
    rcases progress cmp k hn h with hdone | ⟨e, q, hs, hlt⟩
    · exact ⟨[], p, rfl, hdone⟩
    · obtain ⟨evs, q1, he, hq⟩ := ih q (LiveInv_step h e hs) (by omega)
      refine ⟨e :: evs, q1, ?_, hq⟩
      rw [exec_cons, hs, Option.some_bind, he]

end Compress

namespace Compress

/-- With at least one worker, from every state in which the invariants hold
the threads can run until the writer has left its loop. -/
theorem can_finish (cmp : Nat → List Nat → Nat → List Nat × Nat) (k : Nat) {n : Nat}
    (hn : 1 ≤ n) {blocks done : List InputBlock} (hK : blocks.length + 1 < 2 ^ 64)
    (hids : blocks.map InputBlock.id = List.range' 1 blocks.length) {p : CompressState}
    (hl : LiveInv n p) (hp : PipeInv cmp k blocks done p) :
    ∃ evs q, exec cmp k p evs = some q ∧ q.othread.pc = RunPc.finished := by
  obtain ⟨evs1, q1, he1, ht, hb, hfp, hw⟩ := drain cmp k hn (pending p) p hl (Nat.le_refl _)
  obtain ⟨d1, hinv1⟩ := PipeInv_exec hK hids evs1 hp he1
  have hperm : d1.Perm blocks := by
    have h := hinv1.perm
    rw [ht, hb, hw] at h
    simpa using h
  have hKr : (blocks.map (WorkerThread.compressed cmp k)).length + 1 < 2 ^ 64 := by
    rw [List.length_map]; exact hK
  have hall : ∀ id, 1 ≤ id → id ≤ (blocks.map (WorkerThread.compressed cmp k)).length →
      id ∈ d1.map InputBlock.id := by
    intro id h1 h2
    rw [List.length_map] at h2
    rw [(hperm.map InputBlock.id).mem_iff, hids, List.mem_range'_1]
    omega
  have hset : exec cmp k q1 [CompressEvent.setLastBlock]
      = some { q1 with othread := q1.othread.SetLastBlock q1.count } := by
    simp only [exec, step, hfp, if_true]
  have hwi := WriterInv_SetLastBlock hinv1.writer
  have hcnt : q1.count = (blocks.map (WorkerThread.compressed cmp k)).length := by
    rw [List.length_map]; exact hinv1.count
  rw [← hcnt] at hwi
  have hfin := (run_steps_finish hKr hall
    (2 * (blocks.map (WorkerThread.compressed cmp k)).length + 2)
    (q1.othread.SetLastBlock q1.count) hwi hcnt (remaining_le hwi)).2
  have hex : exec cmp k p (evs1 ++ ([CompressEvent.setLastBlock]
      ++ List.replicate (2 * (blocks.map (WorkerThread.compressed cmp k)).length + 2)
        CompressEvent.run))
      = some { q1 with othread := ((q1.othread.SetLastBlock q1.count).execAll
          (List.replicate (2 * (blocks.map (WorkerThread.compressed cmp k)).length + 2)
            Event.run)) } := by
    rw [exec_append, he1, Option.some_bind, exec_append, hset, Option.some_bind, exec_runs]
  exact ⟨_, _, hex, hfin⟩

end Compress

namespace InputThread

/-- `Run` counts at most one block per input byte. -/
theorem Run_count_le (k : Nat) (hk1 : 1 ≤ k) (hk9 : k ≤ 9) (reads : List (List Nat))
    (hbytes : ∀ c ∈ reads, ∀ b ∈ c, b < 256) (hlen : (consumed reads).length < 2 ^ 64) :
    ((new k).Run reads).GetBlocksCount ≤ (consumed reads).length := by
  have hmax : 0 < (new k).nblockMAX := by rw [nblockMAX_new k hk1 hk9]; omega
  have hb := mem_consumed reads hbytes
  cases hX : consumed reads with
  | nil =>
    obtain ⟨-, h2⟩ := Run_empty (new k) reads hX
    unfold GetBlocksCount
    rw [h2]
    exact Nat.zero_le _
  | cons x xs =>
    rw [hX] at hb hlen
    have hid0 : IdInv 0 (new k).start :=
      { ids := rfl, count := Or.inl ⟨rfl, rfl, rfl⟩, le := Nat.le_refl _ }
    have hid := IdInv_feedAll (x :: xs) hid0 (by omega)
    obtain ⟨h1, hm1⟩ := feed_first (new k) hmax rfl x (hb x (List.mem_cons_self _ _))
    obtain ⟨d2, h2, -⟩ := feedAll_inv xs (by rw [hm1]; exact hmax) h1
      (fun b hb' => hb b (List.mem_cons_of_mem _ hb'))
    obtain ⟨b, -, -, -, hcnt, -⟩ := finish_inv h2
    have hfe : (new k).start.feedAll (x :: xs) = ((new k).start.feed x).feedAll xs := rfl
    have hle := hid.le
    rw [hfe] at hle
    unfold GetBlocksCount
    rw [Run_eq, hX, hfe, hcnt]
    omega

end InputThread

/-- C11. For every input of fewer than `2^64 - 1` bytes, every block
size class `k` in `1..9`, every block coder and all numbers of workers `N` and
`N1` from 1 on (so for all `N`, `N1` in `1..16`): whatever the order in which the
threads of `Compress` take their steps and the workers complete, once the
writer has left its loop it has made the same calls of `Write`, so `Compress`
run with `N` workers and `Compress` run with `N1` workers give `fout` the same
bytes; and from every state the threads reach, with `N` workers or with `N1`,
they can run on until the writer has left its loop, so that `Compress`
returns. -/
theorem Compress_output_independent_of_workers
    (BZ2_compressBlock : Nat → List Nat → Nat → List Nat × Nat) (k : Nat) (hk1 : 1 ≤ k)
    (hk9 : k ≤ 9) (reads : List (List Nat)) (hbytes : ∀ c ∈ reads, ∀ b ∈ c, b < 256)
    (hlen : (consumed reads).length + 1 < 2 ^ 64) (N N1 : Nat) (hN : 1 ≤ N) (hN1 : 1 ≤ N1) :
    (∀ (evs evs1 : List CompressEvent) (p p1 : CompressState),
        Compress.exec BZ2_compressBlock k (Compress.start k N reads) evs = some p →
        Compress.exec BZ2_compressBlock k (Compress.start k N1 reads) evs1 = some p1 →
        p.othread.pc = RunPc.finished → p1.othread.pc = RunPc.finished →
        p.othread.writer = p1.othread.writer ∧ Compress.output p = Compress.output p1) ∧
      (∀ (evs : List CompressEvent) (p : CompressState),
        Compress.exec BZ2_compressBlock k (Compress.start k N reads) evs = some p →
        ∃ evs2 q, Compress.exec BZ2_compressBlock k p evs2 = some q ∧
          q.othread.pc = RunPc.finished) ∧
      (∀ (evs1 : List CompressEvent) (p1 : CompressState),
        Compress.exec BZ2_compressBlock k (Compress.start k N1 reads) evs1 = some p1 →
        ∃ evs2 q, Compress.exec BZ2_compressBlock k p1 evs2 = some q ∧
          q.othread.pc = RunPc.finished) := by
  obtain ⟨hids, hcount⟩ := InputThread.Run_ids k hk1 hk9 reads hbytes (by omega)
  have hle := InputThread.Run_count_le k hk1 hk9 reads hbytes (by omega)
  have hK : ((InputThread.new k).Run reads).busy_queue.length + 1 < 2 ^ 64 := by
    rw [← hcount]; omega
  rw [hcount] at hids
  refine ⟨?_, ?_, ?_⟩
  · intro evs evs1 p p1 he he1 hf hf1
    obtain ⟨d, hinv⟩ := Compress.PipeInv_exec hK hids evs
      (Compress.PipeInv_start BZ2_compressBlock k N reads hcount) he
    obtain ⟨d1, hinv1⟩ := Compress.PipeInv_exec hK hids evs1
      (Compress.PipeInv_start BZ2_compressBlock k N1 reads hcount) he1
    have hw : p.othread.writer = p1.othread.writer := by
      rw [Compress.PipeInv.writer_finished hinv hf, Compress.PipeInv.writer_finished hinv1 hf1]
    refine ⟨hw, ?_⟩
    unfold Compress.output
    rw [hf, hf1, hw]
  · intro evs p he
    obtain ⟨d, hinv⟩ := Compress.PipeInv_exec hK hids evs
      (Compress.PipeInv_start BZ2_compressBlock k N reads hcount) he
    exact Compress.can_finish BZ2_compressBlock k hN hK hids
      (Compress.LiveInv_exec evs (Compress.LiveInv_start k N reads) he) hinv
  · intro evs p he
    obtain ⟨d, hinv⟩ := Compress.PipeInv_exec hK hids evs
      (Compress.PipeInv_start BZ2_compressBlock k N1 reads hcount) he
    exact Compress.can_finish BZ2_compressBlock k hN1 hK hids
      (Compress.LiveInv_exec evs (Compress.LiveInv_start k N1 reads) he) hinv

/-- C11 at a concrete input: the byte `0x61`, `k = 1`, one worker against two,
with a block coder that copies the block; from the start the threads can run
until the writer has left its loop. -/
theorem Compress_output_independent_of_workers_witness :
    ∃ evs q, Compress.exec (fun _ d _ => (d, 8 * d.length)) 1
        (Compress.start 1 1 [[0x61]]) evs = some q ∧ q.othread.pc = RunPc.finished :=
  (Compress_output_independent_of_workers (fun _ d _ => (d, 8 * d.length)) 1 (by decide)
    (by decide) [[0x61]] (by decide) (by decide) 1 2 (by decide) (by decide)).2.1 [] _ rfl

/-! ## InputThread: the pending run stays within a byte -/

namespace InputThread

/-- The tuple of a run of at least four bytes ends with the count byte. -/
theorem tuple_getLast (d : List Nat) (c n : Nat) (h4 : 4 ≤ n) :
    (d ++ tuple c n).getLast? = some (n - 4) := by
  have e : tuple c n = [c, c, c, c] ++ [n - 4] := by
    unfold tuple
    rw [if_neg (by omega), if_neg (by omega), if_neg (by omega)]
    rfl
  rw [e, ← List.append_assoc, List.getLast?_append]
  rfl

/-- In a state in which the reader invariant holds, `add_pair` stores the
tuple of the pending run, and the count byte is `rle_len - 4` whether taken
as `uint32_t` or as `unsigned char`. -/
theorem add_pair_count {P : List Nat} {t : InputThread} {d : List Nat} (h : ReaderInv P t d) :
    t.rle_ch ≤ 255 ∧ 1 ≤ t.rle_len ∧ t.rle_len ≤ 255 ∧
      t.add_pair.block = some (d ++ tuple t.rle_ch t.rle_len) ∧
      (4 ≤ t.rle_len →
        (d ++ tuple t.rle_ch t.rle_len).getLast? = some (t.rle_len - 4) ∧
        (t.rle_len + 2 ^ 32 - 4) % 2 ^ 32 % 256 = t.rle_len - 4 ∧ t.rle_len - 4 ≤ 251) := by
  have hc := h.ch
  obtain ⟨h1, h255⟩ := h.run
  refine ⟨by omega, h1, h255, ?_, fun h4 => ⟨tuple_getLast d _ _ h4, by omega, by omega⟩⟩
  rw [add_pair_spec t d h.blk hc h1 h255]

end InputThread

/-- C21. For every input and every block size class `k` in `1..9`, however
`fread` cuts the input into reads: after every non-empty prefix of the input,
`rle_ch` is at most 255 and `1 ≤ rle_len ≤ 255`; in that state, and in the
state after the block-full check of the next loop iteration, `add_pair` stores
the tuple of the pending run, whose count byte, for a run of four bytes or
more, is `rle_len - 4` unchanged by the conversions to `uint32_t` and to
`unsigned char` and is at most 251; and every dispatched block is made of
tuples that each stand for at most 255 equal bytes, which the decoder turns
back into those runs. -/
theorem InputThread_pending_run_bounds (k : Nat) (hk1 : 1 ≤ k) (hk9 : k ≤ 9)
    (reads : List (List Nat)) (hbytes : ∀ c ∈ reads, ∀ b ∈ c, b < 256) :
    (∀ P Q, P ≠ [] → consumed reads = P ++ Q →
      ((InputThread.new k).start.feedAll P).rle_ch ≤ 255 ∧
      1 ≤ ((InputThread.new k).start.feedAll P).rle_len ∧
      ((InputThread.new k).start.feedAll P).rle_len ≤ 255 ∧
      ∀ t, (t = (InputThread.new k).start.feedAll P ∨
          t = ((InputThread.new k).start.feedAll P).checkFull) →
        t.rle_ch ≤ 255 ∧ 1 ≤ t.rle_len ∧ t.rle_len ≤ 255 ∧
        ∃ d, t.block = some d ∧ t.add_pair.block = some (d ++ tuple t.rle_ch t.rle_len) ∧
          (4 ≤ t.rle_len →
            (d ++ tuple t.rle_ch t.rle_len).getLast? = some (t.rle_len - 4) ∧
            (t.rle_len + 2 ^ 32 - 4) % 2 ^ 32 % 256 = t.rle_len - 4 ∧
            t.rle_len - 4 ≤ 251)) ∧
    ∀ b ∈ ((InputThread.new k).Run reads).busy_queue,
      ∃ rs : List (Nat × Nat), (∀ r ∈ rs, r.1 < 256 ∧ 1 ≤ r.2 ∧ r.2 ≤ 255) ∧
        b.data = encodeRuns rs ∧ unRLE b.data = expandRuns rs := by
  have hnm := InputThread.nblockMAX_new k hk1 hk9
  have hmax : 0 < (InputThread.new k).nblockMAX := by rw [hnm]; omega
  have hb := InputThread.mem_consumed reads hbytes
  constructor
  · intro P Q hP hPQ
    cases P with
    | nil => exact absurd rfl hP
    | cons x xs =>
      have hbP : ∀ b ∈ x :: xs, b < 256 := fun b hbP =>
        hb b (by rw [hPQ]; exact List.mem_append_left _ hbP)
      obtain ⟨h1, hm1⟩ := InputThread.feed_first (InputThread.new k) hmax rfl x
        (hbP x (List.mem_cons_self _ _))
      obtain ⟨d2, h2, hm2⟩ := InputThread.feedAll_inv xs (by rw [hm1]; exact hmax) h1
        (fun b hb' => hbP b (List.mem_cons_of_mem _ hb'))
      rw [InputThread.feedAll_cons]
      obtain ⟨a1, a2, a3, -, -⟩ := InputThread.add_pair_count h2
      refine ⟨a1, a2, a3, ?_⟩
      intro t ht
      rcases ht with rfl | rfl
      · obtain ⟨b1, b2, b3, b4, b5⟩ := InputThread.add_pair_count h2
        exact ⟨b1, b2, b3, d2, h2.blk, b4, b5⟩
      · obtain ⟨d3, h3, -, -⟩ := InputThread.checkFull_inv (by rw [hm2, hm1]; exact hmax) h2
        obtain ⟨b1, b2, b3, b4, b5⟩ := InputThread.add_pair_count h3
        exact ⟨b1, b2, b3, d3, h3.blk, b4, b5⟩
  · obtain ⟨-, h2⟩ := InputThread.Run_blocks (InputThread.new k) hmax rfl reads hbytes
    intro b hbq
    obtain ⟨-, -, -, ⟨rs, hv, henc, hdec⟩, -⟩ := h2 b hbq
    exact ⟨rs, hv, henc, hdec⟩

/-- C21 at a concrete input: after the five bytes `61 61 61 61 61` the pending
run has length 5 and `add_pair` stores the count byte 1. -/
theorem InputThread_pending_run_bounds_witness :
    ((InputThread.new 1).start.feedAll [0x61, 0x61, 0x61, 0x61, 0x61]).rle_len = 5 ∧
      ((InputThread.new 1).start.feedAll [0x61, 0x61, 0x61, 0x61, 0x61]).rle_len ≤ 255 :=
  ⟨by decide,
    ((InputThread_pending_run_bounds 1 (by decide) (by decide)
      [[0x61, 0x61, 0x61, 0x61, 0x61]] (by decide)).1
      [0x61, 0x61, 0x61, 0x61, 0x61] [] (by decide) (by decide)).2.2.1⟩

/-! ## BitStreamWriter: the bytes delivered do not depend on the buffer size -/

namespace BitStreamWriter

theorem Sim_new (n n1 : Nat) (hn : 1 ≤ n) (hn1 : 1 ≤ n1) : Sim (new n) (new n1) :=
  ⟨rfl, rfl, rfl, hn, hn1⟩

/-- Storing the same byte keeps two writers alike. -/
theorem put_sim {w w1 : BitStreamWriter} (h : Sim w w1) (b : Nat) :
    ∃ v v1, w.put b = some v ∧ w1.put b = some v1 ∧ Sim v v1 := by
  obtain ⟨hs, hr, hl, hb, hb1⟩ := h
  obtain ⟨v, hv, hvs, hvb, -, hvr, hvl⟩ := put_spec w b hb
  obtain ⟨v1, hv1, hv1s, hv1b, -, hv1r, hv1l⟩ := put_spec w1 b hb1
  exact ⟨v, v1, hv, hv1, by rw [hvs, hv1s, hs], by rw [hvr, hv1r, hr], by rw [hvl, hv1l, hl],
    hvb, hv1b⟩

/-- The byte loop of `Write` keeps two writers alike. -/
theorem writeLoop_sim (data : List Nat) : ∀ (w w1 : BitStreamWriter) (r bits : Nat),
    Sim w w1 →
    (writeLoop w r data bits = none ∧ writeLoop w1 r data bits = none) ∨
      ∃ v v1 r1 d1 b1, writeLoop w r data bits = some (v, r1, d1, b1) ∧
        writeLoop w1 r data bits = some (v1, r1, d1, b1) ∧ Sim v v1 := by
  induction data with
  | nil =>
    intro w w1 r bits h
    unfold writeLoop
    by_cases hb : bits ≥ 8
    · left; rw [if_pos hb, if_pos hb]; exact ⟨rfl, rfl⟩
    · right; rw [if_neg hb, if_neg hb]; exact ⟨w, w1, r, [], bits, rfl, rfl, h⟩
  | cons d ds ih =>
    intro w w1 r bits h
    unfold writeLoop
    by_cases hb : bits ≥ 8
    · rw [if_pos hb, if_pos hb]
      simp only
      rw [← h.2.2.1]
      obtain ⟨v, v1, hv, hv1, hsim⟩ :=
        put_sim h ((((r <<< 8) % 2 ^ 32 ||| d <<< (8 - w.live)) >>> 8) &&& 0xff)
      rw [hv, hv1]
      exact ih v v1 _ _ hsim
    · right; rw [if_neg hb, if_neg hb]; exact ⟨w, w1, r, d :: ds, bits, rfl, rfl, h⟩

/-- `Write` keeps two writers alike. -/
theorem Write_sim {w w1 : BitStreamWriter} (h : Sim w w1) (data : List Nat) (bits : Nat) :
    SimOpt (w.Write data bits) (w1.Write data bits) := by
  unfold Write
  rw [← h.2.1]
  rcases writeLoop_sim data w w1 w.reg bits h with ⟨h1, h2⟩ | ⟨v, v1, r1, d1, b1, h1, h2, hs⟩
  · rw [h1, h2]
    trivial
  · rw [h1, h2]
    simp only
    obtain ⟨hst, hr, hl, hb, hb1⟩ := hs
    by_cases h0 : b1 ≠ 0
    · rw [if_pos h0, if_pos h0]
      cases d1 with
      | nil => trivial
      | cons d ds =>
        simp only
        rw [← hl]
        by_cases h8 : v.live + b1 ≥ 8
        · rw [if_pos h8, if_pos h8]
          obtain ⟨u, u1, hu, hu1, hsu⟩ := put_sim ⟨hst, hr, hl, hb, hb1⟩
            ((((r1 <<< 8) % 2 ^ 32 ||| d <<< (8 - v.live)) >>> 8) &&& 0xff)
          rw [hu, hu1]
          exact ⟨hsu.1, rfl, rfl, hsu.2.2.2.1, hsu.2.2.2.2⟩
        · rw [if_neg h8, if_neg h8]
          exact ⟨hst, rfl, rfl, hb, hb1⟩
    · rw [if_neg h0, if_neg h0]
      exact ⟨hst, rfl, hl, hb, hb1⟩

/-- A sequence of `Write` calls keeps two writers alike. -/
theorem writeAll_sim (calls : List (List Nat × Nat)) : ∀ {w w1 : BitStreamWriter},
    Sim w w1 → SimOpt (w.writeAll calls) (w1.writeAll calls) := by
  induction calls with
  | nil => intro w w1 h; exact h
  | cons c cs ih =>
    intro w w1 h
    unfold writeAll
    have hw := Write_sim h c.1 c.2
    cases h1 : w.Write c.1 c.2 with
    | none =>
      cases h2 : w1.Write c.1 c.2 with
      | none => trivial
      | some v1 => rw [h1, h2] at hw; exact hw.elim
    | some v =>
      cases h2 : w1.Write c.1 c.2 with
      | none => rw [h1, h2] at hw; exact hw.elim
      | some v1 =>
        rw [h1, h2] at hw
        exact ih hw

/-- Two writers that are alike deliver the same bytes when destroyed. -/
theorem dtor_sim {w w1 : BitStreamWriter} (h : Sim w w1) :
    w.dtor.map List.flatten = w1.dtor.map List.flatten := by
  unfold dtor
  rw [← h.2.2.1]
  by_cases h0 : w.live > 0
  · rw [if_pos h0, if_pos h0]
    have hw := Write_sim h [0, 0] (8 - w.live)
    cases h1 : w.Write [0, 0] (8 - w.live) with
    | none =>
      cases h2 : w1.Write [0, 0] (8 - w.live) with
      | none => rfl
      | some v1 => rw [h1, h2] at hw; exact hw.elim
    | some v =>
      cases h2 : w1.Write [0, 0] (8 - w.live) with
      | none => rw [h1, h2] at hw; exact hw.elim
      | some v1 =>
        rw [h1, h2] at hw
        show some v.Flush.fp.flatten = some v1.Flush.fp.flatten
        rw [Flush_fp_flatten, Flush_fp_flatten, hw.1]
  · rw [if_neg h0, if_neg h0]
    show some w.Flush.fp.flatten = some w1.Flush.fp.flatten
    rw [Flush_fp_flatten, Flush_fp_flatten, h.1]

end BitStreamWriter

/-- C22. For every sequence of writes and every two buffer sizes `n` and `n1`
of at least one, the chunks handed to the file up to and including the
destruction of the writer, concatenated, are the same byte sequence for `n`
and for `n1` (and a write that reads past its data has no result with either
size); and when every write supplies the bytes its bit count needs, that byte
sequence exists: it has `⌈B/8⌉` bytes, `B` being the total number of bits. -/
theorem BitStreamWriter_output_independent_of_buffer_size (calls : List (List Nat × Nat))
    (n n1 : Nat) (hn : 1 ≤ n) (hn1 : 1 ≤ n1) :
    emittedBytes n calls = emittedBytes n1 calls ∧
      ((∀ c ∈ calls, (∀ b ∈ c.1, b < 256) ∧ (c.2 + 7) / 8 ≤ c.1.length) →
        ∃ out, emittedBytes n calls = some out ∧ emittedBytes n1 calls = some out ∧
          out.length = (totalBits calls + 7) / 8) := by
  have heq : emittedBytes n calls = emittedBytes n1 calls := by
    unfold emittedBytes
    have hw := BitStreamWriter.writeAll_sim calls (BitStreamWriter.Sim_new n n1 hn hn1)
    cases h1 : (BitStreamWriter.new n).writeAll calls with
    | none =>
      cases h2 : (BitStreamWriter.new n1).writeAll calls with
      | none => rfl
      | some v1 => rw [h1, h2] at hw; exact hw.elim
    | some v =>
      cases h2 : (BitStreamWriter.new n1).writeAll calls with
      | none => rw [h1, h2] at hw; exact hw.elim
      | some v1 =>
        rw [h1, h2] at hw
        exact BitStreamWriter.dtor_sim hw
  refine ⟨heq, fun hwf => ?_⟩
  have hlen' : ∀ c ∈ calls, c.2 ≤ 8 * c.1.length := fun c hc => by
    have := (hwf c hc).2; omega
  obtain ⟨w1, hw, hwf1, -, hbits1⟩ := BitStreamWriter.writeAll_spec calls
    (BitStreamWriter.new n) (BitStreamWriter.WF_new n hn)
    (fun c hc => ⟨(hwf c hc).1, hlen' c hc⟩)
  obtain ⟨out, hd, hout⟩ := BitStreamWriter.dtor_spec w1 hwf1
  rw [BitStreamWriter.bits_new, List.nil_append] at hbits1
  have hB := writtenBits_length calls hlen'
  have hlen1 := congrArg List.length hbits1
  rw [BitStreamWriter.bits_length w1 hwf1.1, hB] at hlen1
  have hlen2 := congrArg List.length hout
  rw [streamBits_length, List.length_append, BitStreamWriter.bits_length w1 hwf1.1,
    List.length_replicate] at hlen2
  have hsome : emittedBytes n calls = some out.flatten := by
    unfold emittedBytes
    rw [hw]
    simp [hd]
  refine ⟨out.flatten, hsome, by rw [← heq]; exact hsome, ?_⟩
  have := hwf1.1
  omega

/-- C22 at a concrete input: four writes through a buffer of one byte and
through a buffer of three bytes. -/
theorem BitStreamWriter_output_independent_of_buffer_size_witness :
    emittedBytes 1 [([0xAB, 0xCD], 12), ([0xFF], 3), ([0x12, 0x34, 0x56], 24), ([0x80], 1)]
      = emittedBytes 3 [([0xAB, 0xCD], 12), ([0xFF], 3), ([0x12, 0x34, 0x56], 24), ([0x80], 1)] :=
  (BitStreamWriter_output_independent_of_buffer_size _ 1 3 (by decide) (by decide)).1

/-! ## InputThread: blocks are cut between the tuples of the input's runs -/

/-- The runs of a byte string stand for that byte string. -/
theorem expandRuns_runsFrom (xs : List Nat) : ∀ (c n : Nat),
    expandRuns (runsFrom c n xs) = List.replicate n c ++ xs := by
  induction xs with
  | nil => intro c n; simp [runsFrom, expandRuns]
  | cons x xs ih =>
    intro c n
    unfold runsFrom
    by_cases h : x = c ∧ n ≠ 255
    · rw [if_pos h, ih, List.replicate_succ', h.1]
      simp
    · rw [if_neg h]
      show expandRuns ([(c, n)] ++ runsFrom x 1 xs) = _
      unfold expandRuns
      rw [List.flatMap_append]
      have := ih x 1
      unfold expandRuns at this
      rw [this]
      simp [List.replicate]

theorem expandRuns_rleRuns (X : List Nat) : expandRuns (rleRuns X) = X := by
  cases X with
  | nil => rfl
  | cons x xs =>
    show expandRuns (runsFrom x 1 xs) = _
    rw [expandRuns_runsFrom]
    rfl

/-- The first of the runs that follow a pending run of bytes `c` is a run of
bytes `c`. -/
theorem runsFrom_head (xs : List Nat) : ∀ (c n : Nat),
    ∃ m rest, runsFrom c n xs = (c, m) :: rest ∧ n ≤ m := by
  induction xs with
  | nil => intro c n; exact ⟨n, [], rfl, Nat.le_refl _⟩
  | cons x xs ih =>
    intro c n
    unfold runsFrom
    by_cases h : x = c ∧ n ≠ 255
    · rw [if_pos h]
      obtain ⟨m, rest, e, hm⟩ := ih c (n + 1)
      exact ⟨m, rest, e, by omega⟩
    · rw [if_neg h]
      exact ⟨n, _, rfl, Nat.le_refl _⟩

/-- The runs of a byte string are as long as can be: two neighbours are runs
of different bytes unless the first has 255 bytes. -/
theorem runsFrom_chain (xs : List Nat) : ∀ (c n : Nat),
    (runsFrom c n xs).Chain' fun a b => a.1 ≠ b.1 ∨ a.2 = 255 := by
  induction xs with
  | nil => intro c n; simp [runsFrom]
  | cons x xs ih =>
    intro c n
    unfold runsFrom
    by_cases h : x = c ∧ n ≠ 255
    · rw [if_pos h]
      exact ih c (n + 1)
    · rw [if_neg h]
      obtain ⟨m, rest, e, -⟩ := runsFrom_head xs x 1
      have hc := ih x 1
      rw [e] at hc ⊢
      refine List.Chain'.cons ?_ hc
      show c ≠ x ∨ n = 255
      by_cases hx : x = c
      · right
        by_contra hn
        exact h ⟨hx, hn⟩
      · left
        exact fun e' => hx e'.symm

namespace InputThread

/-- The block-full check keeps the runs: a full block takes the runs of the
current block with it. -/
theorem checkFull_runs {P X Q : List Nat} {s : InputThread} {d : List Nat}
    {rss : List (List (Nat × Nat))} {cur : List (Nat × Nat)} (hmax : 0 < s.nblockMAX)
    (h : ReaderInv P s d) (hr : RunsInv X Q s rss cur) :
    ∃ rss1 cur1, RunsInv X Q s.checkFull rss1 cur1 := by
  have hd : d = encodeRuns cur := by
    have := h.blk
    rw [hr.blk] at this
    exact (Option.some.inj this).symm
  by_cases hfull : s.nblock ≥ s.nblockMAX
  · have hne : s.block ≠ none := by rw [h.blk]; simp
    rw [checkFull_dispatch s hfull hne]
    have hcur : cur ≠ [] := by
      intro e
      have hl := h.len
      rw [hd, e] at hl
      have : s.nblock = 0 := hl
      omega
    have hwhole : WholeTuples cur := by
      refine ⟨hcur, hr.valid, hr.dec, ?_⟩
      rw [← hd]
      exact h.boundary.1
    refine ⟨rss ++ [cur], [], ?_⟩
    exact
      { done := by
          show (s.busy_queue ++ [_]).map InputBlock.bytes = _
          rw [List.map_append, List.map_append, hr.done, List.map_singleton, List.map_singleton]
          have hb : InputBlock.bytes
              { data := s.block.getD [], size := s.nblock, crc := BZ_FINALISE_CRC s.crc,
                id := s.block_id } = encodeRuns cur := by
            rw [bytes_mk _ _ _ _ (by rw [h.blk]; exact h.len), h.blk, hd]
            rfl
          rw [hb]
        blk := rfl
        runs := by
          show rleRuns X = (rss ++ [cur]).flatten ++ [] ++ runsFrom s.rle_ch s.rle_len Q
          rw [List.flatten_append, List.flatten_singleton, List.append_nil]
          exact hr.runs
        whole := by
          intro rs hrs
          rcases List.mem_append.1 hrs with hrs | hrs
          · exact hr.whole rs hrs
          · rw [List.mem_singleton.1 hrs]; exact hwhole
        valid := by intro r hr'; simp at hr'
        dec := rfl }
  · unfold checkFull
    rw [if_neg hfull]
    exact ⟨rss, cur, hr⟩

/-- The run-length step keeps the runs: the byte read extends the pending run
or closes it, as in `runsFrom`. -/
theorem rleByte_runs {P X Q : List Nat} {s : InputThread} {d : List Nat}
    {rss : List (List (Nat × Nat))} {cur : List (Nat × Nat)} (ch : Nat)
    (h : ReaderInv P s d) (hr : RunsInv X (ch :: Q) s rss cur) :
    ∃ cur1, RunsInv X Q (s.rleByte ch) rss cur1 := by
  have hd : d = encodeRuns cur := by
    have := h.blk
    rw [hr.blk] at this
    exact (Option.some.inj this).symm
  obtain ⟨hb3, hbne⟩ := h.boundary
  obtain ⟨hr1, hr255⟩ := h.run
  have htup := unRLE_tuple (unRLEState 0 0 d).1 (unRLEState 0 0 d).2 s.rle_ch s.rle_len
    hb3 hbne hr1
  have hdec1 : unRLE (encodeRuns (cur ++ [(s.rle_ch, s.rle_len)]))
      = expandRuns (cur ++ [(s.rle_ch, s.rle_len)]) := by
    rw [encodeRuns_snoc, expandRuns_snoc, ← hr.dec, ← hd]
    unfold unRLE
    rw [unRLEFrom_append, htup.1]
  have hvalid1 : ∀ r ∈ cur ++ [(s.rle_ch, s.rle_len)], validRun r := by
    intro r hr'
    rcases List.mem_append.1 hr' with hr' | hr'
    · exact hr.valid r hr'
    · rw [List.mem_singleton.1 hr']; exact ⟨h.ch, hr1, hr255⟩
  have hm : s.rle_ch % 256 = s.rle_ch := Nat.mod_eq_of_lt h.ch
  have hruns := hr.runs
  unfold runsFrom at hruns
  unfold rleByte
  by_cases hA : ch ≠ s.rle_ch ∧ s.rle_len = 1
  · rw [if_pos hA]
    obtain ⟨hne, hone⟩ := hA
    rw [if_neg (fun e : ch = s.rle_ch ∧ s.rle_len ≠ 255 => hne e.1)] at hruns
    refine ⟨cur ++ [(s.rle_ch, s.rle_len)], ?_⟩
    exact
      { done := hr.done
        blk := by
          show (s.block.map (· ++ [s.rle_ch % 256])) = some _
          rw [hr.blk, hm, encodeRuns_snoc, hone, tuple_one]
          rfl
        runs := by
          show rleRuns X = rss.flatten ++ (cur ++ [(s.rle_ch, s.rle_len)])
            ++ runsFrom ch s.rle_len Q
          rw [hruns, hone]
          simp only [List.append_assoc, List.singleton_append]
        whole := hr.whole
        valid := hvalid1
        dec := hdec1 }
  · rw [if_neg hA]
    by_cases hB : ch = s.rle_ch ∧ s.rle_len ≠ 255
    · rw [if_pos hB]
      rw [if_pos hB] at hruns
      have hmod : (s.rle_len + 1) % 2 ^ 32 = s.rle_len + 1 := Nat.mod_eq_of_lt (by omega)
      rw [hmod]
      exact ⟨cur,
        { done := hr.done
          blk := hr.blk
          runs := hruns
          whole := hr.whole
          valid := hr.valid
          dec := hr.dec }⟩
    · rw [if_neg hB]
      rw [if_neg hB] at hruns
      have hne256 : s.rle_ch ≠ 256 := by have := h.ch; omega
      simp only [hne256, ne_eq, not_false_eq_true, if_true]
      rw [add_pair_spec s d h.blk h.ch hr1 hr255]
      refine ⟨cur ++ [(s.rle_ch, s.rle_len)], ?_⟩
      exact
        { done := hr.done
          blk := by
            show some (d ++ tuple s.rle_ch s.rle_len) = some _
            rw [encodeRuns_snoc, hd]
          runs := by
            show rleRuns X = rss.flatten ++ (cur ++ [(s.rle_ch, s.rle_len)])
              ++ runsFrom ch 1 Q
            rw [hruns]
            simp only [List.append_assoc, List.singleton_append]
          whole := hr.whole
          valid := hvalid1
          dec := hdec1 }

/-- The loop iterations of one buffer fill keep the runs. -/
theorem feedAll_runs (X : List Nat) (buf : List Nat) :
    ∀ {P Q : List Nat} {s : InputThread} {d : List Nat} {rss : List (List (Nat × Nat))}
      {cur : List (Nat × Nat)}, 0 < s.nblockMAX → ReaderInv P s d →
      RunsInv X (buf ++ Q) s rss cur → (∀ b ∈ buf, b < 256) →
      ∃ rss1 cur1, RunsInv X Q (s.feedAll buf) rss1 cur1 := by
  induction buf with
  | nil => intro P Q s d rss cur _ _ hr _; exact ⟨rss, cur, hr⟩
  | cons c cs ih =>
    intro P Q s d rss cur hmax h hr hb
    obtain ⟨d1, h1, hroom, hm1⟩ := checkFull_inv hmax h
    obtain ⟨rss1, cur1, hr1⟩ := checkFull_runs hmax h hr
    obtain ⟨cur2, hr2⟩ := rleByte_runs c h1 hr1
    obtain ⟨d2, h2, hm2⟩ := rleByte_inv h1 hroom c (hb c (List.mem_cons_self _ _))
    rw [feedAll_cons]
    exact ih (by show (s.checkFull.rleByte c).nblockMAX > 0; rw [hm2, hm1]; exact hmax) h2 hr2
      (fun b hb' => hb b (List.mem_cons_of_mem _ hb'))

/-- The blocks of a whole `Run`, for a reader that starts with an empty busy
queue: they hold the tuples of the runs of the input, cut between tuples. -/
theorem Run_runs (s : InputThread) (hmax : 0 < s.nblockMAX) (hq : s.busy_queue = [])
    (reads : List (List Nat)) (hbytes : ∀ c ∈ reads, ∀ b ∈ c, b < 256) :
    ∃ rss : List (List (Nat × Nat)),
      rss.flatten = rleRuns (consumed reads) ∧
      (s.Run reads).busy_queue.map InputBlock.bytes = rss.map encodeRuns ∧
      ∀ rs ∈ rss, WholeTuples rs := by
  have hb := mem_consumed reads hbytes
  cases hX : consumed reads with
  | nil =>
    obtain ⟨h1, -⟩ := Run_empty s reads hX
    rw [h1, hq]
    exact ⟨[], rfl, rfl, by intro rs hrs; simp at hrs⟩
  | cons x xs =>
    rw [hX] at hb
    obtain ⟨h1, hm1⟩ := feed_first s hmax hq x (hb x (List.mem_cons_self _ _))
    have hstep := feed_start_eq s x (hb x (List.mem_cons_self _ _))
    have hr1 : RunsInv (x :: xs) (xs ++ []) (s.start.feed x) [] [] := by
      rw [hstep]
      exact
        { done := by show s.busy_queue.map InputBlock.bytes = _; rw [hq]; rfl
          blk := rfl
          runs := by
            show runsFrom x 1 xs = [] ++ [] ++ runsFrom x 1 (xs ++ [])
            rw [List.append_nil, List.append_nil, List.nil_append]
          whole := by intro rs hrs; simp at hrs
          valid := by intro r hr'; simp at hr'
          dec := rfl }
    obtain ⟨d2, h2, -⟩ := feedAll_inv xs (by rw [hm1]; exact hmax) h1
      (fun b hb' => hb b (List.mem_cons_of_mem _ hb'))
    obtain ⟨rss, cur, hr2⟩ := feedAll_runs (x :: xs) xs (by rw [hm1]; exact hmax) h1 hr1
      (fun b hb' => hb b (List.mem_cons_of_mem _ hb'))
    have hd : d2 = encodeRuns cur := by
      have := h2.blk
      rw [hr2.blk] at this
      exact (Option.some.inj this).symm
    obtain ⟨hb3, hbne⟩ := h2.boundary
    obtain ⟨hr1', hr255⟩ := h2.run
    have htup := unRLE_tuple (unRLEState 0 0 d2).1 (unRLEState 0 0 d2).2
      ((s.start.feed x).feedAll xs).rle_ch ((s.start.feed x).feedAll xs).rle_len hb3 hbne hr1'
    have hwhole : WholeTuples
        (cur ++ [(((s.start.feed x).feedAll xs).rle_ch, ((s.start.feed x).feedAll xs).rle_len)]) := by
      refine ⟨by simp, ?_, ?_, ?_⟩
      · intro r hr'
        rcases List.mem_append.1 hr' with hr' | hr'
        · exact hr2.valid r hr'
        · rw [List.mem_singleton.1 hr']; exact ⟨h2.ch, hr1', hr255⟩
      · rw [encodeRuns_snoc, expandRuns_snoc, ← hr2.dec, ← hd]
        unfold unRLE
        rw [unRLEFrom_append, htup.1]
      · rw [encodeRuns_snoc, ← hd, unRLEState_append, htup.2]
        show (if _ ≤ 3 then _ else 0) ≤ 3
        split_ifs with h3
        · exact h3
        · omega
    refine ⟨rss ++ [cur ++
      [(((s.start.feed x).feedAll xs).rle_ch, ((s.start.feed x).feedAll xs).rle_len)]],
      ?_, ?_, ?_⟩
    · have hruns := hr2.runs
      rw [hruns, List.flatten_append, List.flatten_singleton]
      simp only [runsFrom, List.append_assoc]
    · rw [Run_eq, hX, feedAll_cons, finish_spec _ d2 h2.blk h2.ch hr1' hr255]
      show (_ ++ [_]).map InputBlock.bytes = _
      rw [List.map_append, List.map_append, hr2.done, List.map_singleton, List.map_singleton,
        bytes_mk _ _ _ _ (by rw [List.length_append, h2.len]), encodeRuns_snoc, hd]
    · intro rs hrs
      rcases List.mem_append.1 hrs with hrs | hrs
      · exact hr2.whole rs hrs
      · rw [List.mem_singleton.1 hrs]; exact hwhole

end InputThread

/-- C3. For every input and every block size class `k` in `1..9`, however
`fread` cuts the input into reads: the blocks dispatched by `Run`, each decoded
on its own by the RLE-1 decoder and concatenated in dispatch order, give back
exactly the bytes read; and every block starts and ends on a tuple boundary:
the runs of the input (its longest runs of equal bytes, cut at 255 bytes, which
stand for the input) fall into consecutive groups, one for each block in
dispatch order, such that the bytes `data[0..size)` of a block are the tuples
of the runs of its group, one after the other; each group has at least one
run, the decoder started on the block gives back exactly the bytes of its
runs, and at the end of every block the decoder is not waiting for a count
byte. -/
theorem InputThread_blocks_decode_to_input (k : Nat) (hk1 : 1 ≤ k) (hk9 : k ≤ 9)
    (reads : List (List Nat)) (hbytes : ∀ c ∈ reads, ∀ b ∈ c, b < 256) :
    (((InputThread.new k).Run reads).busy_queue.map fun b : InputBlock =>
        unRLE (b.data.take b.size)).flatten = consumed reads ∧
      (∃ rss : List (List (Nat × Nat)),
        rss.flatten = rleRuns (consumed reads) ∧
        (((InputThread.new k).Run reads).busy_queue.map fun b : InputBlock =>
          b.data.take b.size) = rss.map encodeRuns ∧
        ∀ rs ∈ rss, rs ≠ [] ∧ (∀ r ∈ rs, validRun r) ∧
          unRLE (encodeRuns rs) = expandRuns rs ∧
          (unRLEState 0 0 (encodeRuns rs)).2 ≤ 3) ∧
      (∀ b ∈ ((InputThread.new k).Run reads).busy_queue,
        (unRLEState 0 0 (b.data.take b.size)).2 ≤ 3) ∧
      expandRuns (rleRuns (consumed reads)) = consumed reads ∧
      (rleRuns (consumed reads)).Chain' fun a b => a.1 ≠ b.1 ∨ a.2 = 255 := by
  have hmax : 0 < (InputThread.new k).nblockMAX := by
    rw [InputThread.nblockMAX_new k hk1 hk9]; omega
  obtain ⟨h1, -⟩ := InputThread.Run_blocks (InputThread.new k) hmax rfl reads hbytes
  obtain ⟨rss, hflat, hmap, hwhole⟩ :=
    InputThread.Run_runs (InputThread.new k) hmax rfl reads hbytes
  refine ⟨h1, ⟨rss, hflat, hmap, hwhole⟩, ?_, expandRuns_rleRuns _, ?_⟩
  · intro b hb
    have hmem : InputBlock.bytes b ∈ rss.map encodeRuns := by
      rw [← hmap]
      exact List.mem_map.2 ⟨b, hb, rfl⟩
    obtain ⟨rs, hrs, he⟩ := List.mem_map.1 hmem
    show (unRLEState 0 0 (InputBlock.bytes b)).2 ≤ 3
    rw [← he]
    exact (hwhole rs hrs).2.2.2
  · cases hX : consumed reads with
    | nil => exact List.chain'_nil
    | cons x xs => exact runsFrom_chain xs x 1

/-- C3 at a concrete input read in three pieces. -/
theorem InputThread_blocks_decode_to_input_witness :
    (((InputThread.new 1).Run [[1, 1, 1, 1, 1, 2, 2], [3, 3, 3, 3], [3, 3, 4]]).busy_queue.map
        fun b : InputBlock => unRLE (b.data.take b.size)).flatten
      = [1, 1, 1, 1, 1, 2, 2, 3, 3, 3, 3, 3, 3, 4] :=
  (InputThread_blocks_decode_to_input 1 (by decide) (by decide)
    [[1, 1, 1, 1, 1, 2, 2], [3, 3, 3, 3], [3, 3, 4]] (by decide)).1

/-! ## wxsheet: a cell name can point below the last row -/

namespace Sheet

/-- `ParseCell` does not look at the sheet. -/
theorem ParseCell_any (sh sh1 : Sheet) (name : Option String) :
    sh.ParseCell name = sh1.ParseCell name := rfl

/-- A name that `ParseCell` accepts gives a column in `0..25` and a row in
`0..MaximumRows - 1`. -/
theorem ParseCell_range (sh : Sheet) (name : Option String) (r c : Int)
    (h : sh.ParseCell name = some (r, c)) :
    0 ≤ r ∧ r < MaximumRows ∧ 0 ≤ c ∧ c < 26 := by
  unfold ParseCell at h
  cases name with
  | none => cases h
  | some s =>
    simp only at h
    cases hs : s.data with
    | nil => rw [hs] at h; cases h
    | cons c0 rest =>
      rw [hs] at h
      simp only at h
      split at h
      · cases h
      · split at h
        · cases h
        · rename_i hc
          cases hr : sscanf_d rest with
          | none => rw [hr] at h; cases h
          | some r0 =>
            rw [hr] at h
            simp only at h
            split at h
            · cases h
            · rename_i hrow
              simp only [Option.some.injEq, Prod.mk.injEq] at h
              obtain ⟨h1, h2⟩ := h
              subst h1 h2
              omega

/-- `Valid(r, c)` holds exactly when `data[r][c]` is an element of the
vectors. -/
theorem Valid_iff_cellAt (sh : Sheet) (r c : Int) :
    sh.Valid r c = true ↔ ∃ x, sh.cellAt r c = some x := by
  unfold Valid cellAt
  rw [decide_eq_true_iff]
  constructor
  · rintro ⟨h1, h2, h3, h4⟩
    have hr : r.toNat < sh.data.length := by omega
    rw [if_neg (by omega), List.get?_eq_getElem?, List.getElem?_eq_getElem hr, Option.some_bind]
    rw [List.getD_eq_getElem?_getD, List.getElem?_eq_getElem hr, Option.getD_some] at h4
    have hc : c.toNat < (sh.data[r.toNat]).length := by omega
    exact ⟨_, by rw [List.get?_eq_getElem?, List.getElem?_eq_getElem hc]⟩
  · rintro ⟨x, hx⟩
    by_cases hneg : r < 0 ∨ c < 0
    · rw [if_pos hneg] at hx; cases hx
    · rw [if_neg hneg] at hx
      cases hrow : sh.data.get? r.toNat with
      | none => rw [hrow] at hx; cases hx
      | some row =>
        rw [hrow, Option.some_bind] at hx
        rw [List.get?_eq_getElem?] at hrow hx
        obtain ⟨hr, hrow2⟩ := List.getElem?_eq_some_iff.1 hrow
        obtain ⟨hc, -⟩ := List.getElem?_eq_some_iff.1 hx
        rw [List.getD_eq_getElem?_getD, List.getElem?_eq_getElem hr, Option.getD_some, hrow2]
        omega

/-- For a sheet whose rows have 26 cells each, a name that `ParseCell` accepts
is valid exactly when its row is among the rows of the sheet. -/
theorem ParseCell_Valid_iff (sh : Sheet) (hrows : ∀ row ∈ sh.data, row.length = 26)
    (name : Option String) (r c : Int) (h : sh.ParseCell name = some (r, c)) :
    sh.Valid r c = true ↔ r < (sh.data.length : Int) := by
  obtain ⟨h1, -, h3, h4⟩ := ParseCell_range sh name r c h
  unfold Valid
  rw [decide_eq_true_iff]
  constructor
  · intro hv; exact hv.2.1
  · intro hr
    have hr2 : r.toNat < sh.data.length := by omega
    refine ⟨h1, hr, h3, ?_⟩
    rw [List.getD_eq_getElem?_getD, List.getElem?_eq_getElem hr2, Option.getD_some,
      hrows _ (List.getElem_mem hr2)]
    exact h4

end Sheet

/-- C23. In the sheet made by the constructor, of 100 rows, `ParseCell`
accepts the name `A500` and gives row 499 and column 0, for which `Valid` is
false; `CellFn` goes on to `ComputeCell(499, 0)`, whose access `data[499][0]`
is outside `data`. -/
theorem CellFn_access_outside_sheet :
    Sheet.new.ParseCell (some "A500") = some (499, 0) ∧
      Sheet.new.Valid 499 0 = false ∧
      Sheet.new.CellFn "A500" = CellFnAccess.outOfBounds 499 0 := by
  decide


end Mtbzip2
